import Mathlib

/-!
# calbot: event extraction and finalization

A shallow embedding of `main.go` (package `main` of `cptaffe/calbot`): the pattern
table, the tokenizer adapter (`Peek`/`Next`/`TagName`), the continuation-style state
machine parser (`ParseRoot`, `ParseHeader`, `ParseSection`, `ParseParagraph`,
`ParseLink`, `ParseBold`, `IgnoreTag`, `Run`), `SetDates`/`parseWeekday`, `finalize` and
the choice of the anchor date at the top of `Server.Generate`.

Conventions of the embedding.

* Go strings are modelled as `List Char` (sequences of code points; the program only
  handles text that the HTML tokenizer produced, taken to be valid UTF-8).
* `time.Time` values are modelled as a wall-clock instant in one fixed-offset location:
  a day number counted from the zero time and the nanoseconds elapsed since midnight.
  `After` compares, as Go does, the seconds since the zero time kept in an `int64`, which
  wrap around outside the range of that type.
* Channels are modelled by the list of values sent on them, in sending order.
* `log.Fatal` and `panic` end the process; functions that can reach them return an
  explicit outcome saying so.
* Regular expressions are kept as syntax trees that mirror the source patterns and are
  run by a backtracking matcher that lists the matches in the priority order of Go's
  `regexp` package (leftmost-first: the match a backtracking search finds first).
-/

namespace Calbot

/-! ## Regular expressions (package `regexp`) -/

/-- Syntax of the regular expressions used by the pattern table. -/
inductive Regex where
  | empty : Regex
  | char : Char → Regex
  | set : (Char → Bool) → Regex
  | cat : Regex → Regex → Regex
  | alt : Regex → Regex → Regex
  | opt : Regex → Regex
  | star : Regex → Regex
  | lazyStar : Regex → Regex
  | plus : Regex → Regex
  | group : Nat → Regex → Regex
  | bol : Regex
  | eol : Regex

/-- Capture groups recorded so far, most recent binding first. -/
abbrev Caps := List (Nat × List Char)

/-- A matcher thread: the input still to be read and the captures so far. -/
abbrev Thread := List Char × Caps

/-- Text of capture group `i`, the empty string when the group took no part in the match
(as in the slices returned by `FindAllStringSubmatch`). -/
def Caps.get (c : Caps) (i : Nat) : List Char :=
  match c with
  | [] => []
  | (j, s) :: rest => if j = i then s else Caps.get rest i

/-- Greedy iteration: every way of running `step` repeatedly (each round consuming input),
more rounds first. -/
def starRuns (step : List Char → Caps → List Thread) : Nat → List Char → Caps → List Thread
  | 0, s, c => [(s, c)]
  | n + 1, s, c =>
    ((step s c).filter (fun x => x.1.length < s.length)).flatMap
        (fun x => starRuns step n x.1 x.2) ++ [(s, c)]

/-- Lazy iteration: as `starRuns`, fewer rounds first. -/
def lazyRuns (step : List Char → Caps → List Thread) : Nat → List Char → Caps → List Thread
  | 0, s, c => [(s, c)]
  | n + 1, s, c =>
    (s, c) :: ((step s c).filter (fun x => x.1.length < s.length)).flatMap
        (fun x => lazyRuns step n x.1 x.2)

/-- All the ways `r` matches a prefix of `s`, in priority order. `n` is the length of the
whole subject, by which `^` recognises the start of the text. -/
def Regex.run (n : Nat) : Regex → List Char → Caps → List Thread
  | .empty, s, c => [(s, c)]
  | .char a, s, c =>
    match s with
    | [] => []
    | x :: xs => if x = a then [(xs, c)] else []
  | .set p, s, c =>
    match s with
    | [] => []
    | x :: xs => if p x then [(xs, c)] else []
  | .cat r₁ r₂, s, c => (r₁.run n s c).flatMap (fun x => r₂.run n x.1 x.2)
  | .alt r₁ r₂, s, c => r₁.run n s c ++ r₂.run n s c
  | .opt r, s, c => r.run n s c ++ [(s, c)]
  | .star r, s, c => starRuns (r.run n) s.length s c
  | .lazyStar r, s, c => lazyRuns (r.run n) s.length s c
  | .plus r, s, c => (r.run n s c).flatMap (fun x => starRuns (r.run n) x.1.length x.1 x.2)
  | .group i r, s, c =>
    (r.run n s c).map (fun x => (x.1, (i, s.take (s.length - x.1.length)) :: x.2))
  | .bol, s, c => if s.length = n then [(s, c)] else []
  | .eol, s, c => if s = [] then [(s, c)] else []

/-- The preferred match of `r` starting exactly at the head of `s`. -/
def Regex.matchHere (n : Nat) (r : Regex) (s : List Char) : Option Caps :=
  ((r.run n s []).head?).map (fun x => x.2)

/-- Leftmost search: the first start position, from the left, at which `r` matches. -/
def Regex.search (n : Nat) (r : Regex) : List Char → Option Caps
  | [] => r.matchHere n []
  | x :: xs =>
    match r.matchHere n (x :: xs) with
    | some c => some c
    | none => Regex.search n r xs

/-- The call `re.FindAllStringSubmatch(s, 1)`: `none` for a nil result, otherwise the
capture groups of the first match (`match[0][i]` is `Caps.get c i`). -/
def Regex.FindAllStringSubmatch (r : Regex) (s : List Char) : Option Caps :=
  r.search s.length s

/-- The call `re.Match(b)`. -/
def Regex.Match (r : Regex) (s : List Char) : Bool :=
  (r.FindAllStringSubmatch s).isSome

/-- A literal string. -/
def lit : List Char → Regex
  | [] => .empty
  | [a] => .char a
  | a :: rest => .cat (.char a) (lit rest)

/-- Concatenation of several expressions. -/
def cats : List Regex → Regex
  | [] => .empty
  | [r] => r
  | r :: rest => .cat r (cats rest)

/-- Alternation of several literal strings, first alternative preferred. -/
def alts : List (List Char) → Regex
  | [] => .set (fun _ => false)
  | [a] => lit a
  | a :: rest => .alt (lit a) (alts rest)

/-- The class `[ \t]` (space or tab). -/
def blank : Regex := .set (fun c => c = ' ' || c = '\t')

/-- The class `[lo-hi]`. -/
def range (lo hi : Char) : Regex := .set (fun c => decide (lo ≤ c) && decide (c ≤ hi))

/-- The wildcard `.`, any character but a line feed. -/
def anyChar : Regex := .set (fun c => c != '\n')

/-- The weekday alternation `Thursday|Friday|Saturday|Sunday`. -/
def weekdays : Regex :=
  alts ["Thursday".toList, "Friday".toList, "Saturday".toList, "Sunday".toList]

/-- The alternation `-|–|&`. -/
def dashOrAmp : Regex := alts [['-'], ['–'], ['&']]

/-- The alternation `-|–`. -/
def dash : Regex := alts [['-'], ['–']]

/-- The sub-pattern `[1-9][0-2]*(:[0-6][0-9])?` with its minute group numbered `g`. -/
def clock (g : Nat) : Regex :=
  cats [range '1' '9', .star (range '0' '2'),
        .opt (.group g (cats [.char ':', range '0' '6', range '0' '9']))]

/-- The pattern
`^(Thursday|Friday|Saturday|Sunday)([ \t]*(-|–|&) (Thursday|Friday|Saturday|Sunday))?,[ \t]*(January|…|December)[ \t]*([1-9][0-9]*)([ \t]*(-|–|&)[ \t]*?([1-9][0-9]*))?$`. -/
def eventPattern : Regex :=
  cats [.bol,
        .group 1 weekdays,
        .opt (.group 2 (cats [.star blank, .group 3 dashOrAmp, .char ' ', .group 4 weekdays])),
        .char ',', .star blank,
        .group 5 (alts ["January".toList, "February".toList, "March".toList, "April".toList,
          "May".toList, "June".toList, "July".toList, "August".toList, "September".toList,
          "October".toList, "November".toList, "December".toList]),
        .star blank,
        .group 6 (cats [range '1' '9', .star (range '0' '9')]),
        .opt (.group 7 (cats [.star blank, .group 8 dashOrAmp, .lazyStar blank,
          .group 9 (cats [range '1' '9', .star (range '0' '9')])])),
        .eol]

/-- The pattern
`(([1-9][0-2]*(:[0-6][0-9])?)([ \t]*((a|p)\.?m\.?)?[ \t]*(-|–)[ \t]*([1-9][0-2]*(:[0-6][0-9])?))?[ \t]+(a|p)\.?m\.?)`. -/
def singleDayTimePattern : Regex :=
  .group 1 (cats [
    .group 2 (clock 3),
    .opt (.group 4 (cats [
      .star blank,
      .opt (.group 5 (cats [.group 6 (alts [['a'], ['p']]), .opt (.char '.'), .char 'm',
        .opt (.char '.')])),
      .star blank, .group 7 dash, .star blank,
      .group 8 (clock 9)])),
    .plus blank, .group 10 (alts [['a'], ['p']]), .opt (.char '.'), .char 'm',
    .opt (.char '.')])

/-- The pattern `Learn more here.?`. -/
def linkTextPattern : Regex :=
  cats [lit "Learn more here".toList, .opt anyChar]

/-- The pattern `(.*) (at|in) (the )?(.*)`. -/
def locationTextPattern : Regex :=
  cats [.group 1 (.star anyChar), .char ' ', .group 2 (alts ["at".toList, "in".toList]),
        .char ' ', .opt (.group 3 (lit "the ".toList)), .group 4 (.star anyChar)]

/-! ## Strings (packages `strings`, `unicode`, `fmt`) -/

/-- The call `strings.Trim(s, cutset)`: `s` without the leading and trailing characters
that occur in `cutset`. -/
def Trim (s cutset : List Char) : List Char :=
  (s.dropWhile (fun c => cutset.contains c)).rdropWhile (fun c => cutset.contains c)

/-- The predicate `unicode.IsSpace`. -/
def isSpace (c : Char) : Bool :=
  c = '\t' || c = '\n' || c = Char.ofNat 0x0B || c = Char.ofNat 0x0C || c = '\r' || c = ' ' ||
  c = Char.ofNat 0x85 || c = Char.ofNat 0xA0 || c = Char.ofNat 0x1680 ||
  (decide (0x2000 ≤ c.toNat) && decide (c.toNat ≤ 0x200A)) ||
  c = Char.ofNat 0x2028 || c = Char.ofNat 0x2029 || c = Char.ofNat 0x202F ||
  c = Char.ofNat 0x205F || c = Char.ofNat 0x3000

/-- The call `strings.TrimSpace(s)`. -/
def TrimSpace (s : List Char) : List Char :=
  (s.dropWhile isSpace).rdropWhile isSpace

/-- The call `strings.SplitN(s, sep, 2)` for a one-character separator: `[s]` when `sep`
does not occur, otherwise the text before and the text after its first occurrence. -/
def SplitN2 (s : List Char) (sep : Char) : List (List Char) :=
  match s.span (fun c => c != sep) with
  | (a, []) => [a]
  | (a, _ :: b) => [a, b]

/-- The call `strings.ToUpper(s)`, on the ASCII letters (the only text it receives here is
a captured `a` or `p`). -/
def ToUpper (s : List Char) : List Char := s.map Char.toUpper

/-- Lower-case mapping of one character as `unicode.ToLower` gives it wherever the result
is an ASCII letter; other characters, whose lower case is not ASCII, are left alone. -/
def toLowerChar (c : Char) : Char :=
  if c = Char.ofNat 0x130 then 'i'
  else if c = Char.ofNat 0x212A then 'k'
  else c.toLower

/-- The call `strings.ToLower(s)` (exact up to comparison with ASCII text). -/
def ToLower (s : List Char) : List Char := s.map toLowerChar

/-! ## Time (package `time`) -/

/-- A `time.Time`: the day, counted from the day of the zero time, and the nanoseconds
since midnight of that day, both read on the wall clock of one fixed-offset location (taken
at offset zero where the seconds a `time.Time` keeps are counted). -/
structure Time where
  day : Int
  nsec : Nat
  deriving DecidableEq, Repr

/-- Nanoseconds in a day. -/
def nsPerDay : Nat := 86400 * 1000000000

/-- The constant `time.Hour`, in nanoseconds. -/
def Hour : Nat := 3600 * 1000000000

/-- The zero value `time.Time{}`. -/
def Time.zero : Time := ⟨0, 0⟩

/-- The method `t.IsZero()`. -/
def Time.IsZero (t : Time) : Bool := t.day == 0 && t.nsec == 0

/-- The call `t.AddDate(0, 0, days)`: same wall-clock time, `days` calendar days later. The
day number is the calendar reading of the result, which `time.Date` computes from the
calendar fields; the seconds the result keeps wrap at the ends of the `int64` range (see
`Time.ext`), which shows in the order of instants, `Time.After`, not in their calendar
reading. -/
def Time.AddDate (t : Time) (days : Int) : Time := ⟨t.day + days, t.nsec⟩

/-- The call `t.Add(d)` for a non-negative duration of `d` nanoseconds. -/
def Time.Add (t : Time) (d : Nat) : Time :=
  ⟨t.day + ((t.nsec + d) / nsPerDay : Nat), (t.nsec + d) % nsPerDay⟩

/-- Seconds of an instant since the zero time, counted without bound. -/
def Time.sec (t : Time) : Int := t.day * 86400 + ((t.nsec / 1000000000 : Nat) : Int)

/-- Wrapping of a number into the range of an `int64`, as Go's integer arithmetic does. -/
def wrap64 (x : Int) : Int :=
  (x + 9223372036854775808) % 18446744073709551616 - 9223372036854775808

/-- The seconds a `time.Time` keeps (its field `ext`, for a time without a monotonic clock
reading, as `AddDate` returns it): the seconds since the zero time in an `int64`. -/
def Time.ext (t : Time) : Int := wrap64 t.sec

/-- The method `t.After(u)`: it compares the seconds the two times keep, and the nanoseconds
within the second when those are equal. -/
def Time.After (t u : Time) : Bool :=
  decide (u.ext < t.ext) ||
    (u.ext == t.ext && decide (u.nsec % 1000000000 < t.nsec % 1000000000))

/-- An instant whose seconds since the zero time fit an `int64`: the seconds kept are then
the seconds counted, and `After` is the order of the calendar. -/
def Time.InRange (t : Time) : Prop :=
  -9223372036854775808 ≤ t.sec ∧ t.sec < 9223372036854775808

instance (t : Time) : Decidable t.InRange := by
  unfold Time.InRange
  exact inferInstance

/-- Ordering of instants by their calendar reading, `t` not after `u`. -/
def Time.le (t u : Time) : Prop := t.day < u.day ∨ (t.day = u.day ∧ t.nsec ≤ u.nsec)

instance (t u : Time) : Decidable (t.le u) := by
  unfold Time.le
  exact inferInstance

/-- The constant `time.Thursday` (`time.Sunday` is 0). -/
def Thursday : Int := 4

/-- The method `t.Weekday()`, Sunday being 0: the day of the zero time, January 1 of the
year 1, is a Monday. -/
def Time.Weekday (t : Time) : Int := (t.day + 1) % 7

/-- Clock reading of a parsed time: the results of `Hour()`, `Minute()`, `Second()` and
`Nanosecond()`. -/
structure Clock where
  Hour : Nat
  Minute : Nat
  Second : Nat
  Nanosecond : Nat
  deriving DecidableEq, Repr

/-- The call `time.Date(date.Year(), date.Month(), date.Day(), hour, min, sec, nsec,
date.Location())`: the given clock reading on the calendar day of `date`, out-of-range
values carried into the following days. -/
def Date (date : Time) (hour min sec nsec : Nat) : Time :=
  let total := ((hour * 60 + min) * 60 + sec) * 1000000000 + nsec
  ⟨date.day + (total / nsPerDay : Nat), total % nsPerDay⟩

/-- Value of a decimal digit. -/
def digitVal (c : Char) : Nat := c.toNat - '0'.toNat

/-- The helper `getnum` of package `time`: a leading number of one or two digits (exactly
two when `fixed`), and the rest of the text. -/
def getnum : List Char → Bool → Option (Nat × List Char)
  | [], _ => none
  | [a], fixed => if a.isDigit && !fixed then some (digitVal a, []) else none
  | a :: b :: rest, fixed =>
    if !a.isDigit then none
    else if !b.isDigit then (if fixed then none else some (digitVal a, b :: rest))
    else some (digitVal a * 10 + digitVal b, rest)

/-- The call `time.Parse("3:04 PM", value)`: `none` stands for a non-nil error. -/
def Parse (value : List Char) : Option Clock :=
  match getnum value false with
  | none => none
  | some (hour, value) =>
    if 12 < hour then none else
    match value with
    | ':' :: value =>
      match getnum value true with
      | none => none
      | some (min, value) =>
        if 60 ≤ min then none else
        match value with
        | ' ' :: value =>
          match value.dropWhile (fun c => c == ' ') with
          | 'P' :: 'M' :: [] => some ⟨if hour < 12 then hour + 12 else hour, min, 0, 0⟩
          | 'A' :: 'M' :: [] => some ⟨if hour = 12 then 0 else hour, min, 0, 0⟩
          | _ => none
        | _ => none
    | _ => none

/-! ## Data model -/

/-- The struct `DateRange`. -/
structure DateRange where
  Start : Time
  End : Time
  deriving DecidableEq, Repr

/-- The struct `TimeRange`. -/
structure TimeRange where
  Start : Time
  End : Time
  deriving DecidableEq, Repr

/-- The struct `Event`; `Body` holds the text written to the builder so far. -/
structure Event where
  Dates : DateRange
  Times : List TimeRange
  Title : List Char
  Body : List Char
  Description : List Char
  Link : List Char
  Location : List Char
  deriving DecidableEq, Repr

/-! ## Finalizer -/

/-- What the body of the `for event := range events` loop of `finalize` does with one
event: skips it (`continue`), sends it on `out`, or ends the process (`log.Fatal`), the
event standing as it was changed up to then. -/
inductive Finalized where
  | dropped : Finalized
  | forwarded : Event → Finalized
  | fatal : Event → Finalized
  deriving DecidableEq, Repr

/-- Whether the process was ended. -/
def Finalized.isFatal : Finalized → Bool
  | .fatal _ => true
  | _ => false

/-- The text handed to `time.Parse`: `fmt.Sprintf("%s %sM", t, strings.ToUpper(m))` after
`t` has been given a `:00` when `strings.SplitN(t, ":", 2)` has a single part. -/
def clockText (t m : List Char) : List Char :=
  let parts := SplitN2 t ':'
  let t := if parts.length = 1 then parts.headD [] ++ ":00".toList else t
  t ++ " ".toList ++ ToUpper m ++ "M".toList

/-- One iteration of the loop of `finalize`. -/
def finalizeEvent (event : Event) : Finalized :=
  let event := { event with Title := Trim event.Title [' ', '\t', '/'] }
  if event.Title = [] then .dropped
  else
    let event :=
      match locationTextPattern.FindAllStringSubmatch event.Title with
      | some m => { event with Title := m.get 1, Location := m.get 4 }
      | none => event
    let event := { event with Description := TrimSpace event.Body }
    if event.Dates.End.IsZero then
      let date := event.Dates.Start
      match singleDayTimePattern.FindAllStringSubmatch event.Description with
      | some m =>
        let st := m.get 2
        let sm := m.get 6
        let et := m.get 8
        let em := m.get 10
        let sm := if sm = [] then em else sm
        match Parse (clockText st sm) with
        | none => .fatal event
        | some stime =>
          let start := Date date stime.Hour stime.Minute stime.Second stime.Nanosecond
          if et = [] then
            .forwarded { event with Times := event.Times ++ [⟨start, start.Add (1 * Hour)⟩] }
          else
            match Parse (clockText et em) with
            | none => .fatal event
            | some etime =>
              .forwarded { event with Times := event.Times ++
                [⟨start, Date date etime.Hour etime.Minute etime.Second etime.Nanosecond⟩] }
      | none => .forwarded event
    else
      .forwarded { event with Dates := { event.Dates with End := event.Dates.End.AddDate 1 } }

/-- The events sent on `out` by `finalize(events)`, in order, and whether the process was
ended by `log.Fatal` before the input was exhausted. -/
def finalize : List Event → List Event × Bool
  | [] => ([], false)
  | event :: events =>
    match finalizeEvent event with
    | .dropped => finalize events
    | .forwarded e => ((e :: (finalize events).1), (finalize events).2)
    | .fatal _ => ([], true)

/-! ## Tokenizer (package `golang.org/x/net/html`) -/

/-- The type `html.TokenType`. -/
inductive TokenType where
  | ErrorToken
  | TextToken
  | StartTagToken
  | EndTagToken
  | SelfClosingTagToken
  | CommentToken
  | DoctypeToken
  deriving DecidableEq, Repr

/-- One token of the document: its type, its data (the lower-cased name of a tag, the
unescaped text of a text, comment or doctype token) and the attributes of a tag. -/
structure Token where
  type : TokenType
  data : List Char
  attr : List (List Char × List Char)
  deriving DecidableEq, Repr

/-- A text token. -/
def Token.text (s : String) : Token := ⟨.TextToken, s.toList, []⟩

/-- A start tag with its attributes in document order. -/
def Token.startTag (name : String) (attr : List (String × String)) : Token :=
  ⟨.StartTagToken, name.toList, attr.map (fun a => (a.1.toList, a.2.toList))⟩

/-- An end tag. -/
def Token.endTag (name : String) : Token := ⟨.EndTagToken, name.toList, []⟩

/-- The state of an `html.Tokenizer`: the tokens the reader still holds, whether the reader
ends with an error other than `io.EOF`, and the current token. The data span of the current
token is handed out once: `Text` and `TagName` return it and leave the empty span behind,
so that a second call on the same token returns nothing (hence the cache in
`Parser.TagName`). The attributes of the current tag are handed out one by one. -/
structure Tokenizer where
  input : List Token
  readErr : Bool
  tt : TokenType
  data : List Char
  attr : List (List Char × List Char)
  deriving DecidableEq, Repr

/-- The call `html.NewTokenizer(r)` for a reader that yields the tokens `input`. -/
def NewTokenizer (input : List Token) (readErr : Bool) : Tokenizer :=
  ⟨input, readErr, .ErrorToken, [], []⟩

/-- The method `z.Next()`: moves to the next token and returns its type; `ErrorToken` once
the input is exhausted. -/
def Tokenizer.Next (z : Tokenizer) : TokenType × Tokenizer :=
  match z.input with
  | [] => (.ErrorToken, { z with tt := .ErrorToken, data := [], attr := [] })
  | t :: rest => (t.type, { z with input := rest, tt := t.type, data := t.data, attr := t.attr })

/-- Whether `z.Err()` is `io.EOF` (asked after an `ErrorToken`). -/
def Tokenizer.ErrIsEOF (z : Tokenizer) : Bool := !z.readErr

/-- The method `z.Text()`. -/
def Tokenizer.Text (z : Tokenizer) : List Char × Tokenizer :=
  match z.tt with
  | .TextToken | .CommentToken | .DoctypeToken => (z.data, { z with data := [] })
  | _ => ([], z)

/-- The method `z.TagName()` (the name only). -/
def Tokenizer.TagName (z : Tokenizer) : List Char × Tokenizer :=
  match z.tt with
  | .StartTagToken | .EndTagToken | .SelfClosingTagToken => (z.data, { z with data := [] })
  | _ => ([], z)

/-- The method `z.TagAttr()`: key and value of the next attribute not yet returned, and
whether more attributes follow it. -/
def Tokenizer.TagAttr (z : Tokenizer) : (List Char × List Char × Bool) × Tokenizer :=
  match z.tt, z.attr with
  | .StartTagToken, (key, val) :: rest => ((key, val, !rest.isEmpty), { z with attr := rest })
  | .SelfClosingTagToken, (key, val) :: rest =>
    ((key, val, !rest.isEmpty), { z with attr := rest })
  | _, _ => (([], [], false), z)

/-! ## Parser -/

/-- The zero `Event`. -/
def Event.zero : Event := ⟨⟨Time.zero, Time.zero⟩, [], [], [], [], [], []⟩

/-- The struct `Parser`. `tt` is the one-token lookahead slot; `Events` lists the events
sent on the channel so far. `event` is a pointer that is nil until `ParseSection` allocates
the first event; the states that use it are entered only after that, and the nil pointer is
represented by the zero `Event`. -/
structure Parser where
  time : Time
  tokenizer : Tokenizer
  tt : Option TokenType
  tn : List Char
  headerTag : List Char
  dates : DateRange
  event : Event
  Events : List Event
  deriving DecidableEq, Repr

/-- The constructor `NewParser(time, r)`. -/
def NewParser (time : Time) (input : List Token) (readErr : Bool) : Parser :=
  { time := time, tokenizer := NewTokenizer input readErr, tt := none, tn := [],
    headerTag := [], dates := ⟨Time.zero, Time.zero⟩, event := Event.zero, Events := [] }

/-- The function `parseWeekday`; `none` stands for the `panic`. -/
def parseWeekday (weekday : List Char) : Option Int :=
  let w := ToLower weekday
  if w = "sunday".toList then some 3
  else if w = "thursday".toList then some 0
  else if w = "friday".toList then some 1
  else if w = "saturday".toList then some 2
  else none

/-- The method `SetDates`; `none` stands for a `panic` of `parseWeekday`. -/
def Parser.SetDates (p : Parser) (start endDay : List Char) : Option Parser :=
  match parseWeekday start with
  | none => none
  | some ds =>
    let s := p.time.AddDate ds
    if endDay ≠ [] then
      match parseWeekday endDay with
      | none => none
      | some de =>
        let e := p.time.AddDate de
        if s.After e then some { p with dates := ⟨e, s⟩ }
        else some { p with dates := ⟨s, e⟩ }
    else some { p with dates := ⟨s, Time.zero⟩ }

/-- The unexported method `next`. -/
def Parser.next (p : Parser) : TokenType × Parser :=
  let r := p.tokenizer.Next
  (r.1, { p with tn := [], tokenizer := r.2 })

/-- The method `Peek`. -/
def Parser.Peek (p : Parser) : TokenType × Parser :=
  match p.tt with
  | some tt => (tt, p)
  | none =>
    let r := p.next
    (r.1, { r.2 with tt := some r.1 })

/-- The method `Next`. -/
def Parser.Next (p : Parser) : TokenType × Parser :=
  match p.tt with
  | some tt => (tt, { p with tt := none })
  | none => p.next

/-- The method `TagName`. -/
def Parser.TagName (p : Parser) : List Char × Parser :=
  if p.tn ≠ [] then (p.tn, p)
  else
    let r := p.tokenizer.TagName
    (r.1, { p with tn := r.1, tokenizer := r.2 })

/-- The program points of the state machine: the state functions, each with the local
variables that live across the passes of its `for` loop. -/
inductive ParserFunc where
  | ParseRoot
  | ParseHeader (s : List Char)
  | ParseSection
  | ParseParagraph
  | ParseLink (href : List Char) (isLink : Bool)
  | ParseBold
  | IgnoreTag
  deriving DecidableEq, Repr

/-- How one pass through the `for` loop of a state function ends: the loop goes round again
or another state function is returned (`goto`), `nil` is returned on `io.EOF` (`stop`), the
process is ended by `log.Fatal` (`fatal`), or by a `panic` (`panic`). -/
inductive Outcome where
  | goto : ParserFunc → Outcome
  | stop
  | fatal
  | panic
  deriving DecidableEq, Repr

/-- The `case html.ErrorToken` shared by all state functions. -/
def Parser.onError (p : Parser) : Outcome × Parser :=
  if p.tokenizer.ErrIsEOF then (.stop, p) else (.fatal, p)

/-- Whether a tag name is one of `h1` … `h5`. -/
def isHeading (tn : List Char) : Bool :=
  tn = "h1".toList || tn = "h2".toList || tn = "h3".toList || tn = "h4".toList ||
  tn = "h5".toList

/-- Appends to the `Body` of the event in progress. -/
def Parser.write (p : Parser) (s : List Char) : Parser :=
  { p with event := { p.event with Body := p.event.Body ++ s } }

/-- One pass through the loop of `ParseRoot`. -/
def Parser.ParseRoot (p : Parser) : Outcome × Parser :=
  let r := p.Next
  let p := r.2
  match r.1 with
  | .ErrorToken => p.onError
  | .StartTagToken =>
    let t := p.TagName
    let p := t.2
    if isHeading t.1 then (.goto (.ParseHeader []), { p with headerTag := t.1 })
    else (.goto .ParseRoot, p)
  | _ => (.goto .ParseRoot, p)

/-- One pass through the loop of `ParseHeader`, `s` being its local variable. -/
def Parser.ParseHeader (s : List Char) (p : Parser) : Outcome × Parser :=
  let r := p.Next
  let p := r.2
  match r.1 with
  | .ErrorToken => p.onError
  | .TextToken =>
    let x := p.tokenizer.Text
    (.goto (.ParseHeader x.1), { p with tokenizer := x.2 })
  | .EndTagToken =>
    let t := p.TagName
    let p := t.2
    if isHeading t.1 then
      match eventPattern.FindAllStringSubmatch s with
      | some m =>
        match p.SetDates (m.get 1) (m.get 4) with
        | some p => (.goto .ParseSection, p)
        | none => (.panic, p)
      | none => (.goto .ParseRoot, p)
    else (.goto (.ParseHeader s), p)
  | _ => (.goto (.ParseHeader s), p)

/-- One pass through the loop of `ParseSection`. -/
def Parser.ParseSection (p : Parser) : Outcome × Parser :=
  let r := p.Next
  let p := r.2
  match r.1 with
  | .ErrorToken => p.onError
  | .StartTagToken =>
    let t := p.TagName
    let p := t.2
    if isHeading t.1 then (.goto (.ParseHeader []), { p with headerTag := t.1 })
    else if t.1 = "p".toList then
      (.goto .ParseParagraph, { p with event := { Event.zero with Dates := p.dates } })
    else (.goto .ParseSection, p)
  | _ => (.goto .ParseSection, p)

/-- One pass through the loop of `ParseParagraph`. -/
def Parser.ParseParagraph (p : Parser) : Outcome × Parser :=
  let r := p.Peek
  let p := r.2
  match r.1 with
  | .ErrorToken => p.onError
  | .TextToken =>
    let x := p.tokenizer.Text
    let p := { p with tokenizer := x.2 }.write x.1
    (.goto .ParseParagraph, p.Next.2)
  | .StartTagToken =>
    let t := p.TagName
    let p := t.2
    if t.1 = "b".toList then (.goto .ParseBold, p)
    else if t.1 = "a".toList then (.goto (.ParseLink [] false), p)
    else if t.1 = "li".toList then (.goto .ParseParagraph, (p.write "- ".toList).Next.2)
    else if t.1 = "ul".toList || t.1 = "span".toList || t.1 = "div".toList then
      (.goto .ParseParagraph, p.Next.2)
    else (.goto .ParseSection, { p with Events := p.Events ++ [p.event] })
  | .EndTagToken =>
    let t := p.TagName
    let p := t.2
    if t.1 = "p".toList then (.goto .ParseSection, { p with Events := p.Events ++ [p.event] })
    else (.goto .ParseParagraph, p.Next.2)
  | _ => (.goto .ParseParagraph, p.Next.2)

/-- The inner loop of `ParseLink` over `z.TagAttr()`: it stops as soon as `more` is false,
before looking at the key just returned; the `break` under `case "href"` leaves the
`switch` only. `n` bounds the number of passes. -/
def hrefLoop : Nat → Tokenizer → List Char → List Char × Tokenizer
  | 0, z, href => (href, z)
  | n + 1, z, href =>
    let r := z.TagAttr
    let key := r.1.1
    let values := r.1.2.1
    let more := r.1.2.2
    if !more then (href, r.2)
    else hrefLoop n r.2 (if key = "href".toList then values else href)

/-- One pass through the outer loop of `ParseLink`, `href` and `isLink` being its local
variables. -/
def Parser.ParseLink (href : List Char) (isLink : Bool) (p : Parser) : Outcome × Parser :=
  let r := p.Next
  let p := r.2
  match r.1 with
  | .ErrorToken => p.onError
  | .TextToken =>
    let x := p.tokenizer.Text
    let txt := x.1
    let p := { p with tokenizer := x.2 }
    let isLink' := if linkTextPattern.Match txt then true else isLink
    let p := if linkTextPattern.Match txt then p else p.write txt
    let y := p.tokenizer.Text
    let p := { p with tokenizer := y.2 }.write y.1
    (.goto (.ParseLink href isLink'), p)
  | .StartTagToken =>
    let t := p.TagName
    let p := t.2
    if t.1 = "a".toList then
      let h := hrefLoop (p.tokenizer.attr.length + 1) p.tokenizer href
      (.goto (.ParseLink h.1 isLink), { p with tokenizer := h.2 })
    else (.goto (.ParseLink href isLink), p)
  | .EndTagToken =>
    let t := p.TagName
    let p := t.2
    if t.1 = "a".toList then
      if isLink then (.goto .ParseParagraph, { p with event := { p.event with Link := href } })
      else (.goto .ParseParagraph, p.write (" (".toList ++ href ++ ")".toList))
    else (.goto (.ParseLink href isLink), p)
  | _ => (.goto (.ParseLink href isLink), p)

/-- One pass through the loop of `ParseBold`. -/
def Parser.ParseBold (p : Parser) : Outcome × Parser :=
  let r := p.Next
  let p := r.2
  match r.1 with
  | .ErrorToken => p.onError
  | .TextToken =>
    let x := p.tokenizer.Text
    let p := { p with tokenizer := x.2 }
    if p.event.Title = [] then
      (.goto .ParseBold, { p with event := { p.event with Title := x.1 } })
    else (.goto .ParseBold, p.write x.1)
  | .EndTagToken =>
    let t := p.TagName
    let p := t.2
    if t.1 = "b".toList then (.goto .ParseParagraph, p) else (.goto .ParseBold, p)
  | _ => (.goto .ParseBold, p)

/-- One pass through the loop of `IgnoreTag`. -/
def Parser.IgnoreTag (p : Parser) : Outcome × Parser :=
  let r := p.Next
  let p := r.2
  match r.1 with
  | .ErrorToken => p.onError
  | .EndTagToken =>
    let t := p.TagName
    let p := t.2
    if t.1 = "style".toList || t.1 = "script".toList then (.goto .ParseParagraph, p)
    else (.goto .IgnoreTag, p)
  | _ => (.goto .IgnoreTag, p)

/-- One pass through the loop of the state function at program point `f`. -/
def Parser.step (p : Parser) : ParserFunc → Outcome × Parser
  | .ParseRoot => p.ParseRoot
  | .ParseHeader s => p.ParseHeader s
  | .ParseSection => p.ParseSection
  | .ParseParagraph => p.ParseParagraph
  | .ParseLink href isLink => p.ParseLink href isLink
  | .ParseBold => p.ParseBold
  | .IgnoreTag => p.IgnoreTag

/-- Where a run stands: the state function that is running (or that made the last return),
what came of it (`goto f`: the run was cut off with `f` about to run; `stop`: `nil` was
returned and `Run` goes on to `close(p.Events)`; `fatal`, `panic`: the process ended), and
the parser at that point. -/
structure Halt where
  last : ParserFunc
  how : Outcome
  parser : Parser
  deriving DecidableEq, Repr

/-- The loop `for f := p.ParseRoot; f != nil; f = f()` of `Run`, flattened with the loops of
the state functions, cut off after `n` passes. -/
def Parser.RunLoop (p : Parser) : Nat → ParserFunc → Halt
  | 0, f => ⟨f, .goto f, p⟩
  | n + 1, f =>
    match p.step f with
    | (.goto g, q) => q.RunLoop n g
    | (r, q) => ⟨f, r, q⟩

/-- A number of passes that no run of the parser exceeds: every pass either takes a token
from the tokenizer, or empties the lookahead slot, or leaves `ParseParagraph`. -/
def Parser.budget (p : Parser) (f : ParserFunc) : Nat :=
  4 * p.tokenizer.input.length + (if p.tt.isSome then 2 else 0) +
    (if f = .ParseParagraph then 1 else 0)

/-- The method `Run`, up to the `close(p.Events)` that follows a `stop`. -/
def Parser.Run (p : Parser) : Halt :=
  p.RunLoop (p.budget .ParseRoot + 1) .ParseRoot

/-- Whether a program point lies inside a paragraph, with an event in progress. -/
def ParserFunc.inParagraph : ParserFunc → Bool
  | .ParseParagraph => true
  | .ParseLink _ _ => true
  | .ParseBold => true
  | .IgnoreTag => true
  | _ => false

/-- The number of `<p>` start tags met in the `Section` state during the first `n` passes
from program point `f`: the passes of `ParseSection` that return `ParseParagraph`. -/
def Parser.opened (p : Parser) : Nat → ParserFunc → Nat
  | 0, _ => 0
  | n + 1, f =>
    match p.step f with
    | (.goto g, q) =>
      (if f = .ParseSection ∧ g = .ParseParagraph then 1 else 0) + q.opened n g
    | _ => 0

/-- The events in progress at the ends of paragraphs during the first `n` passes from
program point `f`: for each pass of `ParseParagraph` that returns `ParseSection`, the event
the parser holds when the pass begins. -/
def Parser.closed (p : Parser) : Nat → ParserFunc → List Event
  | 0, _ => []
  | n + 1, f =>
    match p.step f with
    | (.goto g, q) =>
      (if f = .ParseParagraph ∧ g = .ParseSection then [p.event] else []) ++ q.closed n g
    | _ => []

/-- The DateRanges in force at the `<p>` start tags met in the `Section` state during the
first `n` passes from program point `f`. -/
def Parser.begun (p : Parser) : Nat → ParserFunc → List DateRange
  | 0, _ => []
  | n + 1, f =>
    match p.step f with
    | (.goto g, q) =>
      (if f = .ParseSection ∧ g = .ParseParagraph then [p.dates] else []) ++ q.begun n g
    | _ => []

/-! ## Server -/

/-- The opening lines of `Server.Generate`: from the current time `now` (`time.Now()`) to
the value of `t` that is handed to `NewParser`. -/
def Server.Generate.anchor (now : Time) : Time :=
  let t := now
  let weekday := t.Weekday
  if weekday ≥ Thursday then t.AddDate (-(weekday - Thursday))
  else t.AddDate ((Thursday - weekday) - 7)

/-! ## Vocabulary of the statements -/

/-- The cutset of the call `strings.Trim(event.Title, " \t/")` in `finalize`. -/
def titleCutset : List Char := [' ', '\t', '/']

/-- The clock time `hour:min` on the calendar day of `date`. -/
def Time.atClock (date : Time) (hour min : Nat) : Time :=
  ⟨date.day, (hour * 3600 + min * 60) * 1000000000⟩

/-- Offset of a weekday name from Thursday as the specification gives it: Thursday 0,
Friday 1, Saturday 2, Sunday 3. -/
def weekdayOffset (weekday : List Char) : Int :=
  if weekday = "Thursday".toList then 0
  else if weekday = "Friday".toList then 1
  else if weekday = "Saturday".toList then 2
  else 3

/-- The weekday names of the date-header pattern. -/
def weekdayNames : List (List Char) :=
  ["Thursday".toList, "Friday".toList, "Saturday".toList, "Sunday".toList]

/-- A draft event with the given title and body, dated on the single day `start`. -/
def draft (start : Time) (title body : String) : Event :=
  { Event.zero with Dates := ⟨start, Time.zero⟩, Title := title.toList, Body := body.toList }

/-- A document with one matched date section holding one paragraph: a bold title, some
text, and an anchor with the given attributes and text. -/
def anchorDocument (title text : String) (attr : List (String × String)) (anchor : String) :
    List Token :=
  [.startTag "h2" [], .text "Friday, June 6", .endTag "h2", .startTag "p" [],
   .startTag "b" [], .text title, .endTag "b", .text text,
   .startTag "a" attr, .text anchor, .endTag "a", .endTag "p"]

/-- The events that reach the caller of `finalize(p.Events)` for a document read to its
end: those sent by `Run`, finalized. -/
def extract (time : Time) (input : List Token) : List Event × Bool :=
  finalize (NewParser time input false).Run.parser.Events

/-- The sub-pattern `(the )?` of the location pattern. -/
def optionalThe : Regex := .opt (.group 3 (lit "the ".toList))

/-- The sub-pattern `(.*)` that closes the location pattern. -/
def restOfLine : Regex := .group 4 (.star anyChar)

/-- The part of the location pattern after its first group: ` (at|in) (the )?(.*)`. -/
def locationTail : Regex :=
  .cat (.char ' ') (.cat (.group 2 (.alt (lit "at".toList) (lit "in".toList)))
    (.cat (.char ' ') (.cat optionalThe restOfLine)))

/-- The separators between a title and a location. -/
def separators : List (List Char) := [" at ".toList, " in ".toList]

/-- The text `s` without one leading `the `. -/
def stripThe (s : List Char) : List Char :=
  if "the ".toList.isPrefixOf s then s.drop 4 else s

/-- Room left before the tokenizer runs dry: two units per unread token, one for a token
held in the lookahead slot. -/
def Parser.slack (p : Parser) : Nat :=
  2 * p.tokenizer.input.length + (if p.tt.isSome then 1 else 0)

/-- What one pass does to the bookkeeping of a run: the budget falls, and the events sent
plus the paragraph in progress keep step with the paragraphs opened. -/
def Parser.Paced (p : Parser) (f : ParserFunc) (r : Outcome × Parser) : Prop :=
  match r.1 with
  | .goto g =>
    r.2.budget g < p.budget f ∧
      r.2.Events.length + (if g.inParagraph then 1 else 0) =
        p.Events.length + (if f.inParagraph then 1 else 0) +
          (if f = .ParseSection ∧ g = .ParseParagraph then 1 else 0)
  | _ => r.2.Events = p.Events

/-- What one pass does to the events: it sends the event in progress, and nothing else,
exactly when it is a return from `ParseParagraph` to `ParseSection`; it starts an event
afresh, with the DateRange of the section, exactly when it is a return from `ParseSection`
to `ParseParagraph`; and outside a paragraph it leaves the event in progress alone. -/
def Parser.Sends (p : Parser) (f : ParserFunc) (r : Outcome × Parser) : Prop :=
  match r.1 with
  | .goto g =>
    r.2.Events =
        p.Events ++ (if f = .ParseParagraph ∧ g = .ParseSection then [p.event] else []) ∧
      (f = .ParseSection ∧ g = .ParseParagraph →
        r.2.event = { Event.zero with Dates := p.dates }) ∧
      (f.inParagraph = false → ¬ (f = .ParseSection ∧ g = .ParseParagraph) →
        r.2.event = p.event)
  | _ => r.2.Events = p.Events

/-- An event to which the finalizer has added nothing yet. -/
def Event.Bare (e : Event) : Prop := e.Times = [] ∧ e.Description = [] ∧ e.Location = []

/-- A parser whose event in progress and whose sent events are all bare. -/
def Parser.Bare (p : Parser) : Prop := p.event.Bare ∧ ∀ e ∈ p.Events, e.Bare

/-- A matched date section whose only paragraph is cut short by the end of the input. -/
def cutShortDocument : List Token :=
  [.startTag "h2" [], .text "Friday, June 6", .endTag "h2", .startTag "p" [],
   .text "Music on the lawn"]

/-- A matched date section whose first paragraph opens a `<b>` that is never closed. -/
def unclosedBoldDocument : List Token :=
  [.startTag "h2" [], .text "Friday, June 6", .endTag "h2", .startTag "p" [],
   .startTag "b" [], .text "Music on the lawn", .endTag "p",
   .startTag "p" [], .text "Second", .endTag "p"]

/-- Two paragraphs whose `<b>` runs from the first into the second. -/
def mergedDocument : List Token :=
  [.startTag "h2" [], .text "Friday, June 6", .endTag "h2", .startTag "p" [],
   .startTag "b" [], .text "First", .endTag "p", .startTag "p" [], .text "Second",
   .endTag "b", .text " more", .endTag "p"]

/-- The tag names that `ParseParagraph` takes for part of the paragraph. -/
def inlineTags : List (List Char) :=
  ["b".toList, "a".toList, "li".toList, "ul".toList, "span".toList, "div".toList]

/-- A matched date section with one paragraph: a bold title and some text. -/
def titledDocument (title text : String) : List Token :=
  [.startTag "h2" [], .text "Friday, June 6", .endTag "h2", .startTag "p" [],
   .startTag "b" [], .text title, .endTag "b", .text text, .endTag "p"]

/-- The event as `finalize` holds it once Title, Location and Description are settled: Title
trimmed and split by the location pattern, Description the trimmed Body. -/
def Event.titled (e : Event) : Event :=
  let event := { e with Title := Trim e.Title [' ', '\t', '/'] }
  let event :=
    match locationTextPattern.FindAllStringSubmatch event.Title with
    | some m => { event with Title := m.get 1, Location := m.get 4 }
    | none => event
  { event with Description := TrimSpace event.Body }

/-- The start text of a time match with its meridiem: group 2, and group 6 or, when that is
empty, group 10. -/
def startText (m : Caps) : List Char :=
  clockText (m.get 2) (if m.get 6 = [] then m.get 10 else m.get 6)

/-- The end text of a time match with its meridiem: groups 8 and 10. -/
def endText (m : Caps) : List Char := clockText (m.get 8) (m.get 10)

/-- The hour of the day for the hour `hour` of a 12-hour clock with meridiem `a` or `p`:
12 a.m. is 0, 12 p.m. is 12. -/
def to24 (hour : Nat) (x : Char) : Nat :=
  if x = 'p' then (if hour < 12 then hour + 12 else hour) else (if hour = 12 then 0 else hour)

/-- The hours of a 12-hour clock as the time pattern reads them, with their values. -/
def hourTexts : List (List Char × Nat) :=
  [("1".toList, 1), ("2".toList, 2), ("3".toList, 3), ("4".toList, 4), ("5".toList, 5),
   ("6".toList, 6), ("7".toList, 7), ("8".toList, 8), ("9".toList, 9), ("10".toList, 10),
   ("11".toList, 11), ("12".toList, 12)]

/-- The minutes of a clock time as the time pattern reads them, with their values: none
(value 0), or `:00` to `:59`. -/
def minuteTexts : List (List Char × Nat) :=
  ([], 0) :: "012345".toList.flatMap (fun a =>
    "0123456789".toList.map (fun b => ([':', a, b], digitVal a * 10 + digitVal b)))

/-- The clock times `H` and `H:MM` of a 12-hour clock, with hour and minute. -/
def clockTexts : List (List Char × Nat × Nat) :=
  hourTexts.flatMap (fun h => minuteTexts.map (fun mi => (h.1 ++ mi.1, h.2, mi.2)))

/-- Whether capture group `i` occurs in an expression. -/
def Regex.binds (i : Nat) : Regex → Bool
  | .empty => false
  | .char _ => false
  | .set _ => false
  | .cat r₁ r₂ => r₁.binds i || r₂.binds i
  | .alt r₁ r₂ => r₁.binds i || r₂.binds i
  | .opt r => r.binds i
  | .star r => r.binds i
  | .lazyStar r => r.binds i
  | .plus r => r.binds i
  | .group j r => j == i || r.binds i
  | .bol => false
  | .eol => false

/-- The sub-pattern `([ \t]*(-|–|&) (Thursday|Friday|Saturday|Sunday))?` of the date-header
pattern. -/
def secondWeekday : Regex :=
  .opt (.group 2 (cats [.star blank, .group 3 dashOrAmp, .char ' ', .group 4 weekdays]))

/-- The part of the date-header pattern after its weekdays, from the comma to `$`. -/
def dateTail : Regex :=
  cats [.char ',', .star blank,
        .group 5 (alts ["January".toList, "February".toList, "March".toList, "April".toList,
          "May".toList, "June".toList, "July".toList, "August".toList, "September".toList,
          "October".toList, "November".toList, "December".toList]),
        .star blank,
        .group 6 (cats [range '1' '9', .star (range '0' '9')]),
        .opt (.group 7 (cats [.star blank, .group 8 dashOrAmp, .lazyStar blank,
          .group 9 (cats [range '1' '9', .star (range '0' '9')])])),
        .eol]

/-- What the weekday groups of the date-header pattern can hold. -/
def WeekdayCaps (c : Caps) : Prop :=
  c.get 1 ∈ weekdayNames ∧ (c.get 4 = [] ∨ c.get 4 ∈ weekdayNames)

/-- The tokens that `Next` has not handed out yet: those the tokenizer still holds and the
one in the lookahead slot. -/
def Parser.pending (p : Parser) : Nat :=
  p.tokenizer.input.length + (if p.tt.isSome then 1 else 0)

/-- What a pass leaves untouched. -/
def Parser.Kept (p : Parser) (f : ParserFunc) (r : Outcome × Parser) : Prop :=
  r.2.tokenizer.readErr = p.tokenizer.readErr ∧
  (r.1 = .fatal → p.tokenizer.readErr = true) ∧
  (∀ g, r.1 = .goto g → (f ≠ .ParseParagraph ∨ g = .ParseParagraph) → r.2.tt = none)

/-- Whether a program point is in `ParseHeader`. -/
def ParserFunc.isHeader : ParserFunc → Bool
  | .ParseHeader _ => true
  | _ => false

/-- The number of headings whose text matched during the first `n` passes from program
point `f`: the passes of `ParseHeader` that return `ParseSection`. -/
def Parser.matched (p : Parser) : Nat → ParserFunc → Nat
  | 0, _ => 0
  | n + 1, f =>
    match p.step f with
    | (.goto g, q) =>
      (if f.isHeader = true ∧ g = .ParseSection then 1 else 0) + q.matched n g
    | _ => 0

/-- A document with three headings, the second of which is no date header, and a paragraph
after each of them. -/
def sponsoredDocument : List Token :=
  [.startTag "h2" [], .text "Friday, June 6", .endTag "h2",
   .startTag "p" [], .startTag "b" [], .text "Trivia Night", .endTag "b", .endTag "p",
   .startTag "h2" [], .text "Sponsored", .endTag "h2",
   .startTag "p" [], .startTag "b" [], .text "Buy a car", .endTag "b", .endTag "p",
   .startTag "h2" [], .text "Saturday, June 7", .endTag "h2",
   .startTag "p" [], .startTag "b" [], .text "Art Walk", .endTag "b", .endTag "p"]

/-- The text `ParseHeader` holds in `s` after the tokens `tokens`, having held `s` before:
the text of the last text token among them. -/
def lastText (s : List Char) : List Token → List Char
  | [] => s
  | t :: rest => lastText (if t.type = .TextToken then t.data else s) rest

/-- A token that can stand between a heading start tag and the heading end tag: any token
but the end tag of a heading. -/
def inHeading (t : Token) : Bool :=
  t.type != .ErrorToken && !(t.type == .EndTagToken && isHeading t.data)

/-- The value of `href` after the attribute loop of `ParseLink`, had the loop looked at
every attribute in `attr`: the value of the last `href` among them. -/
def lastHref (href : List Char) : List (List Char × List Char) → List Char
  | [] => href
  | a :: rest => lastHref (if a.1 = "href".toList then a.2 else href) rest

/-- A matched date section under a heading whose text is split by an inline tag. -/
def splitHeadingDocument : List Token :=
  [.startTag "h2" [], .text "Friday, ", .startTag "em" [], .text "June 6", .endTag "em",
   .endTag "h2", .startTag "p" [], .startTag "b" [], .text "Trivia Night", .endTag "b",
   .endTag "p"]

/-- A heading whose last text token alone reads as a date header. -/
def prefixedHeadingDocument : List Token :=
  [.startTag "h2" [], .text "This weekend: ", .startTag "br" [], .text "Friday, June 6",
   .endTag "h2", .startTag "p" [], .startTag "b" [], .text "Trivia Night", .endTag "b",
   .endTag "p"]

/-! ## The run of the parser -/

theorem budget_eq (p : Parser) (f : ParserFunc) :
    p.budget f = 2 * p.slack + (if f = .ParseParagraph then 1 else 0) := by
  unfold Parser.budget Parser.slack
  split <;> split <;> omega

theorem TagName_frame (p : Parser) :
    p.TagName.2.slack = p.slack ∧ p.TagName.2.Events = p.Events ∧
      p.TagName.2.tt = p.tt := by
  unfold Parser.TagName Parser.slack Tokenizer.TagName
  split
  · exact ⟨rfl, rfl, rfl⟩
  · split <;> exact ⟨rfl, rfl, rfl⟩

theorem Text_input (z : Tokenizer) : z.Text.2.input = z.input := by
  unfold Tokenizer.Text; split <;> rfl

theorem TagAttr_input (z : Tokenizer) : z.TagAttr.2.input = z.input := by
  unfold Tokenizer.TagAttr; split <;> rfl

theorem hrefLoop_input (n : Nat) (z : Tokenizer) (h : List Char) :
    (hrefLoop n z h).2.input = z.input := by
  induction n generalizing z h with
  | zero => rfl
  | succ n ih =>
    unfold hrefLoop
    simp only []
    split
    · exact TagAttr_input z
    · rw [ih]; exact TagAttr_input z

theorem Next_frame (p : Parser) :
    p.Next.2.tt = none ∧ p.Next.2.Events = p.Events ∧ p.Next.2.slack ≤ p.slack ∧
      (p.Next.1 ≠ .ErrorToken → p.Next.2.slack < p.slack) := by
  obtain ⟨time, ⟨input, readErr, ztt, data, attr⟩, tt, tn, headerTag, dates, event, Events⟩ := p
  refine ⟨?_, ?_, ?_, ?_⟩ <;> cases tt <;> cases input <;>
    simp [Parser.Next, Parser.next, Tokenizer.Next, Parser.slack]

theorem Next_slack_of_peeked (p : Parser) (h : p.tt.isSome) : p.Next.2.slack < p.slack := by
  obtain ⟨time, ⟨input, readErr, ztt, data, attr⟩, tt, tn, headerTag, dates, event, Events⟩ := p
  cases tt
  · simp at h
  · simp [Parser.Next, Parser.slack]

theorem Peek_frame (p : Parser) :
    p.Peek.2.tt.isSome ∧ p.Peek.2.Events = p.Events ∧
      (p.Peek.1 ≠ .ErrorToken → p.Peek.2.slack ≤ p.slack) := by
  obtain ⟨time, ⟨input, readErr, ztt, data, attr⟩, tt, tn, headerTag, dates, event, Events⟩ := p
  refine ⟨?_, ?_, ?_⟩ <;> cases tt <;> cases input <;>
    simp [Parser.Peek, Parser.next, Tokenizer.Next, Parser.slack]
  omega

theorem onError_paced (p q : Parser) (f : ParserFunc) (h : q.Events = p.Events) :
    p.Paced f q.onError := by
  unfold Parser.onError
  split <;> exact h

/-- A pass that ends in `goto g` keeps pace when it used up slack (or left `ParseParagraph`
without gaining any) and sent an event exactly on leaving a paragraph. -/
theorem paced_goto (p q : Parser) (f g : ParserFunc)
    (h1 : q.slack < p.slack ∨ (q.slack ≤ p.slack ∧ f = .ParseParagraph ∧ g ≠ .ParseParagraph))
    (h2 : q.Events.length + (if g.inParagraph then 1 else 0) =
        p.Events.length + (if f.inParagraph then 1 else 0) +
          (if f = .ParseSection ∧ g = .ParseParagraph then 1 else 0)) :
    p.Paced f (.goto g, q) := by
  refine ⟨?_, h2⟩
  show q.budget g < p.budget f
  rw [budget_eq, budget_eq]
  rcases h1 with h1 | ⟨h1, hf, hg⟩
  · split <;> split <;> omega
  · simp [hf, hg]; omega

theorem Next_after (p : Parser) (h : p.tt.isSome) :
    p.Next.2.Events = p.Events ∧ p.Next.2.slack < p.slack :=
  ⟨(Next_frame p).2.1, Next_slack_of_peeked p h⟩

theorem SetDates_frame (p q : Parser) (a b : List Char) (h : p.SetDates a b = some q) :
    q.slack = p.slack ∧ q.Events = p.Events := by
  unfold Parser.SetDates at h
  split at h
  · simp at h
  · simp only [] at h
    split at h
    · split at h
      · simp at h
      · split at h <;> simp at h <;> subst h <;> exact ⟨rfl, rfl⟩
    · simp at h; subst h; exact ⟨rfl, rfl⟩

theorem ParseRoot_paced (p : Parser) : p.Paced .ParseRoot p.ParseRoot := by
  have hn := Next_frame p
  unfold Parser.ParseRoot
  simp only []
  split
  · exact onError_paced _ _ _ hn.2.1
  · next hs =>
    have ht := TagName_frame p.Next.2
    have hlt := hn.2.2.2 (by rw [hs]; decide)
    split
    · exact paced_goto _ _ _ _ (.inl (by show p.Next.2.TagName.2.slack < _; omega))
        (by show p.Next.2.TagName.2.Events.length + _ = _
            rw [ht.2.1, hn.2.1]; simp [ParserFunc.inParagraph])
    · exact paced_goto _ _ _ _ (.inl (by omega))
        (by rw [ht.2.1, hn.2.1]; simp [ParserFunc.inParagraph])
  · next h1 h2 =>
    exact paced_goto _ _ _ _ (.inl (hn.2.2.2 h1)) (by rw [hn.2.1]; simp [ParserFunc.inParagraph])

theorem ParseHeader_paced (p : Parser) (s : List Char) :
    p.Paced (.ParseHeader s) (p.ParseHeader s) := by
  have hn := Next_frame p
  unfold Parser.ParseHeader
  simp only []
  split
  · exact onError_paced _ _ _ hn.2.1
  · next hs =>
    have hlt := hn.2.2.2 (by rw [hs]; decide)
    exact paced_goto _ _ _ _
      (.inl (by simpa [Parser.slack, Text_input] using hlt))
      (by show p.Next.2.Events.length + _ = _
          rw [hn.2.1]; simp [ParserFunc.inParagraph])
  · next hs =>
    have ht := TagName_frame p.Next.2
    have hlt := hn.2.2.2 (by rw [hs]; decide)
    split
    · split
      · split
        · next q hq =>
          have hf := SetDates_frame _ _ _ _ hq
          exact paced_goto _ _ _ _ (.inl (by omega))
            (by rw [hf.2, ht.2.1, hn.2.1]; simp [ParserFunc.inParagraph])
        · show p.Next.2.TagName.2.Events = _
          rw [ht.2.1, hn.2.1]
      · exact paced_goto _ _ _ _ (.inl (by omega))
          (by rw [ht.2.1, hn.2.1]; simp [ParserFunc.inParagraph])
    · exact paced_goto _ _ _ _ (.inl (by omega))
        (by rw [ht.2.1, hn.2.1]; simp [ParserFunc.inParagraph])
  · next h1 h2 h3 =>
    exact paced_goto _ _ _ _ (.inl (hn.2.2.2 h1)) (by rw [hn.2.1]; simp [ParserFunc.inParagraph])

theorem ParseSection_paced (p : Parser) : p.Paced .ParseSection p.ParseSection := by
  have hn := Next_frame p
  unfold Parser.ParseSection
  simp only []
  split
  · exact onError_paced _ _ _ hn.2.1
  · next hs =>
    have ht := TagName_frame p.Next.2
    have hlt := hn.2.2.2 (by rw [hs]; decide)
    split
    · exact paced_goto _ _ _ _ (.inl (by show p.Next.2.TagName.2.slack < _; omega))
        (by show p.Next.2.TagName.2.Events.length + _ = _
            rw [ht.2.1, hn.2.1]; simp [ParserFunc.inParagraph])
    · split
      · exact paced_goto _ _ _ _ (.inl (by show p.Next.2.TagName.2.slack < _; omega))
          (by show p.Next.2.TagName.2.Events.length + _ = _
              rw [ht.2.1, hn.2.1]; simp [ParserFunc.inParagraph])
      · exact paced_goto _ _ _ _ (.inl (by omega))
          (by rw [ht.2.1, hn.2.1]; simp [ParserFunc.inParagraph])
  · next h1 h2 =>
    exact paced_goto _ _ _ _ (.inl (hn.2.2.2 h1)) (by rw [hn.2.1]; simp [ParserFunc.inParagraph])

/-- A pass of `ParseParagraph` that goes round again: it calls `Next` on a parser `x` that
stands where the peeked parser stood. -/
theorem paced_again (p x : Parser) (hk : x.tt.isSome) (hs : x.slack ≤ p.slack)
    (he : x.Events = p.Events) : p.Paced .ParseParagraph (.goto .ParseParagraph, x.Next.2) := by
  have hx := Next_after x hk
  exact paced_goto _ _ _ _ (.inl (by omega)) (by rw [hx.1, he]; simp)

theorem ParseParagraph_paced (p : Parser) : p.Paced .ParseParagraph p.ParseParagraph := by
  have hk := Peek_frame p
  unfold Parser.ParseParagraph
  simp only []
  split
  · exact onError_paced _ _ _ hk.2.1
  · next hs =>
    have hle := hk.2.2 (by rw [hs]; decide)
    exact paced_again _ _ hk.1 (by simpa [Parser.slack, Parser.write, Text_input] using hle) hk.2.1
  · next hs =>
    have hle := hk.2.2 (by rw [hs]; decide)
    have ht := TagName_frame p.Peek.2
    have hsome : p.Peek.2.TagName.2.tt.isSome := by rw [ht.2.2]; exact hk.1
    split
    · exact paced_goto _ _ _ _ (.inr ⟨by omega, rfl, by decide⟩)
        (by rw [ht.2.1, hk.2.1]; simp [ParserFunc.inParagraph])
    · split
      · exact paced_goto _ _ _ _ (.inr ⟨by omega, rfl, by simp⟩)
          (by rw [ht.2.1, hk.2.1]; simp [ParserFunc.inParagraph])
      · split
        · exact paced_again _ _ hsome (by show p.Peek.2.TagName.2.slack ≤ _; omega)
            (by show p.Peek.2.TagName.2.Events = _; rw [ht.2.1, hk.2.1])
        · split
          · exact paced_again _ _ hsome (by omega) (by rw [ht.2.1, hk.2.1])
          · exact paced_goto _ _ _ _
              (.inr ⟨by show p.Peek.2.TagName.2.slack ≤ _; omega, rfl, by decide⟩)
              (by show (p.Peek.2.TagName.2.Events ++ _).length + _ = _
                  rw [ht.2.1, hk.2.1]; simp [ParserFunc.inParagraph])
  · next hs =>
    have hle := hk.2.2 (by rw [hs]; decide)
    have ht := TagName_frame p.Peek.2
    have hsome : p.Peek.2.TagName.2.tt.isSome := by rw [ht.2.2]; exact hk.1
    split
    · exact paced_goto _ _ _ _
        (.inr ⟨by show p.Peek.2.TagName.2.slack ≤ _; omega, rfl, by decide⟩)
        (by show (p.Peek.2.TagName.2.Events ++ _).length + _ = _
            rw [ht.2.1, hk.2.1]; simp [ParserFunc.inParagraph])
    · exact paced_again _ _ hsome (by omega) (by rw [ht.2.1, hk.2.1])
  · next h1 h2 h3 h4 =>
    exact paced_again _ _ hk.1 (hk.2.2 h1) hk.2.1

theorem ParseLink_paced (p : Parser) (href : List Char) (isLink : Bool) :
    p.Paced (.ParseLink href isLink) (p.ParseLink href isLink) := by
  have hn := Next_frame p
  unfold Parser.ParseLink
  simp only []
  split
  · exact onError_paced _ _ _ hn.2.1
  · next hs =>
    have hlt := hn.2.2.2 (by rw [hs]; decide)
    refine paced_goto _ _ _ _ (.inl ?_) ?_
    · split <;> simpa [Parser.slack, Parser.write, Text_input] using hlt
    · split <;> simp [Parser.write, hn.2.1, ParserFunc.inParagraph]
  · next hs =>
    have ht := TagName_frame p.Next.2
    have hlt := hn.2.2.2 (by rw [hs]; decide)
    split
    · exact paced_goto _ _ _ _
        (.inl (by
          have : p.Next.2.TagName.2.slack < p.slack := by omega
          simpa [Parser.slack, hrefLoop_input] using this))
        (by show p.Next.2.TagName.2.Events.length + _ = _
            rw [ht.2.1, hn.2.1]; simp [ParserFunc.inParagraph])
    · exact paced_goto _ _ _ _ (.inl (by omega))
        (by rw [ht.2.1, hn.2.1]; simp [ParserFunc.inParagraph])
  · next hs =>
    have ht := TagName_frame p.Next.2
    have hlt := hn.2.2.2 (by rw [hs]; decide)
    split
    · split
      · exact paced_goto _ _ _ _ (.inl (by show p.Next.2.TagName.2.slack < _; omega))
          (by show p.Next.2.TagName.2.Events.length + _ = _
              rw [ht.2.1, hn.2.1]; simp [ParserFunc.inParagraph])
      · exact paced_goto _ _ _ _ (.inl (by show p.Next.2.TagName.2.slack < _; omega))
          (by show p.Next.2.TagName.2.Events.length + _ = _
              rw [ht.2.1, hn.2.1]; simp [ParserFunc.inParagraph])
    · exact paced_goto _ _ _ _ (.inl (by omega))
        (by rw [ht.2.1, hn.2.1]; simp [ParserFunc.inParagraph])
  · next h1 h2 h3 h4 =>
    exact paced_goto _ _ _ _ (.inl (hn.2.2.2 h1)) (by rw [hn.2.1]; simp [ParserFunc.inParagraph])

theorem ParseBold_paced (p : Parser) : p.Paced .ParseBold p.ParseBold := by
  have hn := Next_frame p
  unfold Parser.ParseBold
  simp only []
  split
  · exact onError_paced _ _ _ hn.2.1
  · next hs =>
    have hlt := hn.2.2.2 (by rw [hs]; decide)
    split
    · exact paced_goto _ _ _ _ (.inl (by simpa [Parser.slack, Text_input] using hlt))
        (by show p.Next.2.Events.length + _ = _
            rw [hn.2.1]; simp [ParserFunc.inParagraph])
    · exact paced_goto _ _ _ _
        (.inl (by simpa [Parser.slack, Parser.write, Text_input] using hlt))
        (by show p.Next.2.Events.length + _ = _
            rw [hn.2.1]; simp [ParserFunc.inParagraph])
  · next hs =>
    have ht := TagName_frame p.Next.2
    have hlt := hn.2.2.2 (by rw [hs]; decide)
    split
    · exact paced_goto _ _ _ _ (.inl (by omega))
        (by rw [ht.2.1, hn.2.1]; simp [ParserFunc.inParagraph])
    · exact paced_goto _ _ _ _ (.inl (by omega))
        (by rw [ht.2.1, hn.2.1]; simp [ParserFunc.inParagraph])
  · next h1 h2 h3 =>
    exact paced_goto _ _ _ _ (.inl (hn.2.2.2 h1)) (by rw [hn.2.1]; simp [ParserFunc.inParagraph])

theorem IgnoreTag_paced (p : Parser) : p.Paced .IgnoreTag p.IgnoreTag := by
  have hn := Next_frame p
  unfold Parser.IgnoreTag
  simp only []
  split
  · exact onError_paced _ _ _ hn.2.1
  · next hs =>
    have ht := TagName_frame p.Next.2
    have hlt := hn.2.2.2 (by rw [hs]; decide)
    split
    · exact paced_goto _ _ _ _ (.inl (by omega))
        (by rw [ht.2.1, hn.2.1]; simp [ParserFunc.inParagraph])
    · exact paced_goto _ _ _ _ (.inl (by omega))
        (by rw [ht.2.1, hn.2.1]; simp [ParserFunc.inParagraph])
  · next h1 h2 =>
    exact paced_goto _ _ _ _ (.inl (hn.2.2.2 h1)) (by rw [hn.2.1]; simp [ParserFunc.inParagraph])

theorem step_paced (p : Parser) (f : ParserFunc) : p.Paced f (p.step f) := by
  cases f with
  | ParseRoot => exact ParseRoot_paced p
  | ParseHeader s => exact ParseHeader_paced p s
  | ParseSection => exact ParseSection_paced p
  | ParseParagraph => exact ParseParagraph_paced p
  | ParseLink href isLink => exact ParseLink_paced p href isLink
  | ParseBold => exact ParseBold_paced p
  | IgnoreTag => exact IgnoreTag_paced p

theorem RunLoop_halts (n : Nat) : ∀ (p : Parser) (f : ParserFunc), p.budget f < n →
    ∀ g, (p.RunLoop n f).how ≠ .goto g := by
  induction n with
  | zero => intro p f h; omega
  | succ n ih =>
    intro p f h g
    have hp := step_paced p f
    rcases hq : p.step f with ⟨r, q⟩
    rw [hq] at hp
    cases r with
    | goto g' =>
      have h1 : q.budget g' < p.budget f := hp.1
      simp only [Parser.RunLoop, hq]
      exact ih q g' (by omega) g
    | stop => simp [Parser.RunLoop, hq]
    | fatal => simp [Parser.RunLoop, hq]
    | panic => simp [Parser.RunLoop, hq]

theorem RunLoop_count (n : Nat) : ∀ (p : Parser) (f : ParserFunc),
    (p.RunLoop n f).parser.Events.length + (if (p.RunLoop n f).last.inParagraph then 1 else 0) =
      p.Events.length + (if f.inParagraph then 1 else 0) + p.opened n f := by
  induction n with
  | zero => intro p f; rfl
  | succ n ih =>
    intro p f
    have hp := step_paced p f
    rcases hq : p.step f with ⟨r, q⟩
    rw [hq] at hp
    cases r with
    | goto g =>
      have h2 : q.Events.length + (if g.inParagraph then 1 else 0) =
        p.Events.length + (if f.inParagraph then 1 else 0) +
          (if f = .ParseSection ∧ g = .ParseParagraph then 1 else 0) := hp.2
      have := ih q g
      simp only [Parser.RunLoop, Parser.opened, hq]
      omega
    | stop =>
      have h2 : q.Events = p.Events := hp
      simp [Parser.RunLoop, Parser.opened, hq, h2]
    | fatal =>
      have h2 : q.Events = p.Events := hp
      simp [Parser.RunLoop, Parser.opened, hq, h2]
    | panic =>
      have h2 : q.Events = p.Events := hp
      simp [Parser.RunLoop, Parser.opened, hq, h2]

theorem onError_Events (p : Parser) : p.onError.2.Events = p.Events := by
  unfold Parser.onError
  split <;> rfl

theorem ParseRoot_grows (p : Parser) : p.Events <+: p.ParseRoot.2.Events := by
  have hn := (Next_frame p).2.1
  have ht := (TagName_frame p.Next.2).2.1
  unfold Parser.ParseRoot
  simp only []
  split
  · rw [onError_Events, hn]
  · split
    · show p.Events <+: p.Next.2.TagName.2.Events
      rw [ht, hn]
    · show p.Events <+: p.Next.2.TagName.2.Events
      rw [ht, hn]
  · show p.Events <+: p.Next.2.Events
    rw [hn]

theorem ParseHeader_grows (p : Parser) (s : List Char) :
    p.Events <+: (p.ParseHeader s).2.Events := by
  have hn := (Next_frame p).2.1
  have ht := (TagName_frame p.Next.2).2.1
  unfold Parser.ParseHeader
  simp only []
  split
  · rw [onError_Events, hn]
  · show p.Events <+: p.Next.2.Events
    rw [hn]
  · split
    · split
      · split
        · next q hq =>
          show p.Events <+: q.Events
          rw [(SetDates_frame _ _ _ _ hq).2, ht, hn]
        · show p.Events <+: p.Next.2.TagName.2.Events
          rw [ht, hn]
      · show p.Events <+: p.Next.2.TagName.2.Events
        rw [ht, hn]
    · show p.Events <+: p.Next.2.TagName.2.Events
      rw [ht, hn]
  · show p.Events <+: p.Next.2.Events
    rw [hn]

theorem ParseSection_grows (p : Parser) : p.Events <+: p.ParseSection.2.Events := by
  have hn := (Next_frame p).2.1
  have ht := (TagName_frame p.Next.2).2.1
  unfold Parser.ParseSection
  simp only []
  split
  · rw [onError_Events, hn]
  · split
    · show p.Events <+: p.Next.2.TagName.2.Events
      rw [ht, hn]
    · split
      · show p.Events <+: p.Next.2.TagName.2.Events
        rw [ht, hn]
      · show p.Events <+: p.Next.2.TagName.2.Events
        rw [ht, hn]
  · show p.Events <+: p.Next.2.Events
    rw [hn]

theorem ParseParagraph_grows (p : Parser) : p.Events <+: p.ParseParagraph.2.Events := by
  have hk := (Peek_frame p).2.1
  have ht := (TagName_frame p.Peek.2).2.1
  unfold Parser.ParseParagraph
  simp only []
  split
  · rw [onError_Events, hk]
  · rw [(Next_frame _).2.1]
    show p.Events <+: p.Peek.2.Events
    rw [hk]
  · split
    · show p.Events <+: p.Peek.2.TagName.2.Events
      rw [ht, hk]
    · split
      · show p.Events <+: p.Peek.2.TagName.2.Events
        rw [ht, hk]
      · split
        · rw [(Next_frame _).2.1]
          show p.Events <+: p.Peek.2.TagName.2.Events
          rw [ht, hk]
        · split
          · rw [(Next_frame _).2.1, ht, hk]
          · show p.Events <+: p.Peek.2.TagName.2.Events ++ _
            rw [ht, hk]
            exact List.prefix_append _ _
  · split
    · show p.Events <+: p.Peek.2.TagName.2.Events ++ _
      rw [ht, hk]
      exact List.prefix_append _ _
    · rw [(Next_frame _).2.1, ht, hk]
  · rw [(Next_frame _).2.1, hk]

theorem ParseLink_grows (p : Parser) (href : List Char) (isLink : Bool) :
    p.Events <+: (p.ParseLink href isLink).2.Events := by
  have hn := (Next_frame p).2.1
  have ht := (TagName_frame p.Next.2).2.1
  unfold Parser.ParseLink
  simp only []
  split
  · rw [onError_Events, hn]
  · split
    · show p.Events <+: p.Next.2.Events
      rw [hn]
    · show p.Events <+: p.Next.2.Events
      rw [hn]
  · split
    · show p.Events <+: p.Next.2.TagName.2.Events
      rw [ht, hn]
    · show p.Events <+: p.Next.2.TagName.2.Events
      rw [ht, hn]
  · split
    · split
      · show p.Events <+: p.Next.2.TagName.2.Events
        rw [ht, hn]
      · show p.Events <+: p.Next.2.TagName.2.Events
        rw [ht, hn]
    · show p.Events <+: p.Next.2.TagName.2.Events
      rw [ht, hn]
  · show p.Events <+: p.Next.2.Events
    rw [hn]

theorem ParseBold_grows (p : Parser) : p.Events <+: p.ParseBold.2.Events := by
  have hn := (Next_frame p).2.1
  have ht := (TagName_frame p.Next.2).2.1
  unfold Parser.ParseBold
  simp only []
  split
  · rw [onError_Events, hn]
  · split
    · show p.Events <+: p.Next.2.Events
      rw [hn]
    · show p.Events <+: p.Next.2.Events
      rw [hn]
  · split
    · show p.Events <+: p.Next.2.TagName.2.Events
      rw [ht, hn]
    · show p.Events <+: p.Next.2.TagName.2.Events
      rw [ht, hn]
  · show p.Events <+: p.Next.2.Events
    rw [hn]

theorem IgnoreTag_grows (p : Parser) : p.Events <+: p.IgnoreTag.2.Events := by
  have hn := (Next_frame p).2.1
  have ht := (TagName_frame p.Next.2).2.1
  unfold Parser.IgnoreTag
  simp only []
  split
  · rw [onError_Events, hn]
  · split
    · show p.Events <+: p.Next.2.TagName.2.Events
      rw [ht, hn]
    · show p.Events <+: p.Next.2.TagName.2.Events
      rw [ht, hn]
  · show p.Events <+: p.Next.2.Events
    rw [hn]

theorem step_grows (p : Parser) (f : ParserFunc) : p.Events <+: (p.step f).2.Events := by
  cases f with
  | ParseRoot => exact ParseRoot_grows p
  | ParseHeader s => exact ParseHeader_grows p s
  | ParseSection => exact ParseSection_grows p
  | ParseParagraph => exact ParseParagraph_grows p
  | ParseLink href isLink => exact ParseLink_grows p href isLink
  | ParseBold => exact ParseBold_grows p
  | IgnoreTag => exact IgnoreTag_grows p

theorem RunLoop_grows (n : Nat) : ∀ (p : Parser) (f : ParserFunc),
    p.Events <+: (p.RunLoop n f).parser.Events := by
  induction n with
  | zero => intro p f; exact List.prefix_refl _
  | succ n ih =>
    intro p f
    have hg := step_grows p f
    rcases hq : p.step f with ⟨r, q⟩
    rw [hq] at hg
    cases r with
    | goto g =>
      simp only [Parser.RunLoop, hq]
      exact hg.trans (ih q g)
    | stop => simpa [Parser.RunLoop, hq] using hg
    | fatal => simpa [Parser.RunLoop, hq] using hg
    | panic => simpa [Parser.RunLoop, hq] using hg

theorem RunLoop_mono (n : Nat) : ∀ (m : Nat) (p : Parser) (f : ParserFunc), n ≤ m →
    (p.RunLoop n f).parser.Events <+: (p.RunLoop m f).parser.Events := by
  induction n with
  | zero => intro m p f _; exact RunLoop_grows m p f
  | succ n ih =>
    intro m p f h
    cases m with
    | zero => omega
    | succ m =>
      rcases hq : p.step f with ⟨r, q⟩
      cases r with
      | goto g =>
        simp only [Parser.RunLoop, hq]
        exact ih m q g (by omega)
      | stop => simp [Parser.RunLoop, hq]
      | fatal => simp [Parser.RunLoop, hq]
      | panic => simp [Parser.RunLoop, hq]

theorem Next_event (p : Parser) : p.Next.2.event = p.event ∧ p.Next.2.Events = p.Events ∧
    p.Next.2.dates = p.dates := by
  unfold Parser.Next Parser.next
  split <;> exact ⟨rfl, rfl, rfl⟩

theorem Peek_event (p : Parser) : p.Peek.2.event = p.event ∧ p.Peek.2.Events = p.Events := by
  unfold Parser.Peek Parser.next
  split <;> exact ⟨rfl, rfl⟩

theorem TagName_event (p : Parser) : p.TagName.2.event = p.event ∧
    p.TagName.2.Events = p.Events := by
  unfold Parser.TagName
  split <;> exact ⟨rfl, rfl⟩

theorem SetDates_event (p q : Parser) (a b : List Char) (h : p.SetDates a b = some q) :
    q.event = p.event ∧ q.Events = p.Events := by
  unfold Parser.SetDates at h
  split at h
  · simp at h
  · simp only [] at h
    split at h
    · split at h
      · simp at h
      · split at h <;> simp at h <;> subst h <;> exact ⟨rfl, rfl⟩
    · simp at h; subst h; exact ⟨rfl, rfl⟩

theorem Bare_of_eq (p q : Parser) (h : p.Bare) (he : q.event = p.event)
    (hE : q.Events = p.Events) : q.Bare := by
  unfold Parser.Bare at *
  rw [he, hE]; exact h

theorem write_bare (p : Parser) (s : List Char) (z : Tokenizer) (h : p.Bare) :
    (({ p with tokenizer := z } : Parser).write s).Bare := h

theorem onError_bare (p : Parser) (h : p.Bare) : p.onError.2.Bare := by
  unfold Parser.onError
  split <;> exact h

theorem ParseParagraph_bare (p : Parser) (h : p.Bare) : p.ParseParagraph.2.Bare := by
  have hk := Peek_event p
  have hb : p.Peek.2.Bare := Bare_of_eq _ _ h hk.1 hk.2
  have ht := TagName_event p.Peek.2
  have hc : p.Peek.2.TagName.2.Bare := Bare_of_eq _ _ hb ht.1 ht.2
  unfold Parser.ParseParagraph
  simp only []
  split
  · exact onError_bare _ hb
  · exact Bare_of_eq _ _ (write_bare _ _ _ hb) (Next_event _).1 (Next_event _).2.1
  · split
    · exact hc
    · split
      · exact hc
      · split
        · exact Bare_of_eq _ _ (write_bare _ "- ".toList p.Peek.2.TagName.2.tokenizer hc)
            (Next_event _).1 (Next_event _).2.1
        · split
          · exact Bare_of_eq _ _ hc (Next_event _).1 (Next_event _).2.1
          · refine ⟨hc.1, fun e he => ?_⟩
            rcases List.mem_append.mp he with he | he
            · exact hc.2 e he
            · rw [List.mem_singleton.mp he]; exact hc.1
  · split
    · refine ⟨hc.1, fun e he => ?_⟩
      rcases List.mem_append.mp he with he | he
      · exact hc.2 e he
      · rw [List.mem_singleton.mp he]; exact hc.1
    · exact Bare_of_eq _ _ hc (Next_event _).1 (Next_event _).2.1
  · exact Bare_of_eq _ _ hb (Next_event _).1 (Next_event _).2.1

theorem ParseRoot_bare (p : Parser) (h : p.Bare) : p.ParseRoot.2.Bare := by
  have hn := Next_event p
  have hb : p.Next.2.Bare := Bare_of_eq _ _ h hn.1 hn.2.1
  have ht := TagName_event p.Next.2
  have hc : p.Next.2.TagName.2.Bare := Bare_of_eq _ _ hb ht.1 ht.2
  unfold Parser.ParseRoot
  simp only []
  split
  · exact onError_bare _ hb
  · split
    · exact hc
    · exact hc
  · exact hb

theorem ParseHeader_bare (p : Parser) (s : List Char) (h : p.Bare) :
    (p.ParseHeader s).2.Bare := by
  have hn := Next_event p
  have hb : p.Next.2.Bare := Bare_of_eq _ _ h hn.1 hn.2.1
  have ht := TagName_event p.Next.2
  have hc : p.Next.2.TagName.2.Bare := Bare_of_eq _ _ hb ht.1 ht.2
  unfold Parser.ParseHeader
  simp only []
  split
  · exact onError_bare _ hb
  · exact hb
  · split
    · split
      · split
        · next q hq =>
          have hs := SetDates_event _ _ _ _ hq
          exact Bare_of_eq _ _ hc hs.1 hs.2
        · exact hc
      · exact hc
    · exact hc
  · exact hb

theorem ParseSection_bare (p : Parser) (h : p.Bare) : p.ParseSection.2.Bare := by
  have hn := Next_event p
  have hb : p.Next.2.Bare := Bare_of_eq _ _ h hn.1 hn.2.1
  have ht := TagName_event p.Next.2
  have hc : p.Next.2.TagName.2.Bare := Bare_of_eq _ _ hb ht.1 ht.2
  unfold Parser.ParseSection
  simp only []
  split
  · exact onError_bare _ hb
  · split
    · exact hc
    · split
      · exact ⟨⟨rfl, rfl, rfl⟩, hc.2⟩
      · exact hc
  · exact hb

theorem ParseLink_bare (p : Parser) (href : List Char) (isLink : Bool) (h : p.Bare) :
    (p.ParseLink href isLink).2.Bare := by
  have hn := Next_event p
  have hb : p.Next.2.Bare := Bare_of_eq _ _ h hn.1 hn.2.1
  have ht := TagName_event p.Next.2
  have hc : p.Next.2.TagName.2.Bare := Bare_of_eq _ _ hb ht.1 ht.2
  unfold Parser.ParseLink
  simp only []
  split
  · exact onError_bare _ hb
  · split
    · exact hb
    · exact hb
  · split
    · exact hc
    · exact hc
  · split
    · split
      · exact hc
      · exact hc
    · exact hc
  · exact hb

theorem ParseBold_bare (p : Parser) (h : p.Bare) : p.ParseBold.2.Bare := by
  have hn := Next_event p
  have hb : p.Next.2.Bare := Bare_of_eq _ _ h hn.1 hn.2.1
  have ht := TagName_event p.Next.2
  have hc : p.Next.2.TagName.2.Bare := Bare_of_eq _ _ hb ht.1 ht.2
  unfold Parser.ParseBold
  simp only []
  split
  · exact onError_bare _ hb
  · split
    · exact hb
    · exact hb
  · split
    · exact hc
    · exact hc
  · exact hb

theorem IgnoreTag_bare (p : Parser) (h : p.Bare) : p.IgnoreTag.2.Bare := by
  have hn := Next_event p
  have hb : p.Next.2.Bare := Bare_of_eq _ _ h hn.1 hn.2.1
  have ht := TagName_event p.Next.2
  have hc : p.Next.2.TagName.2.Bare := Bare_of_eq _ _ hb ht.1 ht.2
  unfold Parser.IgnoreTag
  simp only []
  split
  · exact onError_bare _ hb
  · split
    · exact hc
    · exact hc
  · exact hb

theorem step_bare (p : Parser) (f : ParserFunc) (h : p.Bare) : (p.step f).2.Bare := by
  cases f with
  | ParseRoot => exact ParseRoot_bare p h
  | ParseHeader s => exact ParseHeader_bare p s h
  | ParseSection => exact ParseSection_bare p h
  | ParseParagraph => exact ParseParagraph_bare p h
  | ParseLink href isLink => exact ParseLink_bare p href isLink h
  | ParseBold => exact ParseBold_bare p h
  | IgnoreTag => exact IgnoreTag_bare p h

theorem RunLoop_bare (n : Nat) : ∀ (p : Parser) (f : ParserFunc), p.Bare →
    (p.RunLoop n f).parser.Bare := by
  induction n with
  | zero => intro p f h; exact h
  | succ n ih =>
    intro p f h
    have hb := step_bare p f h
    rcases hq : p.step f with ⟨r, q⟩
    rw [hq] at hb
    cases r with
    | goto g =>
      simp only [Parser.RunLoop, hq]
      exact ih q g hb
    | stop => simpa [Parser.RunLoop, hq] using hb
    | fatal => simpa [Parser.RunLoop, hq] using hb
    | panic => simpa [Parser.RunLoop, hq] using hb

/-- Drafts: every event that `Run` sends has no times, no description and no location. -/
theorem Run_sends_bare_drafts (time : Time) (input : List Token) (readErr : Bool) :
    ∀ e ∈ (NewParser time input readErr).Run.parser.Events,
      e.Times = [] ∧ e.Description = [] ∧ e.Location = [] :=
  (RunLoop_bare _ (NewParser time input readErr) .ParseRoot
    ⟨⟨rfl, rfl, rfl⟩, fun e he => by simp [NewParser] at he⟩).2

/-! ## The finalizer -/

theorem finalizeEvent_dropped (e : Event) (h : Trim e.Title titleCutset = []) :
    finalizeEvent e = .dropped := by
  unfold finalizeEvent
  simp only [titleCutset] at h
  simp [h]

theorem finalizeEvent_kept (e : Event) (h : Trim e.Title titleCutset ≠ []) :
    (finalizeEvent e).isFatal = true ∨ ∃ o, finalizeEvent e = .forwarded o := by
  unfold finalizeEvent
  simp only [titleCutset] at h
  simp only [h, if_false]
  split
  · split
    · split
      · exact .inl rfl
      · split
        · exact .inr ⟨_, rfl⟩
        · split
          · exact .inl rfl
          · exact .inr ⟨_, rfl⟩
    · exact .inr ⟨_, rfl⟩
  · exact .inr ⟨_, rfl⟩

/-- C2 (as amended). For every sequence of draft events on none of which finalization
aborts (no time text that fails to parse), `finalize` runs to the end and the sequence it
sends is, element by element and in the order of the input, the forwarded form of exactly
those drafts whose Title is non-empty after trimming spaces, tabs and slashes. -/
theorem finalize_keeps_titled_drafts (events : List Event)
    (h : ∀ e ∈ events, (finalizeEvent e).isFatal = false) :
    (finalize events).2 = false ∧
    List.Forall₂ (fun d o => finalizeEvent d = .forwarded o)
      (events.filter (fun e => decide (Trim e.Title titleCutset ≠ []))) (finalize events).1 := by
  induction events with
  | nil => exact ⟨rfl, List.Forall₂.nil⟩
  | cons e rest ih =>
    have ih := ih (fun x hx => h x (List.mem_cons_of_mem _ hx))
    by_cases ht : Trim e.Title titleCutset = []
    · have hd := finalizeEvent_dropped e ht
      simp only [finalize, hd, List.filter_cons, ht, ne_eq, not_true_eq_false, decide_False]
      exact ih
    · rcases finalizeEvent_kept e ht with hf | ⟨o, ho⟩
      · rw [h e (List.mem_cons_self _ _)] at hf
        cases hf
      · simp only [finalize, ho, List.filter_cons, ht, ne_eq, not_false_eq_true, decide_True,
          if_true]
        exact ⟨ih.1, List.Forall₂.cons ho ih.2⟩

/-- C2 (witness). -/
theorem finalize_keeps_titled_drafts_witness :
    (finalize [draft ⟨739000, 0⟩ "Trivia Night at The Pub" "Join us at 7 p.m.",
        draft ⟨739000, 0⟩ " / " "No title", draft ⟨739001, 0⟩ "Art Walk" "All day"]).2 = false ∧
    List.Forall₂ (fun d o => finalizeEvent d = .forwarded o)
      ([draft ⟨739000, 0⟩ "Trivia Night at The Pub" "Join us at 7 p.m.",
        draft ⟨739000, 0⟩ " / " "No title", draft ⟨739001, 0⟩ "Art Walk" "All day"].filter
          (fun e => decide (Trim e.Title titleCutset ≠ [])))
      (finalize [draft ⟨739000, 0⟩ "Trivia Night at The Pub" "Join us at 7 p.m.",
        draft ⟨739000, 0⟩ " / " "No title", draft ⟨739001, 0⟩ "Art Walk" "All day"]).1 :=
  finalize_keeps_titled_drafts _ (by decide)

/-- C2 (counterexample). A draft with a non-empty Title whose Description holds the text
`20 am` (matched by the time pattern, rejected by `time.Parse`) makes `finalize` abort: the
draft is not in the sequence sent, nor is the draft after it. And a draft whose Title is a
lone line feed, empty once white space is trimmed, is not dropped: `strings.Trim` is given
the cutset of space, tab and slash only. -/
theorem finalize_aborts_on_unparseable_time :
    (finalize [draft ⟨739000, 0⟩ "Art Walk" "20 amazing artists",
        draft ⟨739000, 0⟩ "Trivia Night" "Join us at 7 p.m."] = ([], true) ∧
      ([draft ⟨739000, 0⟩ "Art Walk" "20 amazing artists",
        draft ⟨739000, 0⟩ "Trivia Night" "Join us at 7 p.m."].filter
          (fun e => decide (Trim e.Title titleCutset ≠ []))).length = 2) ∧
    (TrimSpace "\n".toList = [] ∧
      (finalize [draft ⟨739000, 0⟩ "\n" "All day"]).1.map (fun e => e.Title) =
        ["\n".toList]) := by
  decide

theorem Parse_clock (value : List Char) (c : Clock) (h : Parse value = some c) :
    c.Hour < 24 ∧ c.Minute < 60 ∧ c.Second = 0 ∧ c.Nanosecond = 0 := by
  unfold Parse at h
  split at h
  · simp at h
  · next hour v hg =>
    split at h
    · simp at h
    · next hh =>
      split at h
      · split at h
        · simp at h
        · next mi v2 hg2 =>
          split at h
          · simp at h
          · next hmi =>
            split at h
            · split at h
              · simp only [Option.some.injEq] at h
                subst h
                refine ⟨?_, ?_, rfl, rfl⟩
                · show (if hour < 12 then hour + 12 else hour) < 24
                  split <;> omega
                · show mi < 60
                  omega
              · simp only [Option.some.injEq] at h
                subst h
                refine ⟨?_, ?_, rfl, rfl⟩
                · show (if hour = 12 then 0 else hour) < 24
                  split <;> omega
                · show mi < 60
                  omega
              · simp at h
            · simp at h
      · simp at h

theorem Date_atClock (date : Time) (c : Clock)
    (h : c.Hour < 24 ∧ c.Minute < 60 ∧ c.Second = 0 ∧ c.Nanosecond = 0) :
    Date date c.Hour c.Minute c.Second c.Nanosecond = date.atClock c.Hour c.Minute := by
  obtain ⟨h1, h2, h3, h4⟩ := h
  have hlt : ((c.Hour * 60 + c.Minute) * 60 + 0) * 1000000000 + 0 < nsPerDay := by
    unfold nsPerDay; omega
  unfold Date Time.atClock
  rw [h3, h4]
  simp only []
  rw [Nat.div_eq_of_lt hlt, Nat.mod_eq_of_lt hlt]
  simp only [Nat.cast_zero, add_zero, Time.mk.injEq, true_and]
  omega

/-- The part of `finalize` that follows the Title: for a draft that is kept, the times and
dates of the forwarded event depend on the Body and the Dates alone. -/
theorem finalizeEvent_single_day (e : Event) (hT : Trim e.Title titleCutset ≠ [])
    (hZ : e.Dates.End.IsZero = true) :
    (∀ m, singleDayTimePattern.FindAllStringSubmatch (TrimSpace e.Body) = some m →
      (∀ s, Parse (clockText (m.get 2) (if m.get 6 = [] then m.get 10 else m.get 6)) = some s →
        (m.get 8 = [] → ∃ o, finalizeEvent e = .forwarded o ∧ o.Times = e.Times ++
          [⟨e.Dates.Start.atClock s.Hour s.Minute,
            (e.Dates.Start.atClock s.Hour s.Minute).Add (1 * Hour)⟩]) ∧
        (m.get 8 ≠ [] → ∀ t, Parse (clockText (m.get 8) (m.get 10)) = some t →
          ∃ o, finalizeEvent e = .forwarded o ∧ o.Times = e.Times ++
            [⟨e.Dates.Start.atClock s.Hour s.Minute,
              e.Dates.Start.atClock t.Hour t.Minute⟩]))) := by
  intro m hm s hs
  simp only [titleCutset] at hT
  refine ⟨fun h8 => ?_, fun h8 t ht => ?_⟩
  · unfold finalizeEvent
    simp only [hT, if_false]
    rcases locationTextPattern.FindAllStringSubmatch (Trim e.Title [' ', '\t', '/']) with _ | lm <;>
      simp only [hZ, if_true, hm, hs, h8] <;>
      exact ⟨_, rfl, by simp only [Date_atClock _ _ (Parse_clock _ _ hs)]⟩
  · unfold finalizeEvent
    simp only [hT, if_false]
    rcases locationTextPattern.FindAllStringSubmatch (Trim e.Title [' ', '\t', '/']) with _ | lm <;>
      simp only [hZ, if_true, hm, hs, h8, if_false, ht] <;>
      exact ⟨_, rfl, by simp only [Date_atClock _ _ (Parse_clock _ _ hs),
        Date_atClock _ _ (Parse_clock _ _ ht)]⟩

theorem atClock_add_hour (date : Time) (hour min : Nat) (h : hour < 23) (hm : min < 60) :
    (date.atClock hour min).Add (1 * Hour) = date.atClock (hour + 1) min := by
  have hlt : (hour * 3600 + min * 60) * 1000000000 + 1 * (3600 * 1000000000) < nsPerDay := by
    unfold nsPerDay; omega
  unfold Time.Add Time.atClock Hour
  simp only []
  rw [Nat.div_eq_of_lt hlt, Nat.mod_eq_of_lt hlt]
  simp only [Nat.cast_zero, add_zero, Time.mk.injEq, true_and]
  omega

theorem match_7pm_to_9pm :
    (singleDayTimePattern.FindAllStringSubmatch
      "Join us from 7 p.m. to 9 p.m. for trivia".toList).map
        (fun m => (m.get 2, m.get 6, m.get 8, m.get 10)) =
      some (['7'], [], [], ['p']) := by
  decide

theorem match_7pm_hyphen_9pm :
    (singleDayTimePattern.FindAllStringSubmatch
      "Join us from 7 p.m. - 9 p.m. for trivia".toList).map
        (fun m => (m.get 2, m.get 6, m.get 8, m.get 10)) =
      some (['7'], ['p'], ['9'], ['p']) := by
  decide

theorem match_7pm_dash_9pm :
    (singleDayTimePattern.FindAllStringSubmatch
      "Join us from 7 p.m. – 9 p.m. for trivia".toList).map
        (fun m => (m.get 2, m.get 6, m.get 8, m.get 10)) =
      some (['7'], ['p'], ['9'], ['p']) := by
  decide

theorem match_6pm :
    (singleDayTimePattern.FindAllStringSubmatch "Doors open at 6 p.m.".toList).map
        (fun m => (m.get 2, m.get 6, m.get 8, m.get 10)) =
      some (['6'], [], [], ['p']) := by
  decide

/-- C5 (as amended). For every single-day draft with a Title that is kept and no times yet:
with the Description `Join us from 7 p.m. to 9 p.m. for trivia` the event is forwarded
with the one TimeRange 19:00 to 20:00 on the day of `Dates.Start` (the word `to` is no
range separator: only `7 p.m.` is matched and the end is one hour later); with the same
text joined by `-` or by `–` the TimeRange is 19:00 to 21:00; and whenever the first time
match has a start text and an end text that both parse, the one TimeRange runs from the
first clock time to the second, both on the day of `Dates.Start`. -/
theorem finalize_time_range (e : Event) (hT : Trim e.Title titleCutset ≠ [])
    (hZ : e.Dates.End.IsZero = true) (hN : e.Times = []) :
    (TrimSpace e.Body = "Join us from 7 p.m. to 9 p.m. for trivia".toList →
      ∃ o, finalizeEvent e = .forwarded o ∧
        o.Times = [⟨e.Dates.Start.atClock 19 0, e.Dates.Start.atClock 20 0⟩]) ∧
    (TrimSpace e.Body = "Join us from 7 p.m. - 9 p.m. for trivia".toList →
      ∃ o, finalizeEvent e = .forwarded o ∧
        o.Times = [⟨e.Dates.Start.atClock 19 0, e.Dates.Start.atClock 21 0⟩]) ∧
    (TrimSpace e.Body = "Join us from 7 p.m. – 9 p.m. for trivia".toList →
      ∃ o, finalizeEvent e = .forwarded o ∧
        o.Times = [⟨e.Dates.Start.atClock 19 0, e.Dates.Start.atClock 21 0⟩]) ∧
    (∀ m s t, singleDayTimePattern.FindAllStringSubmatch (TrimSpace e.Body) = some m →
      m.get 8 ≠ [] →
      Parse (clockText (m.get 2) (if m.get 6 = [] then m.get 10 else m.get 6)) = some s →
      Parse (clockText (m.get 8) (m.get 10)) = some t →
      ∃ o, finalizeEvent e = .forwarded o ∧
        o.Times = [⟨e.Dates.Start.atClock s.Hour s.Minute,
          e.Dates.Start.atClock t.Hour t.Minute⟩]) := by
  have key := finalizeEvent_single_day e hT hZ
  simp only [hN, List.nil_append] at key
  refine ⟨fun hb => ?_, fun hb => ?_, fun hb => ?_, fun m s t hm h8 hs ht => ?_⟩
  · have hq := match_7pm_to_9pm
    rw [← hb] at hq
    rcases hm : singleDayTimePattern.FindAllStringSubmatch (TrimSpace e.Body) with _ | m
    · rw [hm] at hq; simp at hq
    · rw [hm] at hq
      simp only [Option.map_some', Option.some.injEq, Prod.mk.injEq] at hq
      obtain ⟨h2, h6, h8, h10⟩ := hq
      have hs : Parse (clockText (m.get 2) (if m.get 6 = [] then m.get 10 else m.get 6)) =
          some ⟨19, 0, 0, 0⟩ := by
        rw [h2, h6, h10]; decide
      obtain ⟨o, ho, hts⟩ := ((key m hm _ hs).1 h8)
      exact ⟨o, ho, by rw [hts, atClock_add_hour _ _ _ (by decide) (by decide)]⟩
  · have hq := match_7pm_hyphen_9pm
    rw [← hb] at hq
    rcases hm : singleDayTimePattern.FindAllStringSubmatch (TrimSpace e.Body) with _ | m
    · rw [hm] at hq; simp at hq
    · rw [hm] at hq
      simp only [Option.map_some', Option.some.injEq, Prod.mk.injEq] at hq
      obtain ⟨h2, h6, h8, h10⟩ := hq
      have hs : Parse (clockText (m.get 2) (if m.get 6 = [] then m.get 10 else m.get 6)) =
          some ⟨19, 0, 0, 0⟩ := by
        rw [h2, h6, h10]; decide
      have ht : Parse (clockText (m.get 8) (m.get 10)) = some ⟨21, 0, 0, 0⟩ := by
        rw [h8, h10]; decide
      have h8' : m.get 8 ≠ [] := by rw [h8]; exact List.cons_ne_nil _ _
      obtain ⟨o, ho, hts⟩ := (key m hm _ hs).2 h8' _ ht
      exact ⟨o, ho, hts⟩
  · have hq := match_7pm_dash_9pm
    rw [← hb] at hq
    rcases hm : singleDayTimePattern.FindAllStringSubmatch (TrimSpace e.Body) with _ | m
    · rw [hm] at hq; simp at hq
    · rw [hm] at hq
      simp only [Option.map_some', Option.some.injEq, Prod.mk.injEq] at hq
      obtain ⟨h2, h6, h8, h10⟩ := hq
      have hs : Parse (clockText (m.get 2) (if m.get 6 = [] then m.get 10 else m.get 6)) =
          some ⟨19, 0, 0, 0⟩ := by
        rw [h2, h6, h10]; decide
      have ht : Parse (clockText (m.get 8) (m.get 10)) = some ⟨21, 0, 0, 0⟩ := by
        rw [h8, h10]; decide
      have h8' : m.get 8 ≠ [] := by rw [h8]; exact List.cons_ne_nil _ _
      obtain ⟨o, ho, hts⟩ := (key m hm _ hs).2 h8' _ ht
      exact ⟨o, ho, hts⟩
  · exact (key m hm s hs).2 h8 t ht

/-- C5 (witness). -/
theorem finalize_time_range_witness :
    ∃ o, finalizeEvent (draft ⟨739000, 0⟩ "Trivia Night"
        "Join us from 7 p.m. - 9 p.m. for trivia") = .forwarded o ∧
      o.Times = [⟨(⟨739000, 0⟩ : Time).atClock 19 0, (⟨739000, 0⟩ : Time).atClock 21 0⟩] :=
  (finalize_time_range (draft ⟨739000, 0⟩ "Trivia Night"
    "Join us from 7 p.m. - 9 p.m. for trivia") (by decide) (by decide) (by decide)).2.2.2
      [(1, "7 p.m. - 9 p.m.".toList), (10, "p".toList), (4, " p.m. - 9".toList),
        (8, "9".toList), (7, "-".toList), (5, "p.m.".toList), (6, "p".toList),
        (2, "7".toList)]
      ⟨19, 0, 0, 0⟩ ⟨21, 0, 0, 0⟩ (by decide) (by decide) (by decide) (by decide)

/-- C5 (counterexample). The single-day draft with Description
`Join us from 7 p.m. to 9 p.m. for trivia` is forwarded with a TimeRange that ends at
20:00, not at 21:00. -/
theorem finalize_to_is_no_separator :
    ∃ o, finalizeEvent (draft ⟨739000, 0⟩ "Trivia Night"
        "Join us from 7 p.m. to 9 p.m. for trivia") = .forwarded o ∧
      o.Times = [⟨⟨739000, 19 * Hour⟩, ⟨739000, 20 * Hour⟩⟩] ∧
      o.Times ≠ [⟨⟨739000, 19 * Hour⟩, ⟨739000, 21 * Hour⟩⟩] :=
  ⟨_, rfl, by decide, by decide⟩

/-- For every single-day draft with a Title that is kept and no times
yet, whose Description's first time match carries no end time and reads as the clock time
`s` (`time.Parse` accepts its text): the event is forwarded with exactly one TimeRange, its
Start the clock time `s` on the calendar day of `Dates.Start` and its End exactly one hour
after its Start. For `Doors open at 6 p.m.` these are 18:00 and 19:00. -/
theorem finalize_default_one_hour (e : Event) (hT : Trim e.Title titleCutset ≠ [])
    (hZ : e.Dates.End.IsZero = true) (hN : e.Times = []) :
    (∀ m s, singleDayTimePattern.FindAllStringSubmatch (TrimSpace e.Body) = some m →
      m.get 8 = [] →
      Parse (clockText (m.get 2) (if m.get 6 = [] then m.get 10 else m.get 6)) = some s →
      ∃ o, finalizeEvent e = .forwarded o ∧
        o.Times = [⟨e.Dates.Start.atClock s.Hour s.Minute,
          (e.Dates.Start.atClock s.Hour s.Minute).Add (1 * Hour)⟩]) ∧
    (TrimSpace e.Body = "Doors open at 6 p.m.".toList →
      ∃ o, finalizeEvent e = .forwarded o ∧
        o.Times = [⟨e.Dates.Start.atClock 18 0, e.Dates.Start.atClock 19 0⟩]) := by
  have key := finalizeEvent_single_day e hT hZ
  simp only [hN, List.nil_append] at key
  refine ⟨fun m s hm h8 hs => (key m hm s hs).1 h8, fun hb => ?_⟩
  have hq := match_6pm
  rw [← hb] at hq
  rcases hm : singleDayTimePattern.FindAllStringSubmatch (TrimSpace e.Body) with _ | m
  · rw [hm] at hq; simp at hq
  · rw [hm] at hq
    simp only [Option.map_some', Option.some.injEq, Prod.mk.injEq] at hq
    obtain ⟨h2, h6, h8, h10⟩ := hq
    have hs : Parse (clockText (m.get 2) (if m.get 6 = [] then m.get 10 else m.get 6)) =
        some ⟨18, 0, 0, 0⟩ := by
      rw [h2, h6, h10]; decide
    obtain ⟨o, ho, hts⟩ := ((key m hm _ hs).1 h8)
    exact ⟨o, ho, by rw [hts, atClock_add_hour _ _ _ (by decide) (by decide)]⟩

/-- The one-hour default on `Doors open at 6 p.m.`. -/
theorem finalize_default_one_hour_witness :
    ∃ o, finalizeEvent (draft ⟨739000, 0⟩ "Concert" "Doors open at 6 p.m.") = .forwarded o ∧
      o.Times = [⟨(⟨739000, 0⟩ : Time).atClock 18 0,
        ((⟨739000, 0⟩ : Time).atClock 18 0).Add (1 * Hour)⟩] :=
  (finalize_default_one_hour (draft ⟨739000, 0⟩ "Concert" "Doors open at 6 p.m.")
    (by decide) (by decide) (by decide)).1
      [(1, "6 p.m.".toList), (10, "p".toList), (2, "6".toList)] ⟨18, 0, 0, 0⟩
      (by decide) (by decide) (by decide)

/-- C8. For every draft with a Title that is kept whose `Dates.End` is set, the event is
forwarded with `Dates.End` one calendar day later, `Dates.Start` as it was and `Times` as it
was (empty for a draft that has none), whatever the Description says. -/
theorem finalize_multi_day (e : Event) (hT : Trim e.Title titleCutset ≠ [])
    (hE : e.Dates.End.IsZero = false) :
    ∃ o, finalizeEvent e = .forwarded o ∧ o.Dates.End = e.Dates.End.AddDate 1 ∧
      o.Dates.Start = e.Dates.Start ∧ o.Times = e.Times ∧ (e.Times = [] → o.Times = []) := by
  simp only [titleCutset] at hT
  unfold finalizeEvent
  simp only [hT, if_false]
  rcases locationTextPattern.FindAllStringSubmatch (Trim e.Title [' ', '\t', '/']) with _ | lm <;>
    simp only [hE] <;> exact ⟨_, rfl, rfl, rfl, rfl, fun h => h⟩

/-- C8 (witness). -/
theorem finalize_multi_day_witness :
    ∃ o, finalizeEvent { draft ⟨739001, 0⟩ "Art Fair at the Park" "Opens at 10 a.m." with
        Dates := ⟨⟨739001, 0⟩, ⟨739003, 0⟩⟩ } = .forwarded o ∧
      o.Dates.End = (⟨739003, 0⟩ : Time).AddDate 1 ∧ o.Dates.Start = ⟨739001, 0⟩ ∧
      o.Times = [] ∧ (([] : List TimeRange) = [] → o.Times = []) :=
  finalize_multi_day { draft ⟨739001, 0⟩ "Art Fair at the Park" "Opens at 10 a.m." with
    Dates := ⟨⟨739001, 0⟩, ⟨739003, 0⟩⟩ } (by decide) (by decide)

/-! ## The location pattern -/

theorem run_lit (n : Nat) (w s : List Char) (c : Caps) :
    (lit w).run n s c = if w.isPrefixOf s then [(s.drop w.length, c)] else [] := by
  induction w generalizing s with
  | nil => simp [lit, Regex.run]
  | cons a rest ih =>
    cases rest with
    | nil =>
      cases s with
      | nil => simp [lit, Regex.run]
      | cons x xs =>
        by_cases h : x = a
        · simp [lit, Regex.run, h]
        · have h2 : ¬ a = x := fun e => h e.symm
          simp [lit, Regex.run, h, h2]
    | cons b rest2 =>
      cases s with
      | nil => simp [lit, Regex.run]
      | cons x xs =>
        by_cases h : x = a
        · subst h
          simp only [lit, Regex.run, if_true, List.flatMap_cons, List.flatMap_nil,
            List.append_nil, ih, List.isPrefixOf, BEq.refl, Bool.true_and]
          simp
        · have h2 : ¬ a = x := fun e => h e.symm
          simp [lit, Regex.run, h, h2]

theorem starRuns_all (n : Nat) (p : Char → Bool) (c : Caps) :
    ∀ (k : Nat) (s : List Char), s.length ≤ k → (∀ x ∈ s, p x = true) →
      starRuns ((Regex.set p).run n) k s c = s.tails.reverse.map (fun t => (t, c)) := by
  intro k
  induction k with
  | zero =>
    intro s hk _
    have : s = [] := List.length_eq_zero.mp (Nat.le_zero.mp hk)
    subst this
    simp [starRuns]
  | succ k ih =>
    intro s hk hp
    cases s with
    | nil => simp [starRuns, Regex.run]
    | cons x xs =>
      have hx : p x = true := hp x (List.mem_cons_self _ _)
      have hxs : ∀ y ∈ xs, p y = true := fun y hy => hp y (List.mem_cons_of_mem _ hy)
      have hl : xs.length ≤ k := by simpa using hk
      have hstep : (Regex.set p).run n (x :: xs) c = [(xs, c)] := by simp [Regex.run, hx]
      rw [starRuns, hstep]
      simp [ih xs hl hxs]

theorem starRuns_suffix (n : Nat) (p : Char → Bool) (c : Caps) :
    ∀ (k : Nat) (s : List Char) (x : Thread), x ∈ starRuns ((Regex.set p).run n) k s c →
      x.2 = c ∧ x.1 <:+ s := by
  intro k
  induction k with
  | zero =>
    intro s x hx
    simp only [starRuns, List.mem_singleton] at hx
    subst hx
    exact ⟨rfl, List.suffix_refl _⟩
  | succ k ih =>
    intro s x hx
    simp only [starRuns, List.mem_append, List.mem_flatMap, List.mem_filter,
      List.mem_singleton] at hx
    rcases hx with ⟨y, ⟨hy, _⟩, hxy⟩ | hx
    · cases s with
      | nil => simp [Regex.run] at hy
      | cons a as =>
        simp only [Regex.run] at hy
        split at hy
        · simp only [List.mem_singleton] at hy
          subst hy
          have := ih as x hxy
          exact ⟨this.1, this.2.trans (List.suffix_cons _ _)⟩
        · simp at hy
    · subst hx
      exact ⟨rfl, List.suffix_refl _⟩

theorem locationTextPattern_eq :
    locationTextPattern = .cat (.group 1 (.star anyChar)) locationTail := rfl

theorem run_cat (n : Nat) (r₁ r₂ : Regex) (s : List Char) (c : Caps) :
    (Regex.cat r₁ r₂).run n s c = (r₁.run n s c).flatMap (fun x => r₂.run n x.1 x.2) := rfl

theorem run_alt (n : Nat) (r₁ r₂ : Regex) (s : List Char) (c : Caps) :
    (Regex.alt r₁ r₂).run n s c = r₁.run n s c ++ r₂.run n s c := rfl

theorem run_opt (n : Nat) (r : Regex) (s : List Char) (c : Caps) :
    (Regex.opt r).run n s c = r.run n s c ++ [(s, c)] := rfl

theorem run_group (n i : Nat) (r : Regex) (s : List Char) (c : Caps) :
    (Regex.group i r).run n s c =
      (r.run n s c).map (fun x => (x.1, (i, s.take (s.length - x.1.length)) :: x.2)) := rfl

theorem run_char_cons (n : Nat) (a x : Char) (xs : List Char) (c : Caps) :
    (Regex.char a).run n (x :: xs) c = if x = a then [(xs, c)] else [] := rfl

theorem run_char_nil (n : Nat) (a : Char) (c : Caps) :
    (Regex.char a).run n [] c = [] := rfl

theorem run_any_all (n : Nat) (s : List Char) (c : Caps) (h : ∀ x ∈ s, x ≠ '\n') :
    (Regex.star anyChar).run n s c = s.tails.reverse.map (fun t => (t, c)) := by
  have := starRuns_all n (fun c => c != '\n') c s.length s (Nat.le_refl _)
    (fun x hx => by simpa using h x hx)
  exact this

theorem run_any_suffix (n : Nat) (s : List Char) (c : Caps) (x : Thread)
    (h : x ∈ (Regex.star anyChar).run n s c) : x.2 = c ∧ x.1 <:+ s :=
  starRuns_suffix n (fun c => c != '\n') c s.length s x h

theorem head_tails_reverse (s : List Char) : s.tails.reverse.head? = some [] := by
  rw [List.head?_reverse]
  induction s with
  | nil => rfl
  | cons x xs ih =>
    cases hxs : xs.tails with
    | nil => cases xs <;> simp [List.tails] at hxs
    | cons t ts =>
      rw [hxs] at ih
      simp only [List.tails, hxs, List.getLast?_cons_cons]
      exact ih

theorem run_restOfLine (n : Nat) (u : List Char) (c : Caps) (h : ∀ x ∈ u, x ≠ '\n') :
    (restOfLine.run n u c).head? = some ([], (4, u) :: c) := by
  unfold restOfLine
  rw [run_group, run_any_all n u c h, List.map_map, List.head?_map, head_tails_reverse]
  simp

theorem run_optionalThe (n : Nat) (u : List Char) (c : Caps) :
    optionalThe.run n u c =
      if "the ".toList.isPrefixOf u then
        [(u.drop 4, (3, u.take (u.length - (u.drop 4).length)) :: c), (u, c)]
      else [(u, c)] := by
  unfold optionalThe
  rw [run_opt, run_group, run_lit]
  split <;> simp

theorem head_flatMap_cons {α β : Type} (f : α → List β) (a : α) (l : List α) (b : β)
    (h : (f a).head? = some b) : ((a :: l).flatMap f).head? = some b := by
  rw [List.flatMap_cons]
  cases hfa : f a with
  | nil => rw [hfa] at h; simp at h
  | cons y ys => rw [hfa] at h; simpa using h

theorem run_afterSeparator (n : Nat) (u : List Char) (c : Caps) (h : ∀ x ∈ u, x ≠ '\n') :
    ∃ c', ((optionalThe.run n u c).flatMap (fun x => restOfLine.run n x.1 x.2)).head? =
        some ([], c') ∧ c'.get 4 = stripThe u ∧ c'.get 1 = c.get 1 := by
  rw [run_optionalThe]
  unfold stripThe
  split
  · refine ⟨_, head_flatMap_cons _ _ _ _ (run_restOfLine n _ _ ?_), ?_, ?_⟩
    · intro x hx; exact h x (List.mem_of_mem_drop hx)
    · simp [Caps.get]
    · simp [Caps.get]
  · refine ⟨_, head_flatMap_cons _ _ _ _ (run_restOfLine n _ _ h), ?_, ?_⟩
    · simp [Caps.get]
    · simp [Caps.get]

theorem run_locationTail_at (n : Nat) (u : List Char) (c : Caps) :
    locationTail.run n (' ' :: 'a' :: 't' :: ' ' :: u) c =
      (optionalThe.run n u ((2, ['a', 't']) :: c)).flatMap
        (fun x => restOfLine.run n x.1 x.2) := by
  unfold locationTail
  rw [run_cat, run_char_cons]
  simp only [if_true, List.flatMap_cons, List.flatMap_nil, List.append_nil]
  rw [run_cat, run_group, run_alt, run_lit, run_lit]
  simp only [String.toList, List.isPrefixOf, BEq.refl, Bool.and_self, if_true]
  simp [run_cat, run_char_cons]

theorem run_locationTail_in (n : Nat) (u : List Char) (c : Caps) :
    locationTail.run n (' ' :: 'i' :: 'n' :: ' ' :: u) c =
      (optionalThe.run n u ((2, ['i', 'n']) :: c)).flatMap
        (fun x => restOfLine.run n x.1 x.2) := by
  unfold locationTail
  rw [run_cat, run_char_cons]
  simp only [if_true, List.flatMap_cons, List.flatMap_nil, List.append_nil]
  rw [run_cat, run_group, run_alt, run_lit, run_lit]
  simp only [String.toList, List.isPrefixOf, BEq.refl, Bool.and_self, if_true]
  simp [run_cat, run_char_cons]

theorem run_locationTail_separator (n : Nat) (sep u : List Char) (c : Caps)
    (hs : sep ∈ separators) (h : ∀ x ∈ u, x ≠ '\n') :
    ∃ c', (locationTail.run n (sep ++ u) c).head? = some ([], c') ∧
      c'.get 4 = stripThe u ∧ c'.get 1 = c.get 1 := by
  simp only [separators, List.mem_cons, List.mem_singleton, List.not_mem_nil, or_false] at hs
  rcases hs with rfl | rfl
  · obtain ⟨c', h1, h2, h3⟩ := run_afterSeparator n u ((2, ['a', 't']) :: c) h
    refine ⟨c', ?_, h2, ?_⟩
    · show (locationTail.run n (' ' :: 'a' :: 't' :: ' ' :: u) c).head? = _
      rw [run_locationTail_at]; exact h1
    · rw [h3]; simp [Caps.get]
  · obtain ⟨c', h1, h2, h3⟩ := run_afterSeparator n u ((2, ['i', 'n']) :: c) h
    refine ⟨c', ?_, h2, ?_⟩
    · show (locationTail.run n (' ' :: 'i' :: 'n' :: ' ' :: u) c).head? = _
      rw [run_locationTail_in]; exact h1
    · rw [h3]; simp [Caps.get]

theorem run_locationTail_nil (n : Nat) (t : List Char) (c : Caps)
    (h : ∀ sep ∈ separators, ¬ sep <+: t) : locationTail.run n t c = [] := by
  unfold locationTail
  rw [run_cat]
  rcases t with _ | ⟨a, t⟩
  · rfl
  · rw [run_char_cons]
    by_cases ha : a = ' '
    · subst ha
      simp only [if_true, List.flatMap_cons, List.flatMap_nil, List.append_nil]
      rw [run_cat, run_group, run_alt, run_lit, run_lit]
      rcases t with _ | ⟨b, t⟩
      · rfl
      · rcases t with _ | ⟨d, t⟩
        · simp [List.isPrefixOf]
        · rcases t with _ | ⟨e, t⟩
          · by_cases h1 : b = 'a' ∧ d = 't'
            · obtain ⟨rfl, rfl⟩ := h1
              simp [List.isPrefixOf, run_cat, run_char_nil]
            · by_cases h2 : b = 'i' ∧ d = 'n'
              · obtain ⟨rfl, rfl⟩ := h2
                simp [List.isPrefixOf, run_cat, run_char_nil]
              · have h1' : ¬ ('a' = b ∧ 't' = d) := fun ⟨x, y⟩ => h1 ⟨x.symm, y.symm⟩
                have h2' : ¬ ('i' = b ∧ 'n' = d) := fun ⟨x, y⟩ => h2 ⟨x.symm, y.symm⟩
                simp [List.isPrefixOf, h1', h2']
          · by_cases he : e = ' '
            · subst he
              have hat : ¬ (b = 'a' ∧ d = 't') := by
                rintro ⟨rfl, rfl⟩
                exact h " at ".toList (by simp [separators]) ⟨t, rfl⟩
              have hin : ¬ (b = 'i' ∧ d = 'n') := by
                rintro ⟨rfl, rfl⟩
                exact h " in ".toList (by simp [separators]) ⟨t, rfl⟩
              have h1' : ¬ ('a' = b ∧ 't' = d) := fun ⟨x, y⟩ => hat ⟨x.symm, y.symm⟩
              have h2' : ¬ ('i' = b ∧ 'n' = d) := fun ⟨x, y⟩ => hin ⟨x.symm, y.symm⟩
              simp [List.isPrefixOf, h1', h2']
            · by_cases h1 : b = 'a' ∧ d = 't'
              · obtain ⟨rfl, rfl⟩ := h1
                simp [List.isPrefixOf, run_cat, run_char_cons, he]
              · by_cases h2 : b = 'i' ∧ d = 'n'
                · obtain ⟨rfl, rfl⟩ := h2
                  simp [List.isPrefixOf, run_cat, run_char_cons, he]
                · have h1' : ¬ ('a' = b ∧ 't' = d) := fun ⟨x, y⟩ => h1 ⟨x.symm, y.symm⟩
                  have h2' : ¬ ('i' = b ∧ 'n' = d) := fun ⟨x, y⟩ => h2 ⟨x.symm, y.symm⟩
                  simp [List.isPrefixOf, h1', h2']
    · simp [ha]

theorem run_location (n : Nat) (s : List Char) (h : ∀ x ∈ s, x ≠ '\n') :
    locationTextPattern.run n s [] =
      s.tails.reverse.flatMap
        (fun t => locationTail.run n t [(1, s.take (s.length - t.length))]) := by
  rw [locationTextPattern_eq, run_cat, run_group, run_any_all n s [] h, List.map_map,
    List.flatMap_map]
  rfl

theorem search_of_matchHere (n : Nat) (r : Regex) (s : List Char) (c : Caps)
    (h : r.matchHere n s = some c) : r.search n s = some c := by
  cases s with
  | nil => exact h
  | cons x xs => simp only [Regex.search, h]

theorem location_match (pre sep post : List Char) (hs : sep ∈ separators)
    (hn : ∀ x ∈ pre ++ sep ++ post, x ≠ '\n')
    (hr : ∀ t ∈ (sep ++ post).tails.tail, ∀ sep₂ ∈ separators, ¬ sep₂ <+: t) :
    ∃ m, locationTextPattern.FindAllStringSubmatch (pre ++ sep ++ post) = some m ∧
      m.get 1 = pre ∧ m.get 4 = stripThe post := by
  have hpost : ∀ x ∈ post, x ≠ '\n' := fun x hx => hn x (List.mem_append_right _ hx)
  obtain ⟨c', h1, h4, hg⟩ := run_locationTail_separator (pre ++ sep ++ post).length sep post
    [(1, (pre ++ sep ++ post).take ((pre ++ sep ++ post).length - (sep ++ post).length))] hs hpost
  have hpre : (pre ++ sep ++ post).take ((pre ++ sep ++ post).length - (sep ++ post).length) =
      pre := by
    rw [List.append_assoc]
    simp
  refine ⟨c', ?_, by rw [hg, hpre]; simp [Caps.get], h4⟩
  unfold Regex.FindAllStringSubmatch
  apply search_of_matchHere
  unfold Regex.matchHere
  rw [run_location _ _ hn]
  have htails : (pre ++ sep ++ post).tails.reverse =
      (sep ++ post).tails.tail.reverse ++ (pre.tails.reverse.map (fun t => t ++ (sep ++ post))) := by
    rw [List.append_assoc, List.tails_append, List.reverse_append, List.map_reverse]
  rw [htails, List.flatMap_append]
  have hfirst : (sep ++ post).tails.tail.reverse.flatMap
      (fun t => locationTail.run (pre ++ sep ++ post).length t
        [(1, (pre ++ sep ++ post).take ((pre ++ sep ++ post).length - t.length))]) = [] := by
    rw [List.flatMap_eq_nil_iff]
    intro t ht
    exact run_locationTail_nil _ _ _ (hr t (List.mem_reverse.mp ht))
  rw [hfirst, List.nil_append]
  have hhead := head_tails_reverse pre
  cases hpt : pre.tails.reverse with
  | nil => rw [hpt] at hhead; simp at hhead
  | cons t0 ts =>
    rw [hpt] at hhead
    simp only [List.head?_cons, Option.some.injEq] at hhead
    subst hhead
    rw [List.map_cons, List.nil_append]
    have hh := head_flatMap_cons
      (fun t => locationTail.run (pre ++ sep ++ post).length t
        [(1, (pre ++ sep ++ post).take ((pre ++ sep ++ post).length - t.length))])
      (sep ++ post) (ts.map (fun t => t ++ (sep ++ post))) ([], c') h1
    rw [hh]
    rfl

theorem location_no_match (s : List Char) (h₀ : ∀ t ∈ s.tails, ∀ sep ∈ separators, ¬ sep <+: t) :
    locationTextPattern.FindAllStringSubmatch s = none := by
  have h : ∀ t, t <:+ s → ∀ sep ∈ separators, ¬ sep <+: t :=
    fun t ht => h₀ t ((List.mem_tails _ _).mpr ht)
  unfold Regex.FindAllStringSubmatch
  have key : ∀ n (t : List Char), t <:+ s → locationTextPattern.matchHere n t = none := by
    intro n t ht
    unfold Regex.matchHere
    have : locationTextPattern.run n t [] = [] := by
      rw [locationTextPattern_eq, run_cat, List.flatMap_eq_nil_iff]
      intro x hx
      rw [run_group, List.mem_map] at hx
      obtain ⟨y, hy, rfl⟩ := hx
      have hy2 := run_any_suffix n t [] y hy
      exact run_locationTail_nil n _ _ (h _ (hy2.2.trans ht))
    rw [this]; rfl
  have main : ∀ n (t : List Char), t <:+ s → locationTextPattern.search n t = none := by
    intro n t
    induction t with
    | nil => intro ht; exact key n [] ht
    | cons x xs ih =>
      intro ht
      simp only [Regex.search, key n (x :: xs) ht]
      exact ih ((List.suffix_cons x xs).trans ht)
  exact main _ s (List.suffix_refl s)

theorem finalizeEvent_title (e : Event) (hT : Trim e.Title titleCutset ≠ []) :
    ∃ o, (finalizeEvent e = .forwarded o ∨ finalizeEvent e = .fatal o) ∧
      ((∀ m, locationTextPattern.FindAllStringSubmatch (Trim e.Title titleCutset) = some m →
          o.Title = m.get 1 ∧ o.Location = m.get 4) ∧
        (locationTextPattern.FindAllStringSubmatch (Trim e.Title titleCutset) = none →
          o.Title = Trim e.Title titleCutset ∧ o.Location = e.Location)) := by
  unfold finalizeEvent
  simp only [titleCutset] at hT ⊢
  simp only [hT, if_false]
  rcases locationTextPattern.FindAllStringSubmatch (Trim e.Title [' ', '\t', '/']) with _ | lm
  · simp only []
    split
    · split
      · split
        · exact ⟨_, .inr rfl, (fun m hm => by cases hm), (fun _ => ⟨rfl, rfl⟩)⟩
        · split
          · exact ⟨_, .inl rfl, (fun m hm => by cases hm), (fun _ => ⟨rfl, rfl⟩)⟩
          · split
            · exact ⟨_, .inr rfl, (fun m hm => by cases hm), (fun _ => ⟨rfl, rfl⟩)⟩
            · exact ⟨_, .inl rfl, (fun m hm => by cases hm), (fun _ => ⟨rfl, rfl⟩)⟩
      · exact ⟨_, .inl rfl, (fun m hm => by cases hm), (fun _ => ⟨rfl, rfl⟩)⟩
    · exact ⟨_, .inl rfl, (fun m hm => by cases hm), (fun _ => ⟨rfl, rfl⟩)⟩
  · simp only []
    split
    · split
      · split
        · exact ⟨_, .inr rfl, (fun m hm => by cases hm; exact ⟨rfl, rfl⟩),
            (fun h => by cases h)⟩
        · split
          · exact ⟨_, .inl rfl, (fun m hm => by cases hm; exact ⟨rfl, rfl⟩),
              (fun h => by cases h)⟩
          · split
            · exact ⟨_, .inr rfl, (fun m hm => by cases hm; exact ⟨rfl, rfl⟩),
                (fun h => by cases h)⟩
            · exact ⟨_, .inl rfl, (fun m hm => by cases hm; exact ⟨rfl, rfl⟩),
                (fun h => by cases h)⟩
      · exact ⟨_, .inl rfl, (fun m hm => by cases hm; exact ⟨rfl, rfl⟩), (fun h => by cases h)⟩
    · exact ⟨_, .inl rfl, (fun m hm => by cases hm; exact ⟨rfl, rfl⟩), (fun h => by cases h)⟩

/-- C7 (as amended). For every draft whose trimmed Title contains no line feed and reads
`pre`, then ` at ` or ` in `, then `post`, with no such separator starting further right:
`finalize` sets Title to `pre` and Location to `post` less one leading `the ` (on the event
it forwards, or holds when it aborts on the time text). For every draft whose trimmed
Title (empty excepted) contains no such separator at all, Title is the trimmed Title and
Location is left as it was. -/
theorem finalize_title_location (e : Event) (hT : Trim e.Title titleCutset ≠ []) :
    (∀ pre sep post, Trim e.Title titleCutset = pre ++ sep ++ post → sep ∈ separators →
      (∀ x ∈ Trim e.Title titleCutset, x ≠ '\n') →
      (∀ t ∈ (sep ++ post).tails.tail, ∀ sep₂ ∈ separators, ¬ sep₂ <+: t) →
      ∃ o, (finalizeEvent e = .forwarded o ∨ finalizeEvent e = .fatal o) ∧
        o.Title = pre ∧ o.Location = stripThe post) ∧
    ((∀ t ∈ (Trim e.Title titleCutset).tails, ∀ sep ∈ separators, ¬ sep <+: t) →
      ∃ o, (finalizeEvent e = .forwarded o ∨ finalizeEvent e = .fatal o) ∧
        o.Title = Trim e.Title titleCutset ∧ o.Location = e.Location) := by
  obtain ⟨o, ho, h1, h2⟩ := finalizeEvent_title e hT
  refine ⟨fun pre sep post hsplit hs hn hr => ?_, fun hnone => ?_⟩
  · rw [hsplit] at hn
    obtain ⟨m, hm, hm1, hm4⟩ := location_match pre sep post hs hn hr
    rw [← hsplit] at hm
    have := h1 m hm
    exact ⟨o, ho, by rw [this.1, hm1], by rw [this.2, hm4]⟩
  · exact ⟨o, ho, h2 (location_no_match _ hnone)⟩

/-- C7 (witness). -/
theorem finalize_title_location_witness :
    ∃ o, (finalizeEvent (draft ⟨739000, 0⟩ "Trivia Night at The Pub" "Join us at 7 p.m.") =
          .forwarded o ∨
        finalizeEvent (draft ⟨739000, 0⟩ "Trivia Night at The Pub" "Join us at 7 p.m.") =
          .fatal o) ∧
      o.Title = "Trivia Night".toList ∧ o.Location = stripThe "The Pub".toList :=
  (finalize_title_location (draft ⟨739000, 0⟩ "Trivia Night at The Pub" "Join us at 7 p.m.")
    (by decide)).1 "Trivia Night".toList " at ".toList "The Pub".toList (by decide) (by decide)
      (by decide) (by decide)

theorem Trim_head (s cutset : List Char) (c : Char) (rest : List Char)
    (h : Trim s cutset = c :: rest) : cutset.contains c = false := by
  unfold Trim at h
  have hp : (c :: rest) <+: s.dropWhile (fun c => cutset.contains c) := by
    rw [← h]; exact List.rdropWhile_prefix _ _
  obtain ⟨u, hu⟩ := hp
  have hne : s.dropWhile (fun c => cutset.contains c) ≠ [] := by
    rw [← hu]; simp
  have hh := List.head_dropWhile_not (fun c => cutset.contains c) s hne
  have : (s.dropWhile (fun c => cutset.contains c)).head hne = c := by
    simp only [← hu]
    rfl
  rw [this] at hh
  simpa using hh

theorem rightmost_separator (s : List Char)
    (h : ∃ t ∈ s.tails, ∃ sep ∈ separators, sep <+: t) :
    ∃ pre sep post, s = pre ++ sep ++ post ∧ sep ∈ separators ∧
      ∀ t ∈ (sep ++ post).tails.tail, ∀ sep₂ ∈ separators, ¬ sep₂ <+: t := by
  induction s with
  | nil =>
    obtain ⟨t, ht, sep, hs, hp⟩ := h
    simp only [List.tails, List.mem_singleton] at ht
    subst ht
    simp only [separators, List.mem_cons, List.mem_singleton, List.not_mem_nil, or_false] at hs
    rcases hs with rfl | rfl <;> simp at hp
  | cons x xs ih =>
    by_cases hx : ∃ t ∈ xs.tails, ∃ sep ∈ separators, sep <+: t
    · obtain ⟨pre, sep, post, h1, h2, h3⟩ := ih hx
      exact ⟨x :: pre, sep, post, by rw [h1]; simp, h2, h3⟩
    · obtain ⟨t, ht, sep, hs, hp⟩ := h
      simp only [List.tails, List.mem_cons] at ht
      rcases ht with rfl | ht
      · obtain ⟨post, hpost⟩ := hp
        refine ⟨[], sep, post, by simpa using hpost.symm, hs, ?_⟩
        intro t ht sep₂ hs₂ hp₂
        rw [hpost] at ht
        simp only [List.tails, List.tail_cons] at ht
        exact hx ⟨t, ht, sep₂, hs₂, hp₂⟩
      · exact absurd ⟨t, ht, sep, hs, hp⟩ hx

/-- Titles of one line: a draft whose trimmed Title is non-empty and holds no line feed is
never left with an empty Title. -/
theorem finalize_title_of_one_line (e : Event) (hT : Trim e.Title titleCutset ≠ [])
    (hn : ∀ x ∈ Trim e.Title titleCutset, x ≠ '\n') :
    ∀ o, (finalizeEvent e = .forwarded o ∨ finalizeEvent e = .fatal o) → o.Title ≠ [] := by
  intro o ho
  obtain ⟨o', ho', h1, h2⟩ := finalizeEvent_title e hT
  have heq : o = o' := by
    rcases ho with ho | ho <;> rcases ho' with ho' | ho' <;> rw [ho] at ho' <;> cases ho' <;> rfl
  subst heq
  by_cases hsep : ∃ t ∈ (Trim e.Title titleCutset).tails, ∃ sep ∈ separators, sep <+: t
  · obtain ⟨pre, sep, post, hsplit, hs, hr⟩ := rightmost_separator _ hsep
    have hn' : ∀ x ∈ pre ++ sep ++ post, x ≠ '\n' := by rw [← hsplit]; exact hn
    obtain ⟨m, hm, hm1, _⟩ := location_match pre sep post hs hn' hr
    rw [← hsplit] at hm
    rw [(h1 m hm).1, hm1]
    intro hpre
    subst hpre
    simp only [separators, List.mem_cons, List.mem_singleton, List.not_mem_nil, or_false] at hs
    have hc := Trim_head e.Title titleCutset ' '
    rcases hs with rfl | rfl
    · have := hc _ (by rw [hsplit]; rfl)
      simp [titleCutset] at this
    · have := hc _ (by rw [hsplit]; rfl)
      simp [titleCutset] at this
  · have hnone : ∀ t ∈ (Trim e.Title titleCutset).tails, ∀ sep ∈ separators, ¬ sep <+: t :=
      fun t ht sep hs hp => hsep ⟨t, ht, sep, hs, hp⟩
    rw [(h2 (location_no_match _ hnone)).1]
    exact hT

/-- C3 (the code at the failing input). An anchor whose only attribute is `href` and whose
text is `Learn more here.` leaves `Link` empty: the attribute loop stops before it looks at
the last attribute. The same happens when `href` comes last of several; with another
attribute after it, `Link` is the href. In all three cases the anchor text stays out of
Body. -/
theorem ParseLink_skips_last_attribute :
    (NewParser ⟨739000, 0⟩ (anchorDocument "Trivia Night" " Test your knowledge. "
        [("href", "https://example.com/trivia")] "Learn more here.") false).Run.parser.Events.map
        (fun e => (e.Link, e.Body)) = [("".toList, " Test your knowledge. ".toList)] ∧
    (NewParser ⟨739000, 0⟩ (anchorDocument "Trivia Night" " Test your knowledge. "
        [("class", "more"), ("href", "https://example.com/trivia")]
        "Learn more here.") false).Run.parser.Events.map
        (fun e => (e.Link, e.Body)) = [("".toList, " Test your knowledge. ".toList)] ∧
    (NewParser ⟨739000, 0⟩ (anchorDocument "Trivia Night" " Test your knowledge. "
        [("href", "https://example.com/trivia"), ("class", "more")]
        "Learn more here.") false).Run.parser.Events.map
        (fun e => (e.Link, e.Body)) =
      [("https://example.com/trivia".toList, " Test your knowledge. ".toList)] := by
  decide

/-- C4 (the code at the failing input). An anchor whose only attribute is `href` and whose
text is no call to action appends its text followed by ` ()` to Body: the href is missing
from the parentheses. With another attribute after `href` the suffix holds the href. -/
theorem ParseLink_appends_empty_href :
    (NewParser ⟨739000, 0⟩ (anchorDocument "Trivia Night" " Get "
        [("href", "https://example.com/tickets")] "tickets") false).Run.parser.Events.map
        (fun e => (e.Link, e.Body)) = [("".toList, " Get tickets ()".toList)] ∧
    (NewParser ⟨739000, 0⟩ (anchorDocument "Trivia Night" " Get "
        [("href", "https://example.com/tickets"), ("class", "more")]
        "tickets") false).Run.parser.Events.map
        (fun e => (e.Link, e.Body)) =
      [("".toList, " Get tickets (https://example.com/tickets)".toList)] := by
  decide

/-- C7 (counterexample). A trimmed Title that runs over two lines, `Live Music`, line feed,
`Friday at The Pub`, reads `Live Music`, line feed, `Friday` before its only separator;
the event is forwarded with Title `Friday` and Location `The Pub`, the first line lost. -/
theorem finalize_splits_within_a_line :
    (extract ⟨739000, 0⟩ (titledDocument "Live Music\nFriday at The Pub"
        " Bring a chair.")).1.map (fun e => (e.Title, e.Location)) =
      [("Friday".toList, "The Pub".toList)] ∧
    Trim "Live Music\nFriday at The Pub".toList titleCutset =
      "Live Music\nFriday".toList ++ " at ".toList ++ "The Pub".toList := by
  decide

/-- C10 (the code at the failing input). A Title whose second line starts with the
separator, `Yoga`, line feed, ` in the Park`, passes the emptiness test and is then split
into an empty Title and the Location `Park`; the event is forwarded with the empty Title. -/
theorem finalize_forwards_empty_title :
    (extract ⟨739000, 0⟩ (titledDocument "Yoga\n in the Park"
        " Bring a mat.")).1.map (fun e => (e.Title, e.Location)) =
      [("".toList, "Park".toList)] := by
  decide

theorem ext_of_inRange (t : Time) (h : t.InRange) : t.ext = t.sec := by
  unfold Time.InRange at h
  unfold Time.ext wrap64
  omega

theorem AddDate_sec (t : Time) (a : Int) : (t.AddDate a).sec = t.sec + 86400 * a := by
  unfold Time.AddDate Time.sec
  simp only []
  ring

theorem AddDate_inRange (t : Time) (lo hi a : Int) (hl : (t.AddDate lo).InRange)
    (hh : (t.AddDate hi).InRange) (h1 : lo ≤ a) (h2 : a ≤ hi) : (t.AddDate a).InRange := by
  unfold Time.InRange at *
  rw [AddDate_sec] at *
  constructor <;> omega

theorem AddDate_After (t : Time) (a b : Int) (ha : (t.AddDate a).InRange)
    (hb : (t.AddDate b).InRange) :
    (t.AddDate a).After (t.AddDate b) = decide (b < a) := by
  unfold Time.After
  rw [ext_of_inRange _ ha, ext_of_inRange _ hb, AddDate_sec, AddDate_sec]
  have hn : (t.AddDate a).nsec = (t.AddDate b).nsec := rfl
  rw [hn]
  by_cases h : b < a
  · have : t.sec + 86400 * b < t.sec + 86400 * a := by omega
    simp [h, this]
  · have : ¬ t.sec + 86400 * b < t.sec + 86400 * a := by omega
    simp [h, this]

theorem AddDate_le (t : Time) (a b : Int) (h : a ≤ b) : (t.AddDate a).le (t.AddDate b) := by
  unfold Time.le Time.AddDate
  simp only [add_lt_add_iff_left, add_right_inj, le_refl, and_true]
  exact lt_or_eq_of_le h

theorem SetDates_eq (p : Parser) (start endDay : List Char) (ds de : Int)
    (hs : parseWeekday start = some ds) (he : parseWeekday endDay = some de)
    (hne : endDay ≠ []) (hrs : (p.time.AddDate ds).InRange) (hre : (p.time.AddDate de).InRange) :
    ∃ q, p.SetDates start endDay = some q ∧ q.dates.Start = p.time.AddDate (min ds de) ∧
      q.dates.End = p.time.AddDate (max ds de) ∧ q.dates.Start.le q.dates.End := by
  unfold Parser.SetDates
  simp only [hs, he, hne, ne_eq, not_false_eq_true, if_true, AddDate_After _ _ _ hrs hre]
  by_cases h : de < ds
  · simp only [h, decide_True, if_true]
    refine ⟨_, rfl, ?_, ?_, AddDate_le _ _ _ (le_of_lt h)⟩
    · show p.time.AddDate de = _
      rw [min_eq_right (le_of_lt h)]
    · show p.time.AddDate ds = _
      rw [max_eq_left (le_of_lt h)]
  · simp only [h, decide_False]
    have h2 : ds ≤ de := not_lt.mp h
    refine ⟨_, rfl, ?_, ?_, AddDate_le _ _ _ h2⟩
    · show p.time.AddDate ds = _
      rw [min_eq_left h2]
    · show p.time.AddDate de = _
      rw [max_eq_right h2]

theorem parseWeekday_names (w : List Char) (h : w ∈ weekdayNames) :
    parseWeekday w = some (weekdayOffset w) ∧ w ≠ [] := by
  simp only [weekdayNames, List.mem_cons, List.mem_singleton, List.not_mem_nil, or_false] at h
  rcases h with rfl | rfl | rfl | rfl <;> exact ⟨by decide, by decide⟩

theorem weekdayOffset_range (w : List Char) : 0 ≤ weekdayOffset w ∧ weekdayOffset w ≤ 3 := by
  unfold weekdayOffset
  split
  · exact ⟨by decide, by decide⟩
  · split
    · exact ⟨by decide, by decide⟩
    · split <;> exact ⟨by decide, by decide⟩

theorem AddDate_zero (t : Time) : t.AddDate 0 = t := by
  unfold Time.AddDate
  simp

/-- C9 (as amended). For every anchor date that lies, with the third day after it, in the
range where a `time.Time` keeps its seconds unwrapped, and every start and end weekday among
Thursday, Friday, Saturday and Sunday, `SetDates` stores Start = anchor + min of the two
offsets in days and End = anchor + max of the two offsets in days, so that Start is not
after End; for every anchor date whatever, with an empty end weekday it stores Start =
anchor + offset of the start weekday and the zero time as End. -/
theorem SetDates_orders_weekdays (p : Parser) (start : List Char) (hs : start ∈ weekdayNames) :
    (p.time.InRange → (p.time.AddDate 3).InRange → ∀ endDay, endDay ∈ weekdayNames →
      ∃ q, p.SetDates start endDay = some q ∧
        q.dates.Start = p.time.AddDate (min (weekdayOffset start) (weekdayOffset endDay)) ∧
        q.dates.End = p.time.AddDate (max (weekdayOffset start) (weekdayOffset endDay)) ∧
        q.dates.Start.le q.dates.End) ∧
    (∃ q, p.SetDates start [] = some q ∧
      q.dates.Start = p.time.AddDate (weekdayOffset start) ∧ q.dates.End = Time.zero) := by
  have h1 := parseWeekday_names start hs
  refine ⟨fun hr₀ hr₃ endDay he => ?_, ?_⟩
  · have h2 := parseWeekday_names endDay he
    have hr₀' : (p.time.AddDate 0).InRange := by rw [AddDate_zero]; exact hr₀
    have rs := weekdayOffset_range start
    have re := weekdayOffset_range endDay
    exact SetDates_eq p start endDay _ _ h1.1 h2.1 h2.2
      (AddDate_inRange _ 0 3 _ hr₀' hr₃ rs.1 rs.2) (AddDate_inRange _ 0 3 _ hr₀' hr₃ re.1 re.2)
  · unfold Parser.SetDates
    simp only [h1.1, ne_eq, not_true_eq_false, if_false]
    exact ⟨_, rfl, rfl, rfl⟩

/-- C9 (witness). -/
theorem SetDates_orders_weekdays_witness :
    ∃ q, (NewParser ⟨739000, 0⟩ [] false).SetDates "Sunday".toList "Friday".toList = some q ∧
      q.dates.Start = (⟨739000, 0⟩ : Time).AddDate
        (min (weekdayOffset "Sunday".toList) (weekdayOffset "Friday".toList)) ∧
      q.dates.End = (⟨739000, 0⟩ : Time).AddDate
        (max (weekdayOffset "Sunday".toList) (weekdayOffset "Friday".toList)) ∧
      q.dates.Start.le q.dates.End :=
  (SetDates_orders_weekdays (NewParser ⟨739000, 0⟩ [] false) "Sunday".toList (by decide)).1
    (by decide) (by decide) "Friday".toList (by decide)

/-- C9 (counterexample). The anchor December 6 of the year 292277024627, a Thursday, is the
last day whose midnight a `time.Time` keeps in its `int64` seconds; the Friday after it is
kept with wrapped seconds and `s.After(e)` takes the Thursday for the later of the two. From
Thursday to Friday `SetDates` stores Start = anchor + 1 day and End = anchor: Start is after
End, and is not anchor + min of the offsets. -/
theorem SetDates_swaps_at_the_end_of_the_range :
    (⟨106751991167300, 0⟩ : Time).InRange ∧
    ¬ ((⟨106751991167300, 0⟩ : Time).AddDate 1).InRange ∧
    (⟨106751991167300, 0⟩ : Time).After ((⟨106751991167300, 0⟩ : Time).AddDate 1) = true ∧
    (∃ q, (NewParser ⟨106751991167300, 0⟩ [] false).SetDates "Thursday".toList
        "Friday".toList = some q ∧
      q.dates.Start = ⟨106751991167301, 0⟩ ∧ q.dates.End = ⟨106751991167300, 0⟩ ∧
      ¬ q.dates.Start.le q.dates.End ∧
      q.dates.Start ≠ (⟨106751991167300, 0⟩ : Time).AddDate
        (min (weekdayOffset "Thursday".toList) (weekdayOffset "Friday".toList))) :=
  ⟨by decide, by decide, by decide, _, rfl, by decide, by decide, by decide, by decide⟩

/-! ## Finalization, field by field -/

theorem titled_frame (e : Event) :
    e.titled.Body = e.Body ∧ e.titled.Link = e.Link ∧ e.titled.Dates = e.Dates ∧
      e.titled.Times = e.Times ∧ e.titled.Description = TrimSpace e.Body := by
  unfold Event.titled
  simp only []
  split <;> exact ⟨rfl, rfl, rfl, rfl, rfl⟩

theorem finalizeEvent_eq (e : Event) (hT : Trim e.Title titleCutset ≠ []) :
    finalizeEvent e =
      if e.Dates.End.IsZero then
        match singleDayTimePattern.FindAllStringSubmatch (TrimSpace e.Body) with
        | some m =>
          match Parse (startText m) with
          | none => .fatal e.titled
          | some s =>
            if m.get 8 = [] then
              .forwarded { e.titled with Times := e.Times ++
                [⟨e.Dates.Start.atClock s.Hour s.Minute,
                  (e.Dates.Start.atClock s.Hour s.Minute).Add (1 * Hour)⟩] }
            else
              match Parse (endText m) with
              | none => .fatal e.titled
              | some t =>
                .forwarded { e.titled with Times := e.Times ++
                  [⟨e.Dates.Start.atClock s.Hour s.Minute,
                    e.Dates.Start.atClock t.Hour t.Minute⟩] }
        | none => .forwarded e.titled
      else
        .forwarded { e.titled with
          Dates := { e.Dates with End := e.Dates.End.AddDate 1 } } := by
  simp only [titleCutset] at hT
  unfold finalizeEvent Event.titled startText endText
  simp only [hT, if_false]
  cases hZ : e.Dates.End.IsZero
  · rcases locationTextPattern.FindAllStringSubmatch (Trim e.Title [' ', '\t', '/']) with _ | lm <;>
      simp only [hZ] <;> rfl
  · rcases hm : singleDayTimePattern.FindAllStringSubmatch (TrimSpace e.Body) with _ | m
    · rcases locationTextPattern.FindAllStringSubmatch (Trim e.Title [' ', '\t', '/']) with _ | lm <;>
        simp only [hZ, hm]
    · rcases hs : Parse (clockText (m.get 2) (if m.get 6 = [] then m.get 10 else m.get 6))
        with _ | s
      · rcases locationTextPattern.FindAllStringSubmatch (Trim e.Title [' ', '\t', '/'])
          with _ | lm <;> simp only [hZ, hm, hs]
      · have hd := Date_atClock e.Dates.Start s (Parse_clock _ _ hs)
        by_cases h8 : m.get 8 = []
        · rcases locationTextPattern.FindAllStringSubmatch (Trim e.Title [' ', '\t', '/'])
            with _ | lm <;> simp only [hZ, hm, hs, h8, if_true, hd]
        · rcases ht : Parse (clockText (m.get 8) (m.get 10)) with _ | t
          · rcases locationTextPattern.FindAllStringSubmatch (Trim e.Title [' ', '\t', '/'])
              with _ | lm <;> simp only [hZ, hm, hs, h8, if_false, ht]
          · have hd2 := Date_atClock e.Dates.Start t (Parse_clock _ _ ht)
            rcases locationTextPattern.FindAllStringSubmatch (Trim e.Title [' ', '\t', '/'])
              with _ | lm <;> simp only [hZ, hm, hs, h8, if_false, ht, hd, hd2]

theorem finalizeEvent_titled (e : Event) (o : Event)
    (h : finalizeEvent e = .forwarded o ∨ finalizeEvent e = .fatal o) :
    Trim e.Title titleCutset ≠ [] ∧ o.Title = e.titled.Title ∧
      o.Location = e.titled.Location ∧ o.Body = e.Body ∧ o.Link = e.Link ∧
      o.Dates.Start = e.Dates.Start ∧ o.Description = TrimSpace e.Body := by
  have hT : Trim e.Title titleCutset ≠ [] := by
    intro hd
    rw [finalizeEvent_dropped e hd] at h
    rcases h with h | h <;> cases h
  refine ⟨hT, ?_⟩
  have hf := titled_frame e
  rw [finalizeEvent_eq e hT] at h
  split at h
  · split at h
    · split at h
      · rcases h with h | h <;> cases h
        exact ⟨rfl, rfl, hf.1, hf.2.1, by rw [hf.2.2.1], hf.2.2.2.2⟩
      · split at h
        · rcases h with h | h <;> cases h
          exact ⟨rfl, rfl, hf.1, hf.2.1, by rw [← hf.2.2.1], hf.2.2.2.2⟩
        · split at h
          · rcases h with h | h <;> cases h
            exact ⟨rfl, rfl, hf.1, hf.2.1, by rw [hf.2.2.1], hf.2.2.2.2⟩
          · rcases h with h | h <;> cases h
            exact ⟨rfl, rfl, hf.1, hf.2.1, by rw [← hf.2.2.1], hf.2.2.2.2⟩
    · rcases h with h | h <;> cases h
      exact ⟨rfl, rfl, hf.1, hf.2.1, by rw [hf.2.2.1], hf.2.2.2.2⟩
  · rcases h with h | h <;> cases h
    exact ⟨rfl, rfl, hf.1, hf.2.1, rfl, hf.2.2.2.2⟩

theorem atClock_fields (date : Time) (c : Clock)
    (h : c.Hour < 24 ∧ c.Minute < 60 ∧ c.Second = 0 ∧ c.Nanosecond = 0) :
    (date.atClock c.Hour c.Minute).day = date.day ∧
      (date.atClock c.Hour c.Minute).nsec < nsPerDay ∧
      ((date.atClock c.Hour c.Minute).nsec < 23 * Hour →
        ((date.atClock c.Hour c.Minute).Add (1 * Hour)).day = date.day) ∧
      (23 * Hour ≤ (date.atClock c.Hour c.Minute).nsec →
        ((date.atClock c.Hour c.Minute).Add (1 * Hour)).day = date.day + 1 ∧
          ((date.atClock c.Hour c.Minute).Add (1 * Hour)).nsec < 1 * Hour) := by
  obtain ⟨h1, h2, _, _⟩ := h
  unfold Time.atClock Time.Add Hour nsPerDay
  simp only []
  refine ⟨trivial, by omega, fun h => ?_, fun h => ⟨?_, ?_⟩⟩
  · have : ((c.Hour * 3600 + c.Minute * 60) * 1000000000 + 1 * (3600 * 1000000000)) /
        (86400 * 1000000000) = 0 := by omega
    rw [this]; simp
  · have : ((c.Hour * 3600 + c.Minute * 60) * 1000000000 + 1 * (3600 * 1000000000)) /
        (86400 * 1000000000) = 1 := by omega
    rw [this]; simp
  · omega

/-- C11 (as amended). For every draft without times that `finalize` forwards: a TimeRange
of the forwarded event is its only one; its Start falls on the calendar day of
`Dates.Start`; its End falls on that day too when the time match carries an end time, and
also when the end is defaulted and Start is before 23:00. When the end is defaulted to
Start + 1 hour and Start is at 23:00 or later, End falls on the following day, before
01:00. -/
theorem finalize_times_day (e o : Event) (hN : e.Times = [])
    (h : finalizeEvent e = .forwarded o) :
    ∀ tr ∈ o.Times,
      o.Times = [tr] ∧ tr.Start.day = o.Dates.Start.day ∧ tr.Start.nsec < nsPerDay ∧
      (tr.Start.nsec < 23 * Hour → tr.End.day = o.Dates.Start.day) ∧
      (∀ m, singleDayTimePattern.FindAllStringSubmatch o.Description = some m →
        (m.get 8 ≠ [] → tr.End.day = o.Dates.Start.day ∧ tr.End.nsec < nsPerDay) ∧
        (m.get 8 = [] → tr.End = tr.Start.Add (1 * Hour) ∧
          (23 * Hour ≤ tr.Start.nsec →
            tr.End.day = o.Dates.Start.day + 1 ∧ tr.End.nsec < 1 * Hour))) := by
  obtain ⟨hT, _, _, _, _, hS, hD⟩ := finalizeEvent_titled e o (.inl h)
  have hf := titled_frame e
  rw [finalizeEvent_eq e hT] at h
  rw [hS, hD]
  intro tr htr
  split at h
  · split at h
    · next m hm =>
      split at h
      · cases h
      · next s hs =>
        have hc := atClock_fields e.Dates.Start s (Parse_clock _ _ hs)
        split at h
        · next h8 =>
          cases h
          simp only [hN, List.nil_append, List.mem_singleton] at htr ⊢
          subst htr
          refine ⟨rfl, hc.1, hc.2.1, hc.2.2.1, fun m' hm' => ?_⟩
          rw [hm] at hm'; cases hm'
          exact ⟨fun h8' => absurd h8 h8', fun _ => ⟨rfl, hc.2.2.2⟩⟩
        · next h8 =>
          split at h
          · cases h
          · next t ht =>
            have hc2 := atClock_fields e.Dates.Start t (Parse_clock _ _ ht)
            cases h
            simp only [hN, List.nil_append, List.mem_singleton] at htr ⊢
            subst htr
            refine ⟨rfl, hc.1, hc.2.1, fun _ => hc2.1, fun m' hm' => ?_⟩
            rw [hm] at hm'; cases hm'
            exact ⟨fun _ => ⟨hc2.1, hc2.2.1⟩, fun h8' => absurd h8' h8⟩
    · cases h
      rw [hf.2.2.2.1, hN] at htr
      cases htr
  · cases h
    simp only [hf.2.2.2.1, hN] at htr
    cases htr

/-- C11 (counterexample). A single-day draft whose Description reads
`Music starts at 11 p.m.` is forwarded with a TimeRange that starts at 23:00 on the day of
`Dates.Start` and ends at 00:00 on the following day. -/
theorem finalize_default_end_crosses_midnight :
    ∃ o, finalizeEvent (draft ⟨739000, 0⟩ "Late Show" "Music starts at 11 p.m.") =
        .forwarded o ∧
      o.Dates.Start = ⟨739000, 0⟩ ∧
      o.Times = [⟨⟨739000, 23 * Hour⟩, ⟨739001, 0⟩⟩] ∧
      o.Times.map (fun tr => decide (tr.End.day = o.Dates.Start.day)) = [false] :=
  ⟨_, rfl, by decide, by decide, by decide⟩

/-- C11 (witness). -/
theorem finalize_times_day_witness :
    ({ draft ⟨739000, 0⟩ "Concert" "Doors open at 6 p.m." with
        Description := "Doors open at 6 p.m.".toList,
        Times := [⟨⟨739000, 18 * Hour⟩, ⟨739000, 19 * Hour⟩⟩] } : Event).Times =
      [⟨⟨739000, 18 * Hour⟩, ⟨739000, 19 * Hour⟩⟩] ∧
    (⟨⟨739000, 18 * Hour⟩, ⟨739000, 19 * Hour⟩⟩ : TimeRange).Start.day =
      ({ draft ⟨739000, 0⟩ "Concert" "Doors open at 6 p.m." with
        Description := "Doors open at 6 p.m.".toList,
        Times := [⟨⟨739000, 18 * Hour⟩, ⟨739000, 19 * Hour⟩⟩] } : Event).Dates.Start.day :=
  ⟨(finalize_times_day (draft ⟨739000, 0⟩ "Concert" "Doors open at 6 p.m.") _ (by decide)
      (by decide) ⟨⟨739000, 18 * Hour⟩, ⟨739000, 19 * Hour⟩⟩ (by decide)).1,
    (finalize_times_day (draft ⟨739000, 0⟩ "Concert" "Doors open at 6 p.m.") _ (by decide)
      (by decide) ⟨⟨739000, 18 * Hour⟩, ⟨739000, 19 * Hour⟩⟩ (by decide)).2.1⟩

/-- For every single-day draft with a Title that is kept: when the time
pattern has no match in the Description, the event is forwarded with `Times` as it was
(empty); and `finalize` ends the process exactly when the time pattern has a match whose
start text `time.Parse` rejects, or whose end text is there and is rejected. -/
theorem finalize_without_time_match (e : Event) (hT : Trim e.Title titleCutset ≠ [])
    (hZ : e.Dates.End.IsZero = true) :
    (singleDayTimePattern.FindAllStringSubmatch (TrimSpace e.Body) = none →
      ∃ o, finalizeEvent e = .forwarded o ∧ o.Times = e.Times ∧ (e.Times = [] → o.Times = [])) ∧
    ((finalizeEvent e).isFatal = true ↔
      ∃ m, singleDayTimePattern.FindAllStringSubmatch (TrimSpace e.Body) = some m ∧
        (Parse (startText m) = none ∨ (m.get 8 ≠ [] ∧ Parse (endText m) = none))) := by
  have hf := titled_frame e
  rw [finalizeEvent_eq e hT]
  simp only [hZ, if_true]
  rcases hm : singleDayTimePattern.FindAllStringSubmatch (TrimSpace e.Body) with _ | m
  · refine ⟨fun _ => ⟨_, rfl, hf.2.2.2.1, fun h => by rw [hf.2.2.2.1, h]⟩, ?_⟩
    simp [Finalized.isFatal]
  · refine ⟨(fun h => by cases h), ?_⟩
    simp only [Option.some.injEq, exists_eq_left']
    rcases hs : Parse (startText m) with _ | s
    · simp [Finalized.isFatal]
    · by_cases h8 : m.get 8 = []
      · simp [Finalized.isFatal, h8]
      · rcases ht : Parse (endText m) with _ | t
        · simp [Finalized.isFatal, h8]
        · simp [Finalized.isFatal, h8]

/-- A Description without a time match: `All day, rain or shine`. -/
theorem finalize_without_time_match_witness :
    ∃ o, finalizeEvent (draft ⟨739000, 0⟩ "Art Walk" "All day, rain or shine") = .forwarded o ∧
      o.Times = (draft ⟨739000, 0⟩ "Art Walk" "All day, rain or shine").Times ∧
      ((draft ⟨739000, 0⟩ "Art Walk" "All day, rain or shine").Times = [] → o.Times = []) :=
  (finalize_without_time_match (draft ⟨739000, 0⟩ "Art Walk" "All day, rain or shine")
    (by decide) (by decide)).1 (by decide)

theorem match_7_to_9pm :
    (singleDayTimePattern.FindAllStringSubmatch "7 - 9 p.m.".toList).map
        (fun m => (m.get 2, m.get 6, m.get 8, m.get 10)) =
      some (['7'], [], ['9'], ['p']) := by
  decide

theorem match_630_to_8pm :
    (singleDayTimePattern.FindAllStringSubmatch "6:30 - 8 p.m.".toList).map
        (fun m => (m.get 2, m.get 6, m.get 8, m.get 10)) =
      some (['6', ':', '3', '0'], [], ['8'], ['p']) := by
  decide

theorem clockText_of_hour (t x : List Char) (h : ∀ c ∈ t, c ≠ ':') :
    clockText t x = t ++ ":00".toList ++ " ".toList ++ ToUpper x ++ "M".toList := by
  have hspan : t.span (fun c => c != ':') = (t, []) := by
    rw [List.span_eq_take_drop]
    have h1 : t.takeWhile (fun c => c != ':') = t :=
      List.takeWhile_eq_self_iff.mpr (fun c hc => by simpa using h c hc)
    have h2 : t.dropWhile (fun c => c != ':') = [] :=
      List.dropWhile_eq_nil_iff.mpr (fun c hc => by simpa using h c hc)
    rw [h1, h2]
  unfold clockText SplitN2
  rw [hspan]
  rfl

theorem finalizeEvent_range (e : Event) (hT : Trim e.Title titleCutset ≠ [])
    (hZ : e.Dates.End.IsZero = true) (m : Caps) (s t : Clock)
    (hm : singleDayTimePattern.FindAllStringSubmatch (TrimSpace e.Body) = some m)
    (h8 : m.get 8 ≠ []) (hs : Parse (startText m) = some s) (ht : Parse (endText m) = some t) :
    finalizeEvent e = .forwarded { e.titled with Times := e.Times ++
      [⟨e.Dates.Start.atClock s.Hour s.Minute, e.Dates.Start.atClock t.Hour t.Minute⟩] } := by
  rw [finalizeEvent_eq e hT]
  simp only [hZ, if_true, hm, hs, h8, if_false, ht]

set_option maxRecDepth 100000 in
/-- Every clock time `H` or `H:MM` of a 12-hour clock, given the meridiem `a` or `p`, is
accepted by `time.Parse` and read as that time of day. -/
theorem Parse_clockTexts :
    ∀ c ∈ clockTexts, ∀ x ∈ ['a', 'p'],
      c.1 ≠ [] ∧ Parse (clockText c.1 [x]) = some ⟨to24 c.2.1 x, c.2.2, 0, 0⟩ := by
  decide

/-- For every single-day draft with a Title that is kept and no times
yet, whose Description's first time match is a range with no meridiem on its start: the
start text is read with the meridiem of the end, a text without a colon is given `:00`, and
when `time.Parse` accepts both texts as the clock times `s` and `t` the event is forwarded
with the one TimeRange from `s` to `t` on the day of `Dates.Start`. For `7 - 9 p.m.` that is
19:00 to 21:00, for `6:30 - 8 p.m.` it is 18:30 to 20:00. Both texts are accepted whenever
they are clock times of a 12-hour clock (hour 1 to 12, minute none or 00 to 59), and the
TimeRange then runs from `H1:M1 x.m.` to `H2:M2 x.m.`. -/
theorem finalize_range_shares_meridiem (e : Event) (hT : Trim e.Title titleCutset ≠ [])
    (hZ : e.Dates.End.IsZero = true) (hN : e.Times = []) :
    (∀ m s t, singleDayTimePattern.FindAllStringSubmatch (TrimSpace e.Body) = some m →
      m.get 6 = [] → m.get 8 ≠ [] →
      Parse (clockText (m.get 2) (m.get 10)) = some s →
      Parse (clockText (m.get 8) (m.get 10)) = some t →
      ∃ o, finalizeEvent e = .forwarded o ∧
        o.Times = [⟨e.Dates.Start.atClock s.Hour s.Minute,
          e.Dates.Start.atClock t.Hour t.Minute⟩]) ∧
    (∀ h x : List Char, (∀ c ∈ h, c ≠ ':') →
      clockText h x = h ++ ":00".toList ++ " ".toList ++ ToUpper x ++ "M".toList) ∧
    (TrimSpace e.Body = "7 - 9 p.m.".toList →
      ∃ o, finalizeEvent e = .forwarded o ∧
        o.Times = [⟨e.Dates.Start.atClock 19 0, e.Dates.Start.atClock 21 0⟩]) ∧
    (TrimSpace e.Body = "6:30 - 8 p.m.".toList →
      ∃ o, finalizeEvent e = .forwarded o ∧
        o.Times = [⟨e.Dates.Start.atClock 18 30, e.Dates.Start.atClock 20 0⟩]) ∧
    (∀ m c₁ c₂ x, singleDayTimePattern.FindAllStringSubmatch (TrimSpace e.Body) = some m →
      m.get 6 = [] → c₁ ∈ clockTexts → c₂ ∈ clockTexts → x ∈ ['a', 'p'] →
      m.get 2 = c₁.1 → m.get 8 = c₂.1 → m.get 10 = [x] →
      ∃ o, finalizeEvent e = .forwarded o ∧
        o.Times = [⟨e.Dates.Start.atClock (to24 c₁.2.1 x) c₁.2.2,
          e.Dates.Start.atClock (to24 c₂.2.1 x) c₂.2.2⟩]) := by
  have hf := titled_frame e
  have key : ∀ m s t, singleDayTimePattern.FindAllStringSubmatch (TrimSpace e.Body) = some m →
      m.get 6 = [] → m.get 8 ≠ [] →
      Parse (clockText (m.get 2) (m.get 10)) = some s →
      Parse (clockText (m.get 8) (m.get 10)) = some t →
      ∃ o, finalizeEvent e = .forwarded o ∧
        o.Times = [⟨e.Dates.Start.atClock s.Hour s.Minute,
          e.Dates.Start.atClock t.Hour t.Minute⟩] := by
    intro m s t hm h6 h8 hs ht
    have hs' : Parse (startText m) = some s := by
      unfold startText; rw [h6]; simpa using hs
    refine ⟨_, finalizeEvent_range e hT hZ m s t hm h8 hs' ht, ?_⟩
    simp only [hN, List.nil_append]
  refine ⟨key, clockText_of_hour, fun hb => ?_, fun hb => ?_,
    fun m c₁ c₂ x hm h6 hc₁ hc₂ hx h2 h8 h10 => ?_⟩
  · have hq := match_7_to_9pm
    rw [← hb] at hq
    rcases hm : singleDayTimePattern.FindAllStringSubmatch (TrimSpace e.Body) with _ | m
    · rw [hm] at hq; simp at hq
    · rw [hm] at hq
      simp only [Option.map_some', Option.some.injEq, Prod.mk.injEq] at hq
      obtain ⟨h2, h6, h8, h10⟩ := hq
      have h8' : m.get 8 ≠ [] := by rw [h8]; exact List.cons_ne_nil _ _
      exact key m ⟨19, 0, 0, 0⟩ ⟨21, 0, 0, 0⟩ hm h6 h8' (by rw [h2, h10]; decide)
        (by rw [h8, h10]; decide)
  · have hq := match_630_to_8pm
    rw [← hb] at hq
    rcases hm : singleDayTimePattern.FindAllStringSubmatch (TrimSpace e.Body) with _ | m
    · rw [hm] at hq; simp at hq
    · rw [hm] at hq
      simp only [Option.map_some', Option.some.injEq, Prod.mk.injEq] at hq
      obtain ⟨h2, h6, h8, h10⟩ := hq
      have h8' : m.get 8 ≠ [] := by rw [h8]; exact List.cons_ne_nil _ _
      exact key m ⟨18, 30, 0, 0⟩ ⟨20, 0, 0, 0⟩ hm h6 h8' (by rw [h2, h10]; decide)
        (by rw [h8, h10]; decide)
  · have p₁ := Parse_clockTexts c₁ hc₁ x hx
    have p₂ := Parse_clockTexts c₂ hc₂ x hx
    have h8' : m.get 8 ≠ [] := by rw [h8]; exact p₂.1
    have hs : Parse (clockText (m.get 2) (m.get 10)) = some ⟨to24 c₁.2.1 x, c₁.2.2, 0, 0⟩ := by
      rw [h2, h10]; exact p₁.2
    have ht : Parse (clockText (m.get 8) (m.get 10)) = some ⟨to24 c₂.2.1 x, c₂.2.2, 0, 0⟩ := by
      rw [h8, h10]; exact p₂.2
    exact key m ⟨to24 c₁.2.1 x, c₁.2.2, 0, 0⟩ ⟨to24 c₂.2.1 x, c₂.2.2, 0, 0⟩ hm h6 h8' hs ht

/-- The range `6:30 - 8 p.m.` on a draft. -/
theorem finalize_range_shares_meridiem_witness :
    ∃ o, finalizeEvent (draft ⟨739000, 0⟩ "Happy Hour" "6:30 - 8 p.m.") = .forwarded o ∧
      o.Times = [⟨(⟨739000, 0⟩ : Time).atClock 18 30, (⟨739000, 0⟩ : Time).atClock 20 0⟩] :=
  (finalize_range_shares_meridiem (draft ⟨739000, 0⟩ "Happy Hour" "6:30 - 8 p.m.")
    (by decide) (by decide) (by decide)).2.2.2.1 (by decide)

theorem Trim_idem (s cutset : List Char) : Trim (Trim s cutset) cutset = Trim s cutset := by
  unfold Trim
  have h1 : ((s.dropWhile (fun c => cutset.contains c)).rdropWhile
      (fun c => cutset.contains c)).dropWhile (fun c => cutset.contains c) =
      (s.dropWhile (fun c => cutset.contains c)).rdropWhile (fun c => cutset.contains c) := by
    cases hu : (s.dropWhile (fun c => cutset.contains c)).rdropWhile
        (fun c => cutset.contains c) with
    | nil => rfl
    | cons c rest =>
      have := Trim_head s cutset c rest hu
      simp only [List.dropWhile_cons, this]
      simp
  rw [h1, List.rdropWhile_idempotent]

theorem titled_fixed (e : Event)
    (hl : locationTextPattern.FindAllStringSubmatch (Trim e.Title titleCutset) = none) :
    e.titled.titled = e.titled := by
  have hl' : locationTextPattern.FindAllStringSubmatch (Trim e.Title [' ', '\t', '/']) = none := hl
  have h1 : e.titled =
      { e with Title := Trim e.Title titleCutset, Description := TrimSpace e.Body } := by
    unfold Event.titled
    simp only [hl']
    rfl
  rw [h1]
  unfold Event.titled
  simp only []
  have h2 : Trim (Trim e.Title titleCutset) [' ', '\t', '/'] = Trim e.Title [' ', '\t', '/'] :=
    Trim_idem _ _
  simp only [h2, hl']
  rfl

/-! ## The anchor date -/

/-- C14. For every current time, the anchor computed at the top of `Server.Generate` is a
Thursday, at the same time of day as the current time, not after it and at most 6 days
before it; it is the current time when that falls on a Thursday. The order is that of the
calendar; `After` agrees with it, and says the anchor is not after the current time,
wherever the current time and the sixth day before it keep their seconds unwrapped. -/
theorem Generate_anchor_is_recent_thursday (now : Time) :
    (Server.Generate.anchor now).Weekday = Thursday ∧
    (Server.Generate.anchor now).nsec = now.nsec ∧
    (Server.Generate.anchor now).day ≤ now.day ∧
    now.day - 6 ≤ (Server.Generate.anchor now).day ∧
    (Server.Generate.anchor now).le now ∧
    (now.InRange → (now.AddDate (-6)).InRange →
      (Server.Generate.anchor now).After now = false) ∧
    (now.Weekday = Thursday → Server.Generate.anchor now = now) := by
  have key : ∀ k : Int, 0 ≤ k → k ≤ 6 → now.InRange → (now.AddDate (-6)).InRange →
      (now.AddDate (-k)).After now = false := by
    intro k h0 h6 hr hr6
    have hr0 : (now.AddDate 0).InRange := by rw [AddDate_zero]; exact hr
    have hk := AddDate_inRange now (-6) 0 (-k) hr6 hr0 (by omega) (by omega)
    have := AddDate_After now (-k) 0 hk hr0
    rw [AddDate_zero] at this
    rw [this]
    simp only [decide_eq_false_iff_not]
    omega
  unfold Server.Generate.anchor
  simp only []
  split
  · next hw =>
    have hk := key (now.Weekday - Thursday)
    unfold Time.Weekday Thursday at hw hk ⊢
    refine ⟨?_, rfl, ?_, ?_, ?_, ?_, ?_⟩
    · unfold Time.AddDate; simp only []; omega
    · unfold Time.AddDate; simp only []; omega
    · unfold Time.AddDate; simp only []; omega
    · unfold Time.le Time.AddDate; simp only []; omega
    · exact hk (by omega) (by omega)
    · intro h; rw [h]; simp [Time.AddDate]
  · next hw =>
    have hk := key (now.Weekday + 3)
    unfold Time.Weekday at hw hk ⊢
    unfold Thursday at hw ⊢
    refine ⟨?_, rfl, ?_, ?_, ?_, ?_, ?_⟩
    · unfold Time.AddDate; simp only []; omega
    · unfold Time.AddDate; simp only []; omega
    · unfold Time.AddDate; simp only []; omega
    · unfold Time.le Time.AddDate; simp only []; omega
    · have e : (4 - (now.day + 1) % 7 - 7 : Int) = -((now.day + 1) % 7 + 3) := by omega
      rw [e]
      exact hk (by omega) (by omega)
    · intro h; omega

/-! ## The weekday groups of the date-header pattern -/

theorem starRuns_get (i : Nat) (step : List Char → Caps → List Thread)
    (hstep : ∀ s c x, x ∈ step s c → x.2.get i = c.get i) :
    ∀ (k : Nat) (s : List Char) (c : Caps) (x : Thread), x ∈ starRuns step k s c →
      x.2.get i = c.get i := by
  intro k
  induction k with
  | zero =>
    intro s c x hx
    simp only [starRuns, List.mem_singleton] at hx
    subst hx; rfl
  | succ k ih =>
    intro s c x hx
    simp only [starRuns, List.mem_append, List.mem_flatMap, List.mem_filter,
      List.mem_singleton] at hx
    rcases hx with ⟨y, ⟨hy, _⟩, hxy⟩ | hx
    · rw [ih _ _ _ hxy, hstep _ _ _ hy]
    · subst hx; rfl

theorem lazyRuns_get (i : Nat) (step : List Char → Caps → List Thread)
    (hstep : ∀ s c x, x ∈ step s c → x.2.get i = c.get i) :
    ∀ (k : Nat) (s : List Char) (c : Caps) (x : Thread), x ∈ lazyRuns step k s c →
      x.2.get i = c.get i := by
  intro k
  induction k with
  | zero =>
    intro s c x hx
    simp only [lazyRuns, List.mem_singleton] at hx
    subst hx; rfl
  | succ k ih =>
    intro s c x hx
    simp only [lazyRuns, List.mem_cons, List.mem_flatMap, List.mem_filter] at hx
    rcases hx with hx | ⟨y, ⟨hy, _⟩, hxy⟩
    · subst hx; rfl
    · rw [ih _ _ _ hxy, hstep _ _ _ hy]

theorem get_cons_ne (i j : Nat) (t : List Char) (c : Caps) (h : j ≠ i) :
    Caps.get ((j, t) :: c) i = c.get i := by
  simp [Caps.get, h]

theorem get_cons_self (i : Nat) (t : List Char) (c : Caps) :
    Caps.get ((i, t) :: c) i = t := by
  simp [Caps.get]

/-- An expression in which group `i` does not occur leaves the text of group `i` alone. -/
theorem run_get (i n : Nat) (r : Regex) (h : r.binds i = false) :
    ∀ (s : List Char) (c : Caps) (x : Thread), x ∈ r.run n s c → x.2.get i = c.get i := by
  induction r with
  | empty =>
    intro s c x hx
    simp only [Regex.run, List.mem_singleton] at hx
    subst hx; rfl
  | char a =>
    intro s c x hx
    cases s with
    | nil => simp [Regex.run] at hx
    | cons y ys =>
      simp only [Regex.run] at hx
      split at hx
      · simp only [List.mem_singleton] at hx; subst hx; rfl
      · simp at hx
  | set p =>
    intro s c x hx
    cases s with
    | nil => simp [Regex.run] at hx
    | cons y ys =>
      simp only [Regex.run] at hx
      split at hx
      · simp only [List.mem_singleton] at hx; subst hx; rfl
      · simp at hx
  | cat r₁ r₂ ih₁ ih₂ =>
    intro s c x hx
    simp only [Regex.binds, Bool.or_eq_false_iff] at h
    simp only [Regex.run, List.mem_flatMap] at hx
    obtain ⟨y, hy, hxy⟩ := hx
    rw [ih₂ h.2 _ _ _ hxy, ih₁ h.1 _ _ _ hy]
  | alt r₁ r₂ ih₁ ih₂ =>
    intro s c x hx
    simp only [Regex.binds, Bool.or_eq_false_iff] at h
    simp only [Regex.run, List.mem_append] at hx
    rcases hx with hx | hx
    · exact ih₁ h.1 _ _ _ hx
    · exact ih₂ h.2 _ _ _ hx
  | opt r ih =>
    intro s c x hx
    simp only [Regex.binds] at h
    simp only [Regex.run, List.mem_append, List.mem_singleton] at hx
    rcases hx with hx | hx
    · exact ih h _ _ _ hx
    · subst hx; rfl
  | star r ih =>
    intro s c x hx
    simp only [Regex.binds] at h
    simp only [Regex.run] at hx
    exact starRuns_get i _ (ih h) _ _ _ _ hx
  | lazyStar r ih =>
    intro s c x hx
    simp only [Regex.binds] at h
    simp only [Regex.run] at hx
    exact lazyRuns_get i _ (ih h) _ _ _ _ hx
  | plus r ih =>
    intro s c x hx
    simp only [Regex.binds] at h
    simp only [Regex.run, List.mem_flatMap] at hx
    obtain ⟨y, hy, hxy⟩ := hx
    rw [starRuns_get i _ (ih h) _ _ _ _ hxy, ih h _ _ _ hy]
  | group j r ih =>
    intro s c x hx
    simp only [Regex.binds, Bool.or_eq_false_iff, beq_eq_false_iff_ne, ne_eq] at h
    simp only [Regex.run, List.mem_map] at hx
    obtain ⟨y, hy, rfl⟩ := hx
    show Caps.get ((j, _) :: y.2) i = _
    rw [get_cons_ne _ _ _ _ h.1, ih h.2 _ _ _ hy]
  | bol =>
    intro s c x hx
    simp only [Regex.run] at hx
    split at hx
    · simp only [List.mem_singleton] at hx; subst hx; rfl
    · simp at hx
  | eol =>
    intro s c x hx
    simp only [Regex.run] at hx
    split at hx
    · simp only [List.mem_singleton] at hx; subst hx; rfl
    · simp at hx

theorem eventPattern_eq :
    eventPattern = .cat .bol (.cat (.group 1 weekdays) (.cat secondWeekday dateTail)) := rfl

theorem lit_mem (n : Nat) (w s : List Char) (c : Caps) (x : Thread)
    (h : x ∈ (lit w).run n s c) : x.2 = c ∧ s = w ++ x.1 := by
  rw [run_lit] at h
  split at h
  · next hp =>
    simp only [List.mem_singleton] at h
    subst h
    obtain ⟨t, ht⟩ := List.isPrefixOf_iff_prefix.mp hp
    refine ⟨rfl, ?_⟩
    rw [← ht, List.drop_left]
  · simp at h

theorem weekdays_mem (n : Nat) (s : List Char) (c : Caps) (x : Thread)
    (h : x ∈ weekdays.run n s c) : x.2 = c ∧ ∃ w ∈ weekdayNames, s = w ++ x.1 := by
  simp only [weekdays, alts, run_alt, List.mem_append] at h
  rcases h with h | h | h | h
  · exact ⟨(lit_mem _ _ _ _ _ h).1, _, by simp [weekdayNames], (lit_mem _ _ _ _ _ h).2⟩
  · exact ⟨(lit_mem _ _ _ _ _ h).1, _, by simp [weekdayNames], (lit_mem _ _ _ _ _ h).2⟩
  · exact ⟨(lit_mem _ _ _ _ _ h).1, _, by simp [weekdayNames], (lit_mem _ _ _ _ _ h).2⟩
  · exact ⟨(lit_mem _ _ _ _ _ h).1, _, by simp [weekdayNames], (lit_mem _ _ _ _ _ h).2⟩

theorem group_weekdays_mem (n i : Nat) (s : List Char) (c : Caps) (x : Thread)
    (h : x ∈ (Regex.group i weekdays).run n s c) : ∃ w ∈ weekdayNames, x.2 = (i, w) :: c := by
  rw [run_group, List.mem_map] at h
  obtain ⟨y, hy, rfl⟩ := h
  obtain ⟨hc, w, hw, hs⟩ := weekdays_mem n s c y hy
  refine ⟨w, hw, ?_⟩
  show (i, s.take (s.length - y.1.length)) :: y.2 = _
  rw [hc, hs]
  simp

theorem secondWeekday_mem (n : Nat) (s : List Char) (c : Caps) (x : Thread)
    (h : x ∈ secondWeekday.run n s c) :
    x.2.get 1 = c.get 1 ∧ (x.2.get 4 = c.get 4 ∨ x.2.get 4 ∈ weekdayNames) := by
  unfold secondWeekday at h
  rw [run_opt, List.mem_append, List.mem_singleton] at h
  rcases h with h | h
  · rw [run_group, List.mem_map] at h
    obtain ⟨z, hz, rfl⟩ := h
    simp only [cats, run_cat, List.mem_flatMap] at hz
    obtain ⟨a, ha, b, hb, d, hd, hz⟩ := hz
    obtain ⟨w, hw, hzc⟩ := group_weekdays_mem n 4 _ _ _ hz
    have h1a := run_get 1 n (.star blank) rfl _ _ _ ha
    have h1b := run_get 1 n (.group 3 dashOrAmp) rfl _ _ _ hb
    have h1d := run_get 1 n (.char ' ') rfl _ _ _ hd
    refine ⟨?_, .inr ?_⟩
    · show Caps.get ((2, _) :: z.2) 1 = _
      rw [get_cons_ne _ _ _ _ (by decide), hzc, get_cons_ne _ _ _ _ (by decide), h1d, h1b, h1a]
    · show Caps.get ((2, _) :: z.2) 4 ∈ _
      rw [get_cons_ne _ _ _ _ (by decide), hzc, get_cons_self]
      exact hw
  · subst h
    exact ⟨rfl, .inl rfl⟩

theorem eventPattern_mem (n : Nat) (s : List Char) (x : Thread)
    (h : x ∈ eventPattern.run n s []) : WeekdayCaps x.2 := by
  rw [eventPattern_eq] at h
  simp only [run_cat, List.mem_flatMap] at h
  obtain ⟨y₀, h₀, y₁, h₁, y₂, h₂, hx⟩ := h
  have hc₀ : y₀.2 = [] := by
    simp only [Regex.run] at h₀
    split at h₀
    · simp only [List.mem_singleton] at h₀; subst h₀; rfl
    · simp at h₀
  obtain ⟨w, hw, hc₁⟩ := group_weekdays_mem n 1 _ _ _ h₁
  rw [hc₀] at hc₁
  have h2 := secondWeekday_mem n _ _ _ h₂
  have hx1 := run_get 1 n dateTail rfl _ _ _ hx
  have hx4 := run_get 4 n dateTail rfl _ _ _ hx
  have hg1 : y₁.2.get 1 = w := by rw [hc₁, get_cons_self]
  have hg4 : y₁.2.get 4 = [] := by rw [hc₁]; rfl
  refine ⟨by rw [hx1, h2.1, hg1]; exact hw, ?_⟩
  rw [hx4]
  rcases h2.2 with h | h
  · exact .inl (by rw [h, hg4])
  · exact .inr h

theorem search_mem (n : Nat) (r : Regex) :
    ∀ (s : List Char) (c : Caps), r.search n s = some c →
      ∃ t x, x ∈ r.run n t [] ∧ x.2 = c := by
  have key : ∀ (t : List Char) (c : Caps), r.matchHere n t = some c →
      ∃ x, x ∈ r.run n t [] ∧ x.2 = c := by
    intro t c h
    unfold Regex.matchHere at h
    cases hr : r.run n t [] with
    | nil => rw [hr] at h; simp at h
    | cons y ys =>
      rw [hr] at h
      simp only [List.head?_cons, Option.map_some', Option.some.injEq] at h
      exact ⟨y, List.mem_cons_self _ _, h⟩
  intro s
  induction s with
  | nil => intro c h; exact ⟨[], key [] c h⟩
  | cons a s ih =>
    intro c h
    simp only [Regex.search] at h
    split at h
    · next c' hc' =>
      simp only [Option.some.injEq] at h
      subst h
      exact ⟨_, key _ _ hc'⟩
    · exact ih c h

/-- Every match of the date-header pattern holds a weekday name in group 1 and either
nothing or a weekday name in group 4. -/
theorem eventPattern_weekdays (s : List Char) (m : Caps)
    (h : eventPattern.FindAllStringSubmatch s = some m) : WeekdayCaps m := by
  obtain ⟨t, x, hx, rfl⟩ := search_mem _ _ _ _ h
  exact eventPattern_mem _ _ _ hx

theorem SetDates_of_weekdays (p : Parser) (m : Caps) (h : WeekdayCaps m) :
    ∃ q, p.SetDates (m.get 1) (m.get 4) = some q := by
  obtain ⟨h1, h4⟩ := h
  have hs := (parseWeekday_names _ h1).1
  unfold Parser.SetDates
  simp only [hs]
  rcases h4 with h4 | h4
  · simp [h4]
  · have he := parseWeekday_names _ h4
    simp only [he.1, he.2, ne_eq, not_false_eq_true, if_true]
    split <;> exact ⟨_, rfl⟩

/-! ## What a pass keeps -/

theorem hrefLoop_readErr (n : Nat) (z : Tokenizer) (h : List Char) :
    (hrefLoop n z h).2.readErr = z.readErr := by
  induction n generalizing z h with
  | zero => rfl
  | succ n ih =>
    unfold hrefLoop
    simp only []
    have ht : z.TagAttr.2.readErr = z.readErr := by
      unfold Tokenizer.TagAttr; split <;> rfl
    split
    · exact ht
    · rw [ih]; exact ht

theorem SetDates_kept (p q : Parser) (a b : List Char) (h : p.SetDates a b = some q) :
    q.tokenizer = p.tokenizer ∧ q.tt = p.tt := by
  unfold Parser.SetDates at h
  split at h
  · simp at h
  · simp only [] at h
    split at h
    · split at h
      · simp at h
      · split at h <;> simp at h <;> subst h <;> exact ⟨rfl, rfl⟩
    · simp at h; subst h; exact ⟨rfl, rfl⟩

theorem Next_kept (p : Parser) :
    p.Next.2.tokenizer.readErr = p.tokenizer.readErr ∧ p.Next.2.tt = none := by
  unfold Parser.Next Parser.next Tokenizer.Next
  split
  · exact ⟨rfl, rfl⟩
  · next h => split <;> exact ⟨rfl, h⟩

theorem Peek_kept (p : Parser) : p.Peek.2.tokenizer.readErr = p.tokenizer.readErr := by
  unfold Parser.Peek Parser.next Tokenizer.Next
  split
  · rfl
  · split <;> rfl

theorem TagName_kept (p : Parser) :
    p.TagName.2.tokenizer.readErr = p.tokenizer.readErr ∧ p.TagName.2.tt = p.tt := by
  unfold Parser.TagName Tokenizer.TagName
  split
  · exact ⟨rfl, rfl⟩
  · split <;> exact ⟨rfl, rfl⟩

theorem Text_readErr (z : Tokenizer) : z.Text.2.readErr = z.readErr := by
  unfold Tokenizer.Text; split <;> rfl

theorem onError_kept (p q : Parser) (f : ParserFunc)
    (h : q.tokenizer.readErr = p.tokenizer.readErr) : p.Kept f q.onError := by
  unfold Parser.onError Tokenizer.ErrIsEOF Parser.Kept
  cases hq : q.tokenizer.readErr <;> simp [hq, ← h]

theorem kept_goto (p q : Parser) (f g : ParserFunc)
    (h : q.tokenizer.readErr = p.tokenizer.readErr)
    (ht : (f ≠ .ParseParagraph ∨ g = .ParseParagraph) → q.tt = none) :
    p.Kept f (.goto g, q) :=
  ⟨h, (fun hf => by cases hf), (fun g' hg => by cases hg; exact ht)⟩

theorem ParseRoot_kept (p : Parser) : p.Kept .ParseRoot p.ParseRoot := by
  have hn := Next_kept p
  have ht := TagName_kept p.Next.2
  unfold Parser.ParseRoot
  simp only []
  split
  · exact onError_kept _ _ _ hn.1
  · split
    · exact kept_goto _ _ _ _ (by show p.Next.2.TagName.2.tokenizer.readErr = _; rw [ht.1, hn.1])
        (fun _ => by show p.Next.2.TagName.2.tt = _; rw [ht.2, hn.2])
    · exact kept_goto _ _ _ _ (by rw [ht.1, hn.1]) (fun _ => by rw [ht.2, hn.2])
  · exact kept_goto _ _ _ _ hn.1 (fun _ => hn.2)

theorem ParseHeader_kept (p : Parser) (s : List Char) :
    p.Kept (.ParseHeader s) (p.ParseHeader s) := by
  have hn := Next_kept p
  have ht := TagName_kept p.Next.2
  unfold Parser.ParseHeader
  simp only []
  split
  · exact onError_kept _ _ _ hn.1
  · exact kept_goto _ _ _ _ (by show p.Next.2.tokenizer.Text.2.readErr = _; rw [Text_readErr, hn.1])
      (fun _ => hn.2)
  · split
    · split
      · split
        · next q hq =>
          have hq := SetDates_kept _ _ _ _ hq
          exact kept_goto _ _ _ _ (by rw [hq.1, ht.1, hn.1]) (fun _ => by rw [hq.2, ht.2, hn.2])
        · exact ⟨by show p.Next.2.TagName.2.tokenizer.readErr = _; rw [ht.1, hn.1],
            (fun hf => by cases hf), (fun g hg => by cases hg)⟩
      · exact kept_goto _ _ _ _ (by rw [ht.1, hn.1]) (fun _ => by rw [ht.2, hn.2])
    · exact kept_goto _ _ _ _ (by rw [ht.1, hn.1]) (fun _ => by rw [ht.2, hn.2])
  · exact kept_goto _ _ _ _ hn.1 (fun _ => hn.2)

theorem ParseSection_kept (p : Parser) : p.Kept .ParseSection p.ParseSection := by
  have hn := Next_kept p
  have ht := TagName_kept p.Next.2
  unfold Parser.ParseSection
  simp only []
  split
  · exact onError_kept _ _ _ hn.1
  · split
    · exact kept_goto _ _ _ _ (by show p.Next.2.TagName.2.tokenizer.readErr = _; rw [ht.1, hn.1])
        (fun _ => by show p.Next.2.TagName.2.tt = _; rw [ht.2, hn.2])
    · split
      · exact kept_goto _ _ _ _
          (by show p.Next.2.TagName.2.tokenizer.readErr = _; rw [ht.1, hn.1])
          (fun _ => by show p.Next.2.TagName.2.tt = _; rw [ht.2, hn.2])
      · exact kept_goto _ _ _ _ (by rw [ht.1, hn.1]) (fun _ => by rw [ht.2, hn.2])
  · exact kept_goto _ _ _ _ hn.1 (fun _ => hn.2)

theorem kept_again (p x : Parser) (h : x.tokenizer.readErr = p.tokenizer.readErr) :
    p.Kept .ParseParagraph (.goto .ParseParagraph, x.Next.2) :=
  kept_goto _ _ _ _ (by rw [(Next_kept x).1, h]) (fun _ => (Next_kept x).2)

theorem kept_leave (p q : Parser) (g : ParserFunc) (hg : g ≠ .ParseParagraph)
    (h : q.tokenizer.readErr = p.tokenizer.readErr) :
    p.Kept .ParseParagraph (.goto g, q) :=
  kept_goto _ _ _ _ h (fun hx => by rcases hx with hx | hx; exact absurd rfl hx; exact absurd hx hg)

theorem ParseParagraph_kept (p : Parser) : p.Kept .ParseParagraph p.ParseParagraph := by
  have hk := Peek_kept p
  have ht := TagName_kept p.Peek.2
  unfold Parser.ParseParagraph
  simp only []
  split
  · exact onError_kept _ _ _ hk
  · exact kept_again _ _ (by show p.Peek.2.tokenizer.Text.2.readErr = _; rw [Text_readErr, hk])
  · split
    · exact kept_leave _ _ _ (by decide) (by rw [ht.1, hk])
    · split
      · exact kept_leave _ _ _ (by simp) (by rw [ht.1, hk])
      · split
        · exact kept_again _ _ (by show p.Peek.2.TagName.2.tokenizer.readErr = _; rw [ht.1, hk])
        · split
          · exact kept_again _ _ (by rw [ht.1, hk])
          · exact kept_leave _ _ _ (by decide)
              (by show p.Peek.2.TagName.2.tokenizer.readErr = _; rw [ht.1, hk])
  · split
    · exact kept_leave _ _ _ (by decide)
        (by show p.Peek.2.TagName.2.tokenizer.readErr = _; rw [ht.1, hk])
    · exact kept_again _ _ (by rw [ht.1, hk])
  · exact kept_again _ _ hk

theorem ParseLink_kept (p : Parser) (href : List Char) (isLink : Bool) :
    p.Kept (.ParseLink href isLink) (p.ParseLink href isLink) := by
  have hn := Next_kept p
  have ht := TagName_kept p.Next.2
  unfold Parser.ParseLink
  simp only []
  split
  · exact onError_kept _ _ _ hn.1
  · refine kept_goto _ _ _ _ ?_ (fun _ => ?_)
    · split <;> simp [Parser.write, Text_readErr, hn.1]
    · split <;> simp [Parser.write, hn.2]
  · split
    · exact kept_goto _ _ _ _
        (by show (hrefLoop _ p.Next.2.TagName.2.tokenizer href).2.readErr = _
            rw [hrefLoop_readErr, ht.1, hn.1])
        (fun _ => by show p.Next.2.TagName.2.tt = _; rw [ht.2, hn.2])
    · exact kept_goto _ _ _ _ (by rw [ht.1, hn.1]) (fun _ => by rw [ht.2, hn.2])
  · split
    · split
      · exact kept_goto _ _ _ _
          (by show p.Next.2.TagName.2.tokenizer.readErr = _; rw [ht.1, hn.1])
          (fun _ => by show p.Next.2.TagName.2.tt = _; rw [ht.2, hn.2])
      · exact kept_goto _ _ _ _
          (by show p.Next.2.TagName.2.tokenizer.readErr = _; rw [ht.1, hn.1])
          (fun _ => by show p.Next.2.TagName.2.tt = _; rw [ht.2, hn.2])
    · exact kept_goto _ _ _ _ (by rw [ht.1, hn.1]) (fun _ => by rw [ht.2, hn.2])
  · exact kept_goto _ _ _ _ hn.1 (fun _ => hn.2)

theorem ParseBold_kept (p : Parser) : p.Kept .ParseBold p.ParseBold := by
  have hn := Next_kept p
  have ht := TagName_kept p.Next.2
  unfold Parser.ParseBold
  simp only []
  split
  · exact onError_kept _ _ _ hn.1
  · split
    · exact kept_goto _ _ _ _
        (by show p.Next.2.tokenizer.Text.2.readErr = _; rw [Text_readErr, hn.1]) (fun _ => hn.2)
    · exact kept_goto _ _ _ _
        (by show p.Next.2.tokenizer.Text.2.readErr = _; rw [Text_readErr, hn.1]) (fun _ => hn.2)
  · split
    · exact kept_goto _ _ _ _ (by rw [ht.1, hn.1]) (fun _ => by rw [ht.2, hn.2])
    · exact kept_goto _ _ _ _ (by rw [ht.1, hn.1]) (fun _ => by rw [ht.2, hn.2])
  · exact kept_goto _ _ _ _ hn.1 (fun _ => hn.2)

theorem IgnoreTag_kept (p : Parser) : p.Kept .IgnoreTag p.IgnoreTag := by
  have hn := Next_kept p
  have ht := TagName_kept p.Next.2
  unfold Parser.IgnoreTag
  simp only []
  split
  · exact onError_kept _ _ _ hn.1
  · split
    · exact kept_goto _ _ _ _ (by rw [ht.1, hn.1]) (fun _ => by rw [ht.2, hn.2])
    · exact kept_goto _ _ _ _ (by rw [ht.1, hn.1]) (fun _ => by rw [ht.2, hn.2])
  · exact kept_goto _ _ _ _ hn.1 (fun _ => hn.2)

theorem step_kept (p : Parser) (f : ParserFunc) : p.Kept f (p.step f) := by
  cases f with
  | ParseRoot => exact ParseRoot_kept p
  | ParseHeader s => exact ParseHeader_kept p s
  | ParseSection => exact ParseSection_kept p
  | ParseParagraph => exact ParseParagraph_kept p
  | ParseLink href isLink => exact ParseLink_kept p href isLink
  | ParseBold => exact ParseBold_kept p
  | IgnoreTag => exact IgnoreTag_kept p

/-! ## The end of a run -/

theorem onError_halts (p : Parser) : p.onError.1 = .stop ∨ p.onError.1 = .fatal := by
  unfold Parser.onError; split
  · exact .inl rfl
  · exact .inr rfl

theorem ParseHeader_no_panic (p : Parser) (s : List Char) : (p.ParseHeader s).1 ≠ .panic := by
  unfold Parser.ParseHeader
  simp only []
  split
  · rcases onError_halts p.Next.2 with h | h <;> rw [h] <;> simp
  · simp
  · split
    · split
      · next m hm =>
        obtain ⟨q, hq⟩ := SetDates_of_weekdays p.Next.2.TagName.2 m (eventPattern_weekdays _ _ hm)
        simp only [hq]
        simp
      · simp
    · simp
  · simp

theorem step_no_panic (p : Parser) (f : ParserFunc) : (p.step f).1 ≠ .panic := by
  cases f with
  | ParseHeader s => exact ParseHeader_no_panic p s
  | ParseRoot =>
    unfold Parser.step Parser.ParseRoot
    simp only []
    repeat' split
    all_goals first | (rcases onError_halts p.Next.2 with h | h <;> rw [h] <;> simp) | simp
  | ParseSection =>
    unfold Parser.step Parser.ParseSection
    simp only []
    repeat' split
    all_goals first | (rcases onError_halts p.Next.2 with h | h <;> rw [h] <;> simp) | simp
  | ParseParagraph =>
    unfold Parser.step Parser.ParseParagraph
    simp only []
    repeat' split
    all_goals first | (rcases onError_halts p.Peek.2 with h | h <;> rw [h] <;> simp) | simp
  | ParseLink href isLink =>
    unfold Parser.step Parser.ParseLink
    simp only []
    repeat' split
    all_goals first | (rcases onError_halts p.Next.2 with h | h <;> rw [h] <;> simp) | simp
  | ParseBold =>
    unfold Parser.step Parser.ParseBold
    simp only []
    repeat' split
    all_goals first | (rcases onError_halts p.Next.2 with h | h <;> rw [h] <;> simp) | simp
  | IgnoreTag =>
    unfold Parser.step Parser.IgnoreTag
    simp only []
    repeat' split
    all_goals first | (rcases onError_halts p.Next.2 with h | h <;> rw [h] <;> simp) | simp

theorem RunLoop_no_panic (n : Nat) : ∀ (p : Parser) (f : ParserFunc),
    (p.RunLoop n f).how ≠ .panic := by
  induction n with
  | zero => intro p f; simp [Parser.RunLoop]
  | succ n ih =>
    intro p f
    have hs := step_no_panic p f
    rcases hq : p.step f with ⟨r, q⟩
    rw [hq] at hs
    cases r with
    | goto g => simp only [Parser.RunLoop, hq]; exact ih q g
    | stop => simp [Parser.RunLoop, hq]
    | fatal => simp [Parser.RunLoop, hq]
    | panic => exact absurd rfl hs

theorem RunLoop_readErr (n : Nat) : ∀ (p : Parser) (f : ParserFunc),
    (p.RunLoop n f).parser.tokenizer.readErr = p.tokenizer.readErr ∧
      ((p.RunLoop n f).how = .fatal → p.tokenizer.readErr = true) := by
  induction n with
  | zero => intro p f; simp [Parser.RunLoop]
  | succ n ih =>
    intro p f
    have hk := step_kept p f
    rcases hq : p.step f with ⟨r, q⟩
    rw [hq] at hk
    cases r with
    | goto g =>
      simp only [Parser.RunLoop, hq]
      have := ih q g
      have h1 : q.tokenizer.readErr = p.tokenizer.readErr := hk.1
      rw [h1] at this
      exact this
    | stop => simp only [Parser.RunLoop, hq]; exact ⟨hk.1, fun h => by cases h⟩
    | fatal => simp only [Parser.RunLoop, hq]; exact ⟨hk.1, fun _ => hk.2.1 rfl⟩
    | panic => simp only [Parser.RunLoop, hq]; exact ⟨hk.1, fun h => by cases h⟩

/-- Read to the end of a stream that ends in `io.EOF`, `Run` returns after a `nil`. -/
theorem Run_stops (time : Time) (input : List Token) :
    (NewParser time input false).Run.how = .stop := by
  have h1 := RunLoop_halts _ (NewParser time input false) .ParseRoot (Nat.lt_succ_self _)
  have h2 := RunLoop_no_panic ((NewParser time input false).budget .ParseRoot + 1)
    (NewParser time input false) .ParseRoot
  have h3 := (RunLoop_readErr ((NewParser time input false).budget .ParseRoot + 1)
    (NewParser time input false) .ParseRoot).2
  unfold Parser.Run
  cases hh : ((NewParser time input false).RunLoop
      ((NewParser time input false).budget .ParseRoot + 1) .ParseRoot).how with
  | goto g => exact absurd hh (h1 g)
  | stop => rfl
  | fatal => have := h3 hh; simp [NewParser, NewTokenizer] at this
  | panic => exact absurd hh h2

theorem step_consumes (p q : Parser) (f g : ParserFunc) (h : p.step f = (.goto g, q)) :
    q.pending ≤ p.pending ∧
      ((f ≠ .ParseParagraph ∨ g = .ParseParagraph) → q.pending < p.pending) := by
  have hp := step_paced p f
  have hk := step_kept p f
  rw [h] at hp hk
  have hb : q.budget g < p.budget f := hp.1
  have ht : (f ≠ .ParseParagraph ∨ g = .ParseParagraph) → q.tt = none := hk.2.2 g rfl
  rw [budget_eq, budget_eq] at hb
  unfold Parser.slack at hb
  unfold Parser.pending
  by_cases hf : f = .ParseParagraph
  · by_cases hg : g = .ParseParagraph
    · have := ht (.inr hg)
      simp only [hf, hg, this, if_true, Option.isSome_none, Bool.false_eq_true, if_false] at hb ⊢
      refine ⟨?_, fun _ => ?_⟩ <;> split at hb <;> simp_all <;> omega
    · simp only [hf, hg, if_true, if_false] at hb ⊢
      refine ⟨?_, fun hx => ?_⟩
      · split at hb <;> split at hb <;> simp_all <;> omega
      · rcases hx with hx | hx
        · exact absurd rfl hx
        · exact hx.elim
  · have := ht (.inl hf)
    simp only [hf, this, if_false, Option.isSome_none, Bool.false_eq_true] at hb ⊢
    refine ⟨?_, fun _ => ?_⟩ <;> split at hb <;> split at hb <;> simp_all <;> omega

theorem RunLoop_stable (n : Nat) : ∀ (m : Nat) (p : Parser) (f : ParserFunc), n ≤ m →
    (∀ g, (p.RunLoop n f).how ≠ .goto g) → p.RunLoop m f = p.RunLoop n f := by
  induction n with
  | zero => intro m p f _ h; exact absurd rfl (h f)
  | succ n ih =>
    intro m p f hm h
    cases m with
    | zero => omega
    | succ m =>
      rcases hq : p.step f with ⟨r, q⟩
      cases r with
      | goto g =>
        simp only [Parser.RunLoop, hq] at h ⊢
        exact ih m q g (by omega) h
      | stop => simp [Parser.RunLoop, hq]
      | fatal => simp [Parser.RunLoop, hq]
      | panic => simp [Parser.RunLoop, hq]

theorem step_stops_at_end (p : Parser) (f : ParserFunc) (h : p.pending = 0)
    (he : p.tokenizer.readErr = false) : (p.step f).1 = .stop := by
  obtain ⟨time, ⟨input, readErr, ztt, data, attr⟩, tt, tn, headerTag, dates, event, Events⟩ := p
  unfold Parser.pending at h
  simp only at h he
  have hi : input = [] := by
    cases input with
    | nil => rfl
    | cons a l => simp at h
  have ht : tt = none := by
    cases tt with
    | none => rfl
    | some a => simp at h
  subst hi ht he
  cases f <;> rfl

/-- C20. For every finite token stream that ends with end-of-input, `Run` comes to an end
by a state function returning `nil`, and it does so within the bound on the number of
passes, more passes changing nothing. Every pass that goes on leaves no more tokens to be
handed out than there were, and fewer unless it is a return from `ParseParagraph` to
another state with the peeked token left in the slot; the pass after such a return hands
the token out, so any two passes in a row hand out at least one token. And with no token
left, every state function returns `nil`. -/
theorem Run_terminates (time : Time) (input : List Token) :
    (NewParser time input false).Run.how = .stop ∧
    (∀ n, (NewParser time input false).budget .ParseRoot < n →
      (NewParser time input false).RunLoop n .ParseRoot = (NewParser time input false).Run) ∧
    (∀ (p q : Parser) (f g : ParserFunc), p.step f = (.goto g, q) →
      q.pending ≤ p.pending ∧
        ((f ≠ .ParseParagraph ∨ g = .ParseParagraph) → q.pending < p.pending)) ∧
    (∀ (p q r : Parser) (f g h : ParserFunc), p.step f = (.goto g, q) →
      q.step g = (.goto h, r) → r.pending < p.pending) ∧
    (∀ (p : Parser) (f : ParserFunc), p.pending = 0 → p.tokenizer.readErr = false →
      (p.step f).1 = .stop) := by
  refine ⟨Run_stops time input, fun n hn => ?_, step_consumes, fun p q r f g h h1 h2 => ?_,
    step_stops_at_end⟩
  · exact RunLoop_stable _ n _ _ (by omega)
      (RunLoop_halts _ _ _ (Nat.lt_succ_self _))
  · have c1 := step_consumes p q f g h1
    have c2 := step_consumes q r g h h2
    by_cases hf : f = .ParseParagraph
    · by_cases hg : g = .ParseParagraph
      · have := c1.2 (.inr hg); omega
      · have := c2.2 (.inl hg); omega
    · have := c1.2 (.inl hf); omega

/-- C19. For every heading text that matches the date-header pattern, capture group 1 is one
of Thursday, Friday, Saturday, Sunday and capture group 4 is empty or one of those four, so
that `SetDates` returns without a `panic` of `parseWeekday`; no pass of `ParseHeader` ends
in that `panic`, and no run of the parser does. The heading `Friday - Sunday, June 6 - 8` gives
the groups `Friday` and `Sunday`, the heading `Saturday, June 7` gives `Saturday` and the
empty text. -/
theorem parseWeekday_panic_unreachable (p : Parser) (s : List Char) :
    (∀ m, eventPattern.FindAllStringSubmatch s = some m →
      m.get 1 ∈ weekdayNames ∧ (m.get 4 = [] ∨ m.get 4 ∈ weekdayNames) ∧
        ∃ q, p.SetDates (m.get 1) (m.get 4) = some q) ∧
    (p.ParseHeader s).1 ≠ .panic ∧
    (∀ n f, (p.RunLoop n f).how ≠ .panic) ∧
    ((eventPattern.FindAllStringSubmatch "Friday - Sunday, June 6 - 8".toList).map
        (fun m => (m.get 1, m.get 4)) = some ("Friday".toList, "Sunday".toList) ∧
      (eventPattern.FindAllStringSubmatch "Saturday, June 7".toList).map
        (fun m => (m.get 1, m.get 4)) = some ("Saturday".toList, "".toList)) := by
  refine ⟨fun m hm => ?_, ParseHeader_no_panic p s, fun n f => RunLoop_no_panic n p f,
    by decide⟩
  have hw := eventPattern_weekdays s m hm
  exact ⟨hw.1, hw.2, SetDates_of_weekdays p m hw⟩

/-! ## Headings -/

theorem ParseRoot_target (p : Parser) (g : ParserFunc) (h : p.ParseRoot.1 = .goto g) :
    g = .ParseRoot ∨ g.isHeader = true := by
  unfold Parser.ParseRoot at h
  simp only [] at h
  split at h
  · rcases onError_halts p.Next.2 with h' | h' <;> rw [h'] at h <;> cases h
  · split at h
    · cases h; exact .inr rfl
    · cases h; exact .inl rfl
  · cases h; exact .inl rfl

theorem ParseHeader_target (p : Parser) (s : List Char) (g : ParserFunc)
    (h : (p.ParseHeader s).1 = .goto g) :
    g = .ParseRoot ∨ g.isHeader = true ∨
      (g = .ParseSection ∧ (eventPattern.FindAllStringSubmatch s).isSome = true) := by
  unfold Parser.ParseHeader at h
  simp only [] at h
  split at h
  · rcases onError_halts p.Next.2 with h' | h' <;> rw [h'] at h <;> cases h
  · cases h; exact .inr (.inl rfl)
  · split at h
    · split at h
      · next m hm =>
        split at h
        · cases h; exact .inr (.inr ⟨rfl, by rw [hm]; rfl⟩)
        · cases h
      · cases h; exact .inl rfl
    · cases h; exact .inr (.inl rfl)
  · cases h; exact .inr (.inl rfl)

theorem ParseHeader_unmatched (p : Parser) (s : List Char) (h1 : p.Next.1 = .EndTagToken)
    (h2 : isHeading p.Next.2.TagName.1 = true)
    (h3 : eventPattern.FindAllStringSubmatch s = none) :
    p.ParseHeader s = (.goto .ParseRoot, p.Next.2.TagName.2) := by
  unfold Parser.ParseHeader
  simp only [h1, h2, h3, if_true]

theorem quiet_step (p q : Parser) (f g : ParserFunc) (h : p.step f = (.goto g, q))
    (hf : f.inParagraph = false) (hg : g.inParagraph = false) : q.Events = p.Events := by
  have hp := step_paced p f
  have hgr := step_grows p f
  rw [h] at hp hgr
  have h2 : q.Events.length + (if g.inParagraph then 1 else 0) =
      p.Events.length + (if f.inParagraph then 1 else 0) +
        (if f = .ParseSection ∧ g = .ParseParagraph then 1 else 0) := hp.2
  have hne : ¬ (f = .ParseSection ∧ g = .ParseParagraph) := by
    rintro ⟨_, rfl⟩
    simp [ParserFunc.inParagraph] at hg
  simp only [hf, hg, hne, Bool.false_eq_true, if_false, Nat.add_zero] at h2
  exact (List.IsPrefix.eq_of_length hgr h2.symm).symm

theorem RunLoop_quiet (n : Nat) : ∀ (p : Parser) (f : ParserFunc),
    (f = .ParseRoot ∨ f.isHeader = true) → p.matched n f = 0 →
    (p.RunLoop n f).parser.Events = p.Events ∧
      ((p.RunLoop n f).last = .ParseRoot ∨ (p.RunLoop n f).last.isHeader = true) := by
  induction n with
  | zero => intro p f hf _; exact ⟨rfl, hf⟩
  | succ n ih =>
    intro p f hf hm
    have hfp : f.inParagraph = false := by
      rcases hf with rfl | hf
      · rfl
      · cases f <;> simp [ParserFunc.isHeader] at hf
        rfl
    have hk := step_paced p f
    rcases hq : p.step f with ⟨r, q⟩
    rw [hq] at hk
    cases r with
    | goto g =>
      simp only [Parser.matched, hq] at hm
      have hg : g = .ParseRoot ∨ g.isHeader = true := by
        rcases hf with rfl | hf
        · exact ParseRoot_target p g (by show (p.step .ParseRoot).1 = _; rw [hq])
        · cases f with
          | ParseHeader s =>
            rcases ParseHeader_target p s g (by show (p.step (.ParseHeader s)).1 = _; rw [hq])
              with h | h | ⟨h, _⟩
            · exact .inl h
            · exact .inr h
            · subst h
              simp [ParserFunc.isHeader] at hm
          | _ => simp [ParserFunc.isHeader] at hf
      have hgp : g.inParagraph = false := by
        rcases hg with rfl | hg
        · rfl
        · cases g <;> simp [ParserFunc.isHeader] at hg
          rfl
      have he := quiet_step p q f g hq hfp hgp
      have := ih q g hg (by omega)
      simp only [Parser.RunLoop, hq]
      exact ⟨by rw [this.1, he], this.2⟩
    | stop => simp only [Parser.RunLoop, hq]; exact ⟨hk, hf⟩
    | fatal => simp only [Parser.RunLoop, hq]; exact ⟨hk, hf⟩
    | panic => simp only [Parser.RunLoop, hq]; exact ⟨hk, hf⟩

/-- C18. For every state of the parser (whatever DateRange an earlier section has left in
it) and every text `s` held by `ParseHeader`: at a heading end tag, a text that fails the
date-header pattern makes `ParseHeader` return `ParseRoot`, with no error and nothing sent;
`ParseHeader` returns `ParseSection` only on a text that matches; and from `ParseRoot`, as
from `ParseHeader`, as long as no heading has matched, no event is sent and the machine
stays in `ParseRoot` and `ParseHeader`. In the document with the headings `Friday, June 6`,
`Sponsored` and `Saturday, June 7`, the paragraph after `Sponsored` is not sent. -/
theorem unmatched_heading_is_skipped (p : Parser) (s : List Char) :
    (p.Next.1 = .EndTagToken → isHeading p.Next.2.TagName.1 = true →
      eventPattern.FindAllStringSubmatch s = none →
      (p.ParseHeader s).1 = .goto .ParseRoot ∧ (p.ParseHeader s).2.Events = p.Events) ∧
    ((p.ParseHeader s).1 = .goto .ParseSection →
      (eventPattern.FindAllStringSubmatch s).isSome = true) ∧
    (∀ n, p.matched n .ParseRoot = 0 →
      (p.RunLoop n .ParseRoot).parser.Events = p.Events ∧
        ((p.RunLoop n .ParseRoot).last = .ParseRoot ∨
          (p.RunLoop n .ParseRoot).last.isHeader = true)) ∧
    (∀ n, p.matched n (.ParseHeader s) = 0 →
      (p.RunLoop n (.ParseHeader s)).parser.Events = p.Events ∧
        ((p.RunLoop n (.ParseHeader s)).last = .ParseRoot ∨
          (p.RunLoop n (.ParseHeader s)).last.isHeader = true)) ∧
    ((NewParser ⟨739000, 0⟩ sponsoredDocument false).Run.how = .stop ∧
      (NewParser ⟨739000, 0⟩ sponsoredDocument false).Run.parser.Events.map (fun e => e.Title) =
        ["Trivia Night".toList, "Art Walk".toList]) := by
  refine ⟨fun h1 h2 h3 => ?_, fun h => ?_, fun n hn => RunLoop_quiet n p .ParseRoot (.inl rfl) hn,
    fun n hn => RunLoop_quiet n p (.ParseHeader s) (.inr rfl) hn, by decide⟩
  · rw [ParseHeader_unmatched p s h1 h2 h3]
    exact ⟨rfl, by show p.Next.2.TagName.2.Events = _
                   rw [(TagName_frame _).2.1, (Next_frame p).2.1]⟩
  · rcases ParseHeader_target p s _ h with h' | h' | h'
    · cases h'
    · simp [ParserFunc.isHeader] at h'
    · exact h'.2

theorem ParseHeader_pass (p : Parser) (s : List Char) (t : Token) (rest : List Token)
    (ht : p.tt = none) (hi : p.tokenizer.input = t :: rest) (hin : inHeading t = true) :
    (p.ParseHeader s).1 = .goto (.ParseHeader (if t.type = .TextToken then t.data else s)) ∧
      (p.ParseHeader s).2.tt = none ∧ (p.ParseHeader s).2.tokenizer.input = rest ∧
      (p.ParseHeader s).2.Events = p.Events := by
  obtain ⟨time, ⟨input, readErr, ztt, data, attr⟩, tt, tn, headerTag, dates, event, Events⟩ := p
  obtain ⟨ty, d, a⟩ := t
  simp only at ht hi
  subst ht hi
  cases ty
  · simp [inHeading] at hin
  · exact ⟨rfl, rfl, rfl, rfl⟩
  · exact ⟨rfl, rfl, rfl, rfl⟩
  · have hh : isHeading d = false := by simpa [inHeading] using hin
    simp [Parser.ParseHeader, Parser.Next, Parser.next, Tokenizer.Next, Parser.TagName,
      Tokenizer.TagName, hh]
  · exact ⟨rfl, rfl, rfl, rfl⟩
  · exact ⟨rfl, rfl, rfl, rfl⟩
  · exact ⟨rfl, rfl, rfl, rfl⟩

theorem ParseHeader_close (p : Parser) (s : List Char) (h : Token) (rest : List Token)
    (ht : p.tt = none) (hi : p.tokenizer.input = h :: rest) (hty : h.type = .EndTagToken)
    (hh : isHeading h.data = true) :
    (p.ParseHeader s).1 =
        .goto (if (eventPattern.FindAllStringSubmatch s).isSome then .ParseSection
          else .ParseRoot) ∧
      (p.ParseHeader s).2.tokenizer.input = rest ∧ (p.ParseHeader s).2.Events = p.Events := by
  have hn : p.Next.1 = .EndTagToken ∧ p.Next.2.TagName.1 = h.data ∧
      p.Next.2.TagName.2.tokenizer.input = rest ∧ p.Next.2.TagName.2.Events = p.Events := by
    obtain ⟨time, ⟨input, readErr, ztt, data, attr⟩, tt, tn, headerTag, dates, event, Events⟩ := p
    obtain ⟨ty, d, a⟩ := h
    simp only at ht hi hty
    subst ht hi hty
    exact ⟨rfl, rfl, rfl, rfl⟩
  rcases hm : eventPattern.FindAllStringSubmatch s with _ | m
  · rw [ParseHeader_unmatched p s hn.1 (by rw [hn.2.1]; exact hh) hm]
    exact ⟨rfl, hn.2.2.1, hn.2.2.2⟩
  · obtain ⟨q, hq⟩ := SetDates_of_weekdays p.Next.2.TagName.2 m (eventPattern_weekdays _ _ hm)
    have hk := SetDates_kept _ _ _ _ hq
    have hf := SetDates_frame _ _ _ _ hq
    have he : p.ParseHeader s = (.goto .ParseSection, q) := by
      unfold Parser.ParseHeader
      simp only [hn.1, hn.2.1, hh, if_true, hm, hq]
    rw [he]
    exact ⟨rfl, by show q.tokenizer.input = _; rw [hk.1]; exact hn.2.2.1,
      by show q.Events = _; rw [hf.2]; exact hn.2.2.2⟩

theorem ParseHeader_run (body : List Token) : ∀ (p : Parser) (s : List Char) (h : Token)
    (rest : List Token), p.tt = none → p.tokenizer.input = body ++ h :: rest →
    (∀ t ∈ body, inHeading t = true) → h.type = .EndTagToken → isHeading h.data = true →
    (p.RunLoop (body.length + 1) (.ParseHeader s)).how =
        .goto (if (eventPattern.FindAllStringSubmatch (lastText s body)).isSome
          then .ParseSection else .ParseRoot) ∧
      (p.RunLoop (body.length + 1) (.ParseHeader s)).parser.tokenizer.input = rest ∧
      (p.RunLoop (body.length + 1) (.ParseHeader s)).parser.Events = p.Events := by
  induction body with
  | nil =>
    intro p s h rest ht hi _ hty hh
    have hc := ParseHeader_close p s h rest ht hi hty hh
    have hs : p.step (.ParseHeader s) = p.ParseHeader s := rfl
    rcases hq : p.ParseHeader s with ⟨r, q⟩
    rw [hq] at hc
    obtain ⟨h0, h1, h2⟩ := hc
    simp only at h0 h1 h2
    subst h0
    simp only [List.length_nil, Nat.zero_add, Parser.RunLoop, hs, hq, lastText]
    exact ⟨trivial, h1, h2⟩
  | cons t body ih =>
    intro p s h rest ht hi hb hty hh
    have hc := ParseHeader_pass p s t (body ++ h :: rest) ht hi (hb t (List.mem_cons_self _ _))
    have hs : p.step (.ParseHeader s) = p.ParseHeader s := rfl
    rcases hq : p.ParseHeader s with ⟨r, q⟩
    rw [hq] at hc
    obtain ⟨h0, h1, h2, h3⟩ := hc
    simp only at h0 h1 h2 h3
    subst h0
    have := ih q (if t.type = .TextToken then t.data else s) h rest h1 h2
      (fun x hx => hb x (List.mem_cons_of_mem _ hx)) hty hh
    simp only [List.length_cons, Parser.RunLoop, hs, hq, lastText]
    rw [h3] at this
    exact this

/-- C15 (as amended). In the Header state the string matched against the date-header
pattern is the text of the last text token between the heading start tag and the heading
end tag (the empty string when there is none): for every parser that has just taken a
heading start tag and every run of tokens `body` up to the end tag of a heading, the
passes of `ParseHeader` over them return `ParseSection` exactly when that last text
matches, and `ParseRoot` otherwise. -/
theorem ParseHeader_matches_last_text (p : Parser) (body : List Token) (h : Token)
    (rest : List Token) (ht : p.tt = none) (hi : p.tokenizer.input = body ++ h :: rest)
    (hb : ∀ t ∈ body, inHeading t = true) (hty : h.type = .EndTagToken)
    (hh : isHeading h.data = true) :
    (p.RunLoop (body.length + 1) (.ParseHeader [])).how =
        .goto (if (eventPattern.FindAllStringSubmatch (lastText [] body)).isSome
          then .ParseSection else .ParseRoot) ∧
      (p.RunLoop (body.length + 1) (.ParseHeader [])).parser.tokenizer.input = rest ∧
      (p.RunLoop (body.length + 1) (.ParseHeader [])).parser.Events = p.Events :=
  ParseHeader_run body p [] h rest ht hi hb hty hh

/-- C15 (witness). -/
theorem ParseHeader_matches_last_text_witness :
    ((NewParser ⟨739000, 0⟩ (splitHeadingDocument.drop 1) false).RunLoop
        ((splitHeadingDocument.drop 1).take 4).length.succ (.ParseHeader [])).how =
      .goto (if (eventPattern.FindAllStringSubmatch
          (lastText [] ((splitHeadingDocument.drop 1).take 4))).isSome
        then .ParseSection else .ParseRoot) :=
  (ParseHeader_matches_last_text (NewParser ⟨739000, 0⟩ (splitHeadingDocument.drop 1) false)
    ((splitHeadingDocument.drop 1).take 4) (.endTag "h2") (splitHeadingDocument.drop 6)
    rfl (by decide) (by decide) rfl (by decide)).1

/-- C15 (counterexample). The heading `Friday, ` `<em>` `June 6` `</em>` has the
concatenated text `Friday, June 6`, which matches the date-header pattern; `ParseHeader`
matches `June 6` alone, the heading is not recognised and the paragraph under it is not
sent. The heading `This weekend: ` `<br>` `Friday, June 6` has a concatenated text that
does not match, and is recognised. -/
theorem ParseHeader_keeps_last_text_only :
    ((eventPattern.FindAllStringSubmatch ("Friday, ".toList ++ "June 6".toList)).isSome = true ∧
      lastText [] ((splitHeadingDocument.drop 1).take 4) = "June 6".toList ∧
      (NewParser ⟨739000, 0⟩ splitHeadingDocument false).Run.how = .stop ∧
      (NewParser ⟨739000, 0⟩ splitHeadingDocument false).Run.parser.Events = []) ∧
    ((eventPattern.FindAllStringSubmatch
        ("This weekend: ".toList ++ "Friday, June 6".toList)).isSome = false ∧
      (NewParser ⟨739000, 0⟩ prefixedHeadingDocument false).Run.parser.Events.map
        (fun e => e.Title) = ["Trivia Night".toList]) := by
  decide

theorem hrefLoop_eq : ∀ (attr : List (List Char × List Char)) (n : Nat) (z : Tokenizer)
    (href : List Char), z.tt = .StartTagToken → z.attr = attr → attr.length < n →
    (hrefLoop n z href).1 = lastHref href attr.dropLast := by
  intro attr
  induction attr with
  | nil =>
    intro n z href ht ha hn
    cases n with
    | zero => omega
    | succ n =>
      unfold hrefLoop Tokenizer.TagAttr
      simp [ht, ha, lastHref]
  | cons a rest ih =>
    intro n z href ht ha hn
    cases n with
    | zero => omega
    | succ n =>
      cases rest with
      | nil =>
        unfold hrefLoop Tokenizer.TagAttr
        simp [ht, ha, lastHref]
      | cons b rest =>
        have hr : z.TagAttr = ((a.1, a.2, true), { z with attr := b :: rest }) := by
          unfold Tokenizer.TagAttr
          simp [ht, ha]
        have := ih n { z with attr := b :: rest } (if a.1 = "href".toList then a.2 else href)
          ht rfl (by simpa using hn)
        unfold hrefLoop
        simp only [hr, Bool.not_true, Bool.false_eq_true, if_false]
        rw [this]
        simp [List.dropLast, lastHref]

/-- C16 (the code at the failing input). With the attributes `href="…/first"` and
`href="…/last"` on the anchor, `ParseLink` uses `…/first`, for the parenthesised suffix and
for `Link` alike: the attribute loop stops before it looks at the last attribute. With a
third attribute after them it uses `…/last`, and of three `href` attributes it uses the
second. For every start tag, the loop leaves in `href` the value of the last `href` among
the attributes but the last one. -/
theorem ParseLink_uses_href_before_last :
    ((NewParser ⟨739000, 0⟩ (anchorDocument "Trivia Night" " Get "
        [("href", "https://example.com/first"), ("href", "https://example.com/last")]
        "tickets") false).Run.parser.Events.map (fun e => (e.Link, e.Body)) =
      [("".toList, " Get tickets (https://example.com/first)".toList)]) ∧
    ((NewParser ⟨739000, 0⟩ (anchorDocument "Trivia Night" " Test your knowledge. "
        [("href", "https://example.com/first"), ("href", "https://example.com/last")]
        "Learn more here.") false).Run.parser.Events.map (fun e => e.Link) =
      ["https://example.com/first".toList]) ∧
    ((NewParser ⟨739000, 0⟩ (anchorDocument "Trivia Night" " Test your knowledge. "
        [("href", "https://example.com/first"), ("href", "https://example.com/last"),
          ("class", "more")]
        "Learn more here.") false).Run.parser.Events.map (fun e => e.Link) =
      ["https://example.com/last".toList]) ∧
    ((NewParser ⟨739000, 0⟩ (anchorDocument "Trivia Night" " Test your knowledge. "
        [("href", "https://example.com/first"), ("href", "https://example.com/second"),
          ("href", "https://example.com/last")]
        "Learn more here.") false).Run.parser.Events.map (fun e => e.Link) =
      ["https://example.com/second".toList]) ∧
    (∀ (z : Tokenizer) (href : List Char), z.tt = .StartTagToken →
      (hrefLoop (z.attr.length + 1) z href).1 = lastHref href z.attr.dropLast) := by
  refine ⟨by decide, by decide, by decide, by decide, fun z href ht => ?_⟩
  exact hrefLoop_eq z.attr _ z href ht rfl (Nat.lt_succ_self _)

/-! ## The events sent -/

theorem sends_halt (p q : Parser) (f : ParserFunc) (h : q.Events = p.Events) :
    p.Sends f q.onError := by
  unfold Parser.onError
  split <;> exact h

theorem sends_keep (p q : Parser) (f g : ParserFunc) (hE : q.Events = p.Events)
    (he : f.inParagraph = false → q.event = p.event)
    (h1 : ¬ (f = .ParseParagraph ∧ g = .ParseSection))
    (h2 : ¬ (f = .ParseSection ∧ g = .ParseParagraph)) : p.Sends f (.goto g, q) := by
  refine ⟨?_, fun h => absurd h h2, fun hf _ => he hf⟩
  show q.Events = _
  rw [hE, if_neg h1, List.append_nil]

theorem ParseRoot_sends (p : Parser) : p.Sends .ParseRoot p.ParseRoot := by
  have hn := Next_event p
  have ht := TagName_event p.Next.2
  unfold Parser.ParseRoot
  simp only []
  split
  · exact sends_halt _ _ _ hn.2.1
  · split
    · exact sends_keep _ _ _ _ (by show p.Next.2.TagName.2.Events = _; rw [ht.2, hn.2.1])
        (fun _ => by show p.Next.2.TagName.2.event = _; rw [ht.1, hn.1]) (by simp) (by simp)
    · exact sends_keep _ _ _ _ (by rw [ht.2, hn.2.1]) (fun _ => by rw [ht.1, hn.1])
        (by simp) (by simp)
  · exact sends_keep _ _ _ _ hn.2.1 (fun _ => hn.1) (by simp) (by simp)

theorem ParseHeader_sends (p : Parser) (s : List Char) :
    p.Sends (.ParseHeader s) (p.ParseHeader s) := by
  have hn := Next_event p
  have ht := TagName_event p.Next.2
  unfold Parser.ParseHeader
  simp only []
  split
  · exact sends_halt _ _ _ hn.2.1
  · exact sends_keep _ _ _ _ hn.2.1 (fun _ => hn.1) (by simp) (by simp)
  · split
    · split
      · split
        · next q hq =>
          have hq := SetDates_event _ _ _ _ hq
          exact sends_keep _ _ _ _ (by rw [hq.2, ht.2, hn.2.1])
            (fun _ => by rw [hq.1, ht.1, hn.1]) (by simp) (by simp)
        · show p.Next.2.TagName.2.Events = _
          rw [ht.2, hn.2.1]
      · exact sends_keep _ _ _ _ (by rw [ht.2, hn.2.1]) (fun _ => by rw [ht.1, hn.1])
          (by simp) (by simp)
    · exact sends_keep _ _ _ _ (by rw [ht.2, hn.2.1]) (fun _ => by rw [ht.1, hn.1])
        (by simp) (by simp)
  · exact sends_keep _ _ _ _ hn.2.1 (fun _ => hn.1) (by simp) (by simp)

theorem ParseSection_sends (p : Parser) : p.Sends .ParseSection p.ParseSection := by
  have hn := Next_event p
  have ht := TagName_event p.Next.2
  unfold Parser.ParseSection
  simp only []
  split
  · exact sends_halt _ _ _ hn.2.1
  · split
    · exact sends_keep _ _ _ _ (by show p.Next.2.TagName.2.Events = _; rw [ht.2, hn.2.1])
        (fun _ => by show p.Next.2.TagName.2.event = _; rw [ht.1, hn.1]) (by simp) (by simp)
    · split
      · refine ⟨?_, fun _ => ?_, fun _ h => absurd ⟨rfl, rfl⟩ h⟩
        · show p.Next.2.TagName.2.Events = _
          rw [ht.2, hn.2.1]; simp
        · show ({ Event.zero with Dates := p.Next.2.TagName.2.dates } : Event) = _
          have hd : p.Next.2.TagName.2.dates = p.dates := by
            have : p.Next.2.TagName.2.dates = p.Next.2.dates := by
              unfold Parser.TagName; split <;> rfl
            rw [this, hn.2.2]
          rw [hd]
      · exact sends_keep _ _ _ _ (by rw [ht.2, hn.2.1]) (fun _ => by rw [ht.1, hn.1])
          (by simp) (by simp)
  · exact sends_keep _ _ _ _ hn.2.1 (fun _ => hn.1) (by simp) (by simp)

theorem sends_inside (p q : Parser) (f g : ParserFunc) (hE : q.Events = p.Events)
    (hf : f.inParagraph = true) (h1 : ¬ (f = .ParseParagraph ∧ g = .ParseSection)) :
    p.Sends f (.goto g, q) :=
  sends_keep p q f g hE (fun h => by rw [hf] at h; cases h) h1
    (fun h => by rw [h.1] at hf; cases hf)

theorem sends_again (p x : Parser) (hE : x.Events = p.Events) :
    p.Sends .ParseParagraph (.goto .ParseParagraph, x.Next.2) :=
  sends_inside _ _ _ _ (by rw [(Next_event x).2.1, hE]) rfl (by simp)

theorem sends_event (p x : Parser) (hE : x.Events = p.Events) (he : x.event = p.event) :
    p.Sends .ParseParagraph (.goto .ParseSection, { x with Events := x.Events ++ [x.event] }) := by
  refine ⟨?_, (fun h => by cases h.1), (fun h => by cases h)⟩
  show x.Events ++ [x.event] = _
  rw [hE, he]
  simp

theorem ParseParagraph_sends (p : Parser) : p.Sends .ParseParagraph p.ParseParagraph := by
  have hk := Peek_event p
  have ht := TagName_event p.Peek.2
  have hE : p.Peek.2.TagName.2.Events = p.Events := by rw [ht.2, hk.2]
  have he : p.Peek.2.TagName.2.event = p.event := by rw [ht.1, hk.1]
  unfold Parser.ParseParagraph
  simp only []
  split
  · exact sends_halt _ _ _ hk.2
  · exact sends_again _ _ hk.2
  · split
    · exact sends_inside _ _ _ _ hE rfl (by simp)
    · split
      · exact sends_inside _ _ _ _ hE rfl (by simp)
      · split
        · exact sends_again _ _ hE
        · split
          · exact sends_again _ _ hE
          · exact sends_event _ _ hE he
  · split
    · exact sends_event _ _ hE he
    · exact sends_again _ _ hE
  · exact sends_again _ _ hk.2

theorem ParseLink_sends (p : Parser) (href : List Char) (isLink : Bool) :
    p.Sends (.ParseLink href isLink) (p.ParseLink href isLink) := by
  have hn := Next_event p
  have ht := TagName_event p.Next.2
  have hE : p.Next.2.TagName.2.Events = p.Events := by rw [ht.2, hn.2.1]
  unfold Parser.ParseLink
  simp only []
  split
  · exact sends_halt _ _ _ hn.2.1
  · refine sends_inside _ _ _ _ ?_ rfl (by simp)
    split <;> exact hn.2.1
  · split
    · exact sends_inside _ _ _ _ hE rfl (by simp)
    · exact sends_inside _ _ _ _ hE rfl (by simp)
  · split
    · split
      · exact sends_inside _ _ _ _ hE rfl (by simp)
      · exact sends_inside _ _ _ _ hE rfl (by simp)
    · exact sends_inside _ _ _ _ hE rfl (by simp)
  · exact sends_inside _ _ _ _ hn.2.1 rfl (by simp)

theorem ParseBold_sends (p : Parser) : p.Sends .ParseBold p.ParseBold := by
  have hn := Next_event p
  have ht := TagName_event p.Next.2
  have hE : p.Next.2.TagName.2.Events = p.Events := by rw [ht.2, hn.2.1]
  unfold Parser.ParseBold
  simp only []
  split
  · exact sends_halt _ _ _ hn.2.1
  · split
    · exact sends_inside _ _ _ _ hn.2.1 rfl (by simp)
    · exact sends_inside _ _ _ _ hn.2.1 rfl (by simp)
  · split
    · exact sends_inside _ _ _ _ hE rfl (by simp)
    · exact sends_inside _ _ _ _ hE rfl (by simp)
  · exact sends_inside _ _ _ _ hn.2.1 rfl (by simp)

theorem IgnoreTag_sends (p : Parser) : p.Sends .IgnoreTag p.IgnoreTag := by
  have hn := Next_event p
  have ht := TagName_event p.Next.2
  have hE : p.Next.2.TagName.2.Events = p.Events := by rw [ht.2, hn.2.1]
  unfold Parser.IgnoreTag
  simp only []
  split
  · exact sends_halt _ _ _ hn.2.1
  · split
    · exact sends_inside _ _ _ _ hE rfl (by simp)
    · exact sends_inside _ _ _ _ hE rfl (by simp)
  · exact sends_inside _ _ _ _ hn.2.1 rfl (by simp)

theorem step_sends (p : Parser) (f : ParserFunc) : p.Sends f (p.step f) := by
  cases f with
  | ParseRoot => exact ParseRoot_sends p
  | ParseHeader s => exact ParseHeader_sends p s
  | ParseSection => exact ParseSection_sends p
  | ParseParagraph => exact ParseParagraph_sends p
  | ParseLink href isLink => exact ParseLink_sends p href isLink
  | ParseBold => exact ParseBold_sends p
  | IgnoreTag => exact IgnoreTag_sends p

theorem RunLoop_closed (n : Nat) : ∀ (p : Parser) (f : ParserFunc),
    (p.RunLoop n f).parser.Events = p.Events ++ p.closed n f := by
  induction n with
  | zero => intro p f; simp [Parser.RunLoop, Parser.closed]
  | succ n ih =>
    intro p f
    have hs := step_sends p f
    rcases hq : p.step f with ⟨r, q⟩
    rw [hq] at hs
    cases r with
    | goto g =>
      have h1 : q.Events =
          p.Events ++ (if f = .ParseParagraph ∧ g = .ParseSection then [p.event] else []) :=
        hs.1
      simp only [Parser.RunLoop, Parser.closed, hq]
      rw [ih q g, h1, List.append_assoc]
    | stop =>
      have h1 : q.Events = p.Events := hs
      simp [Parser.RunLoop, Parser.closed, hq, h1]
    | fatal =>
      have h1 : q.Events = p.Events := hs
      simp [Parser.RunLoop, Parser.closed, hq, h1]
    | panic =>
      have h1 : q.Events = p.Events := hs
      simp [Parser.RunLoop, Parser.closed, hq, h1]

theorem ParseParagraph_leaves (p : Parser) :
    p.ParseParagraph.1 = .goto .ParseSection ↔
      (p.Peek.1 = .EndTagToken ∧ p.Peek.2.TagName.1 = "p".toList) ∨
      (p.Peek.1 = .StartTagToken ∧ p.Peek.2.TagName.1 ∉ inlineTags) := by
  unfold Parser.ParseParagraph inlineTags
  simp only []
  split
  · next h =>
    rw [h]
    rcases onError_halts p.Peek.2 with h' | h' <;> rw [h'] <;> simp
  · next h => rw [h]; simp
  · next h =>
    rw [h]
    split
    · next hb => simp [hb]
    · next hb =>
      split
      · next ha => simp [ha]
      · next ha =>
        split
        · next hl => simp [hl]
        · next hl =>
          split
          · next hu =>
            simp only [Bool.or_eq_true, decide_eq_true_eq] at hu
            rcases hu with (hu | hu) | hu <;> simp [hu]
          · next hu =>
            simp only [Bool.or_eq_true, decide_eq_true_eq, not_or] at hu
            simp_all
  · next h =>
    rw [h]
    split
    · next hp => simp [hp]
    · next hp => simp_all
  · next h1 h2 h3 h4 =>
    simp_all

theorem ParseSection_opens (p : Parser) :
    p.ParseSection.1 = .goto .ParseParagraph ↔
      p.Next.1 = .StartTagToken ∧ p.Next.2.TagName.1 = "p".toList := by
  unfold Parser.ParseSection
  simp only []
  split
  · next h =>
    rw [h]
    rcases onError_halts p.Next.2 with h' | h' <;> rw [h'] <;> simp
  · next h =>
    rw [h]
    split
    · next hh =>
      have : p.Next.2.TagName.1 ≠ "p".toList := by
        intro e; rw [e] at hh; exact absurd hh (by decide)
      simp_all
    · split
      · next hp => simp [hp]
      · next hp => simp_all
  · next h1 h2 =>
    simp_all

theorem onError_same (x : Parser) : x.onError.2 = x := by
  unfold Parser.onError
  split <;> rfl

theorem ParseParagraph_dates (p : Parser) :
    p.ParseParagraph.2.event.Dates = p.event.Dates := by
  have hk := Peek_event p
  have ht := TagName_event p.Peek.2
  have hx : ∀ x : Parser, x.Next.2.event = x.event := fun x => (Next_event x).1
  unfold Parser.ParseParagraph
  simp only []
  repeat' split
  all_goals simp [hx, onError_same, Parser.write, hk.1, ht.1]

theorem ParseLink_dates (p : Parser) (href : List Char) (isLink : Bool) :
    (p.ParseLink href isLink).2.event.Dates = p.event.Dates := by
  have hn := Next_event p
  have ht := TagName_event p.Next.2
  unfold Parser.ParseLink
  simp only []
  repeat' split
  all_goals simp [onError_same, Parser.write, hn.1, ht.1]

theorem ParseBold_dates (p : Parser) : p.ParseBold.2.event.Dates = p.event.Dates := by
  have hn := Next_event p
  have ht := TagName_event p.Next.2
  unfold Parser.ParseBold
  simp only []
  repeat' split
  all_goals simp [onError_same, Parser.write, hn.1, ht.1]

theorem IgnoreTag_dates (p : Parser) : p.IgnoreTag.2.event.Dates = p.event.Dates := by
  have hn := Next_event p
  have ht := TagName_event p.Next.2
  unfold Parser.IgnoreTag
  simp only []
  repeat' split
  all_goals simp [onError_same, Parser.write, hn.1, ht.1]

theorem step_dates (p : Parser) (f : ParserFunc) (h : f.inParagraph = true) :
    (p.step f).2.event.Dates = p.event.Dates := by
  cases f with
  | ParseRoot => cases h
  | ParseHeader s => cases h
  | ParseSection => cases h
  | ParseParagraph => exact ParseParagraph_dates p
  | ParseLink href isLink => exact ParseLink_dates p href isLink
  | ParseBold => exact ParseBold_dates p
  | IgnoreTag => exact IgnoreTag_dates p

theorem step_events (p : Parser) (f : ParserFunc) :
    (p.step f).2.Events = p.Events ++
      (if f = .ParseParagraph ∧ (p.step f).1 = .goto .ParseSection then [p.event] else []) := by
  have hs := step_sends p f
  rcases hq : p.step f with ⟨r, q⟩
  rw [hq] at hs
  cases r with
  | goto g =>
    have h1 : q.Events =
        p.Events ++ (if f = .ParseParagraph ∧ g = .ParseSection then [p.event] else []) := hs.1
    simpa using h1
  | stop =>
    have h1 : q.Events = p.Events := hs
    simp [h1]
  | fatal =>
    have h1 : q.Events = p.Events := hs
    simp [h1]
  | panic =>
    have h1 : q.Events = p.Events := hs
    simp [h1]

theorem closed_dates (n : Nat) : ∀ (p : Parser) (f : ParserFunc),
    (p.closed n f).map (fun e => e.Dates) <+:
      (if f.inParagraph then [p.event.Dates] else []) ++ p.begun n f := by
  induction n with
  | zero => intro p f; simp [Parser.closed]
  | succ n ih =>
    intro p f
    have hs := step_sends p f
    have hp := step_paced p f
    rcases hq : p.step f with ⟨r, q⟩
    rw [hq] at hs hp
    cases r with
    | goto g =>
      have h1 : q.Events =
          p.Events ++ (if f = .ParseParagraph ∧ g = .ParseSection then [p.event] else []) := hs.1
      have h2 : q.Events.length + (if g.inParagraph then 1 else 0) =
        p.Events.length + (if f.inParagraph then 1 else 0) +
          (if f = .ParseSection ∧ g = .ParseParagraph then 1 else 0) := hp.2
      have h3 : f = .ParseSection ∧ g = .ParseParagraph →
          q.event = { Event.zero with Dates := p.dates } := hs.2.1
      have hi := ih q g
      simp only [Parser.closed, Parser.begun, hq]
      by_cases hc : f = .ParseParagraph ∧ g = .ParseSection
      · obtain ⟨rfl, rfl⟩ := hc
        simpa [ParserFunc.inParagraph] using hi
      · rw [if_neg hc] at h1 ⊢
        rw [h1] at h2
        by_cases ho : f = .ParseSection ∧ g = .ParseParagraph
        · have he := h3 ho
          obtain ⟨rfl, rfl⟩ := ho
          simpa [ParserFunc.inParagraph, he] using hi
        · rw [if_neg ho] at h2 ⊢
          by_cases hf : f.inParagraph = true
          · have hg : g.inParagraph = true := by
              by_contra hg
              simp [hf, hg] at h2
            have hd : q.event.Dates = p.event.Dates := by
              have := step_dates p f hf
              rw [hq] at this
              exact this
            simpa [hf, hg, hd] using hi
          · have hg : g.inParagraph = false := by
              cases hgg : g.inParagraph
              · rfl
              · simp [hf, hgg] at h2
            simpa [hf, hg] using hi
    | stop => simp [Parser.closed, hq]
    | fatal => simp [Parser.closed, hq]
    | panic => simp [Parser.closed, hq]

/-- C1 (as amended). For every token stream, `Run` comes to an end, and the events sent
are, in document order, exactly the events in progress at the passes of `ParseParagraph`
that return `ParseSection`: a pass sends the event in progress, once, exactly when it is
such a pass, and no other pass sends anything. Such a pass is one that meets, in the
`Paragraph` state, a `</p>` end tag or a start tag other than `b`, `a`, `li`, `ul`, `span`,
`div`. A paragraph begins at a pass of `ParseSection` that returns `ParseParagraph`, which
is one that meets a `<p>` start tag; there the event in progress is started afresh with the
DateRange of the section, which no pass inside the paragraph changes, so the events sent
carry, in order, the DateRanges of the paragraphs begun. After any number of passes the
number of events sent, plus one when the machine stands inside a paragraph, equals the
number of paragraphs begun: each paragraph that reached its end was sent once, and one
that has not when the input ends is not sent. Tags met in the `Bold` or `Link` state do
not end a paragraph: two paragraphs whose `<b>` runs from the first into the second are
sent as one event. -/
theorem Run_emits_completed_paragraphs (time : Time) (input : List Token) (readErr : Bool) :
    (∀ g, (NewParser time input readErr).Run.how ≠ .goto g) ∧
    (∀ n m, n ≤ m → ((NewParser time input readErr).RunLoop n .ParseRoot).parser.Events <+:
      ((NewParser time input readErr).RunLoop m .ParseRoot).parser.Events) ∧
    (∀ n, ((NewParser time input readErr).RunLoop n .ParseRoot).parser.Events.length +
        (if ((NewParser time input readErr).RunLoop n .ParseRoot).last.inParagraph then 1 else 0) =
      (NewParser time input readErr).opened n .ParseRoot) ∧
    (∀ n, ((NewParser time input readErr).RunLoop n .ParseRoot).parser.Events =
      (NewParser time input readErr).closed n .ParseRoot) ∧
    (∀ n, ((NewParser time input readErr).closed n .ParseRoot).map (fun e => e.Dates) <+:
      (NewParser time input readErr).begun n .ParseRoot) ∧
    (∀ (p : Parser) (f : ParserFunc),
      (p.step f).2.Events = p.Events ++
        (if f = .ParseParagraph ∧ (p.step f).1 = .goto .ParseSection then [p.event] else []) ∧
      (f.inParagraph = true → (p.step f).2.event.Dates = p.event.Dates)) ∧
    (∀ p : Parser,
      (p.ParseParagraph.1 = .goto .ParseSection ↔
        (p.Peek.1 = .EndTagToken ∧ p.Peek.2.TagName.1 = "p".toList) ∨
        (p.Peek.1 = .StartTagToken ∧ p.Peek.2.TagName.1 ∉ inlineTags)) ∧
      (p.ParseSection.1 = .goto .ParseParagraph ↔
        p.Next.1 = .StartTagToken ∧ p.Next.2.TagName.1 = "p".toList) ∧
      (p.ParseSection.1 = .goto .ParseParagraph →
        p.ParseSection.2.event = { Event.zero with Dates := p.dates })) ∧
    ((NewParser ⟨739000, 0⟩ mergedDocument false).Run.how = .stop ∧
      (NewParser ⟨739000, 0⟩ mergedDocument false).Run.parser.Events.map
        (fun e => (e.Title, e.Body)) = [("First".toList, "Second more".toList)]) := by
  refine ⟨RunLoop_halts _ _ _ (Nat.lt_succ_self _), fun n m h => RunLoop_mono n m _ _ h,
    fun n => ?_, fun n => ?_, fun n => ?_, fun p f => ⟨step_events p f, step_dates p f⟩,
    fun p => ⟨ParseParagraph_leaves p, ParseSection_opens p, fun h => ?_⟩, by decide⟩
  · have := RunLoop_count n (NewParser time input readErr) .ParseRoot
    simpa [NewParser, ParserFunc.inParagraph] using this
  · have := RunLoop_closed n (NewParser time input readErr) .ParseRoot
    simpa [NewParser] using this
  · have := closed_dates n (NewParser time input readErr) .ParseRoot
    simpa [ParserFunc.inParagraph] using this
  · have hs := ParseSection_sends p
    rcases hq : p.ParseSection with ⟨r, q⟩
    rw [hq] at hs h
    simp only [] at h
    subst h
    exact hs.2.1 ⟨rfl, rfl⟩

/-- C1 (counterexample). A paragraph of a matched date section that is cut short by the end
of the input is lost: one `<p>` start tag is met in the `Section` state and no event is
sent. A paragraph whose `<b>` is never closed is lost as well, with the paragraph after
it. -/
theorem Run_drops_unfinished_paragraph :
    ((NewParser ⟨739000, 0⟩ cutShortDocument false).Run.how = .stop ∧
      (NewParser ⟨739000, 0⟩ cutShortDocument false).opened
        ((NewParser ⟨739000, 0⟩ cutShortDocument false).budget .ParseRoot + 1) .ParseRoot = 1 ∧
      (NewParser ⟨739000, 0⟩ cutShortDocument false).Run.parser.Events = []) ∧
    ((NewParser ⟨739000, 0⟩ unclosedBoldDocument false).Run.how = .stop ∧
      (NewParser ⟨739000, 0⟩ unclosedBoldDocument false).opened
        ((NewParser ⟨739000, 0⟩ unclosedBoldDocument false).budget .ParseRoot + 1) .ParseRoot = 1 ∧
      (NewParser ⟨739000, 0⟩ unclosedBoldDocument false).Run.parser.Events = []) := by
  decide

/-! ## A second pass of the finalizer -/

theorem search_suffix (n : Nat) (r : Regex) :
    ∀ (s : List Char) (c : Caps), r.search n s = some c →
      ∃ t x, t.length ≤ s.length ∧ x ∈ r.run n t [] ∧ x.2 = c := by
  have key : ∀ (t : List Char) (c : Caps), r.matchHere n t = some c →
      ∃ x, x ∈ r.run n t [] ∧ x.2 = c := by
    intro t c h
    unfold Regex.matchHere at h
    cases hr : r.run n t [] with
    | nil => rw [hr] at h; simp at h
    | cons y ys =>
      rw [hr] at h
      simp only [List.head?_cons, Option.map_some', Option.some.injEq] at h
      exact ⟨y, List.mem_cons_self _ _, h⟩
  intro s
  induction s with
  | nil =>
    intro c h
    obtain ⟨x, hx⟩ := key [] c h
    exact ⟨[], x, Nat.le_refl _, hx⟩
  | cons a s ih =>
    intro c h
    simp only [Regex.search] at h
    cases hm : r.matchHere n (a :: s) with
    | some d =>
      rw [hm] at h
      simp only [Option.some.injEq] at h
      subst h
      obtain ⟨x, hx⟩ := key _ _ hm
      exact ⟨a :: s, x, Nat.le_refl _, hx⟩
    | none =>
      rw [hm] at h
      obtain ⟨t, x, hle, hx⟩ := ih c h
      exact ⟨t, x, Nat.le_succ_of_le hle, hx⟩

theorem location_title_shorter (s : List Char) (m : Caps)
    (h : locationTextPattern.FindAllStringSubmatch s = some m) :
    (m.get 1).length < s.length := by
  obtain ⟨t, x, hle, hx, rfl⟩ := search_suffix _ _ _ _ h
  rw [locationTextPattern_eq, run_cat] at hx
  simp only [List.mem_flatMap] at hx
  obtain ⟨y, hy, hxy⟩ := hx
  rw [run_group] at hy
  simp only [List.mem_map] at hy
  obtain ⟨z, hz, rfl⟩ := hy
  have hg := run_get 1 s.length locationTail rfl _ _ _ hxy
  rw [hg, get_cons_self]
  have hne : z.1 ≠ [] := by
    intro h0
    simp only [h0] at hxy
    rw [run_locationTail_nil _ _ _ (by simp [separators])] at hxy
    simp at hxy
  have hsuf := (run_any_suffix _ _ _ _ hz).2.length_le
  have hpos : 0 < z.1.length := List.length_pos.mpr hne
  simp only [List.length_take]
  omega

theorem Trim_length (s cutset : List Char) : (Trim s cutset).length ≤ s.length := by
  unfold Trim
  exact (List.rdropWhile_prefix _ _).length_le.trans (List.dropWhile_suffix _).length_le

theorem titled_title (o : Event) :
    (o.titled.Title = o.Title ↔ Trim o.Title titleCutset = o.Title ∧
      locationTextPattern.FindAllStringSubmatch o.Title = none) ∧
    (locationTextPattern.FindAllStringSubmatch (Trim o.Title titleCutset) = none →
      o.titled.Title = Trim o.Title titleCutset ∧ o.titled.Location = o.Location) ∧
    (∀ m, locationTextPattern.FindAllStringSubmatch (Trim o.Title titleCutset) = some m →
      o.titled.Title = m.get 1 ∧ o.titled.Location = m.get 4) := by
  have hn : locationTextPattern.FindAllStringSubmatch (Trim o.Title titleCutset) = none →
      o.titled.Title = Trim o.Title titleCutset ∧ o.titled.Location = o.Location := by
    intro hl
    have hl' : locationTextPattern.FindAllStringSubmatch (Trim o.Title [' ', '\t', '/']) = none :=
      hl
    unfold Event.titled
    simp only [hl']
    exact ⟨by trivial, by trivial⟩
  have hm : ∀ m, locationTextPattern.FindAllStringSubmatch (Trim o.Title titleCutset) = some m →
      o.titled.Title = m.get 1 ∧ o.titled.Location = m.get 4 := by
    intro m hl
    have hl' : locationTextPattern.FindAllStringSubmatch (Trim o.Title [' ', '\t', '/']) =
        some m := hl
    unfold Event.titled
    simp only [hl']
    exact ⟨by trivial, by trivial⟩
  refine ⟨⟨fun h => ?_, fun h => ?_⟩, hn, hm⟩
  · rcases hl : locationTextPattern.FindAllStringSubmatch (Trim o.Title titleCutset) with _ | m
    · have ht := (hn hl).1
      rw [h] at ht
      refine ⟨ht.symm, ?_⟩
      rw [← ht] at hl
      exact hl
    · have ht := (hm m hl).1
      have h1 := location_title_shorter _ _ hl
      have h2 := Trim_length o.Title titleCutset
      rw [← ht, h] at h1
      omega
  · have hl : locationTextPattern.FindAllStringSubmatch (Trim o.Title titleCutset) = none := by
      rw [h.1]; exact h.2
    rw [(hn hl).1, h.1]

theorem AddDate_one_ne (t : Time) : t.AddDate 1 ≠ t := by
  unfold Time.AddDate
  intro hx
  have := congrArg Time.day hx
  simp at this

theorem append_one_ne (l : List TimeRange) (x : TimeRange) : l ++ [x] ≠ l := by
  intro hx
  have := congrArg List.length hx
  simp at this

theorem finalizeEvent_second (o o₂ : Event) (h : finalizeEvent o = .forwarded o₂) :
    (o₂.Times = o.Times ↔ ¬ (o.Dates.End.IsZero = true ∧
      (singleDayTimePattern.FindAllStringSubmatch (TrimSpace o.Body)).isSome = true)) ∧
    (o₂.Dates.End = o.Dates.End ↔ o.Dates.End.IsZero = true) := by
  obtain ⟨hT, _⟩ := finalizeEvent_titled o o₂ (.inl h)
  have hf := titled_frame o
  rw [finalizeEvent_eq o hT] at h
  split at h
  · next hZ =>
    split at h
    · next m hm =>
      split at h
      · cases h
      · next s hs =>
        split at h
        · cases h
          simp only [hZ, hm, Option.isSome_some, and_self, not_true_eq_false, iff_false,
            iff_true]
          exact ⟨append_one_ne _ _, by rw [← hf.2.2.1]⟩
        · split at h
          · cases h
          · cases h
            simp only [hZ, hm, Option.isSome_some, and_self, not_true_eq_false, iff_false,
              iff_true]
            exact ⟨append_one_ne _ _, by rw [← hf.2.2.1]⟩
    · next hm =>
      cases h
      simp only [hZ, hm, Option.isSome_none, Bool.false_eq_true, and_false, not_false_eq_true,
        iff_true]
      exact ⟨hf.2.2.2.1, by rw [hf.2.2.1]⟩
  · next hZ =>
    cases h
    exact ⟨⟨fun _ hh => hZ hh.1, fun _ => hf.2.2.2.1⟩,
      ⟨fun hh => absurd hh (AddDate_one_ne _), fun hh => absurd hh hZ⟩⟩

theorem finalizeEvent_fixed (o : Event) (hD : o.Description = TrimSpace o.Body) :
    finalizeEvent o = .forwarded o ↔
      o.Title ≠ [] ∧ Trim o.Title titleCutset = o.Title ∧
      locationTextPattern.FindAllStringSubmatch o.Title = none ∧
      o.Dates.End.IsZero = true ∧
      singleDayTimePattern.FindAllStringSubmatch o.Description = none := by
  constructor
  · intro h
    obtain ⟨hT, ht, _⟩ := finalizeEvent_titled o o (.inl h)
    have h1 := (titled_title o).1.mp ht.symm
    have h2 := finalizeEvent_second o o h
    have hZ : o.Dates.End.IsZero = true := h2.2.mp rfl
    have hm := h2.1.mp rfl
    refine ⟨by rw [← h1.1]; exact hT, h1.1, h1.2, hZ, ?_⟩
    rw [hD]
    rcases hx : singleDayTimePattern.FindAllStringSubmatch (TrimSpace o.Body) with _ | m
    · rfl
    · exact absurd ⟨hZ, by rw [hx]; rfl⟩ hm
  · rintro ⟨hne, ht, hl, hZ, hm⟩
    have hT : Trim o.Title titleCutset ≠ [] := by rw [ht]; exact hne
    have hl' : locationTextPattern.FindAllStringSubmatch (Trim o.Title titleCutset) = none := by
      rw [ht]; exact hl
    rw [hD] at hm
    rw [finalizeEvent_eq o hT]
    simp only [hZ, if_true, hm]
    have h1 : o.titled =
        { o with Title := Trim o.Title titleCutset, Description := TrimSpace o.Body } := by
      have hl'' : locationTextPattern.FindAllStringSubmatch (Trim o.Title [' ', '\t', '/']) =
          none := hl'
      unfold Event.titled
      simp only [hl'']
      rfl
    rw [h1, ht, ← hD]

/-- C12 (as amended). For every draft that `finalize` forwards, applying the same logic to
the forwarded event again leaves Description, Body, Link and `Dates.Start` as they are. It
leaves every field as it is exactly when the forwarded event is single-day, its Description
has no time match, and its Title is not empty, is trimmed already and has no match of the
location pattern; that is so whenever the draft is single-day, its Description has no time
match and its trimmed Title has no match of the location pattern. When the forwarded event
is forwarded again: its Title stays exactly when it is trimmed already and has no match of
the location pattern; with no match the Title is the trimmed Title and the Location stays,
with a match Title and Location are groups 1 and 4 of that match; its Times stay unless it
is single-day with a time match in its Description, and an event that was given a TimeRange
is given the same TimeRange once more; its `Dates.End` stays exactly when it is single-day,
and is moved one more day otherwise. A Title that was split need not be split again
(`Trivia Night at The Pub`), and one that is split again can keep its Location
(`Jam at Vino at Vino`). -/
theorem finalize_again (e o : Event) (h : finalizeEvent e = .forwarded o) :
    (∀ o₂, (finalizeEvent o = .forwarded o₂ ∨ finalizeEvent o = .fatal o₂) →
      o₂.Description = o.Description ∧ o₂.Body = o.Body ∧ o₂.Link = o.Link ∧
        o₂.Dates.Start = o.Dates.Start) ∧
    (e.Dates.End.IsZero = true →
      singleDayTimePattern.FindAllStringSubmatch (TrimSpace e.Body) = none →
      locationTextPattern.FindAllStringSubmatch (Trim e.Title titleCutset) = none →
      finalizeEvent o = .forwarded o) ∧
    (∀ o₂, finalizeEvent o = .forwarded o₂ →
      (∀ tr, o.Times = e.Times ++ [tr] → o₂.Times = o.Times ++ [tr] ∧ o₂.Times ≠ o.Times) ∧
      (o.Dates.End.IsZero = false →
        o₂.Dates.End = o.Dates.End.AddDate 1 ∧ o₂.Dates.End ≠ o.Dates.End)) ∧
    (finalizeEvent o = .forwarded o ↔
      o.Title ≠ [] ∧ Trim o.Title titleCutset = o.Title ∧
      locationTextPattern.FindAllStringSubmatch o.Title = none ∧
      o.Dates.End.IsZero = true ∧
      singleDayTimePattern.FindAllStringSubmatch o.Description = none) ∧
    (∀ o₂, finalizeEvent o = .forwarded o₂ →
      (o₂.Title = o.Title ↔ Trim o.Title titleCutset = o.Title ∧
        locationTextPattern.FindAllStringSubmatch o.Title = none) ∧
      (locationTextPattern.FindAllStringSubmatch (Trim o.Title titleCutset) = none →
        o₂.Title = Trim o.Title titleCutset ∧ o₂.Location = o.Location) ∧
      (∀ m, locationTextPattern.FindAllStringSubmatch (Trim o.Title titleCutset) = some m →
        o₂.Title = m.get 1 ∧ o₂.Location = m.get 4) ∧
      (o₂.Times = o.Times ↔ ¬ (o.Dates.End.IsZero = true ∧
        (singleDayTimePattern.FindAllStringSubmatch o.Description).isSome = true)) ∧
      (o₂.Dates.End = o.Dates.End ↔ o.Dates.End.IsZero = true)) ∧
    ((∃ o, finalizeEvent (draft ⟨739000, 0⟩ "Trivia Night at The Pub" "Fun") = .forwarded o ∧
        o.Location = "The Pub".toList ∧ finalizeEvent o = .forwarded o) ∧
      (∃ o o₂, finalizeEvent (draft ⟨739000, 0⟩ "Jam at Vino at Vino" "Fun") = .forwarded o ∧
        finalizeEvent o = .forwarded o₂ ∧
        (o.Title, o.Location) = ("Jam at Vino".toList, "Vino".toList) ∧
        (o₂.Title, o₂.Location) = ("Jam".toList, "Vino".toList))) := by
  obtain ⟨hT, _, _, hB, _, hS, hD⟩ := finalizeEvent_titled e o (.inl h)
  have hf := titled_frame e
  have hDo : o.Description = TrimSpace o.Body := by rw [hD, hB]
  refine ⟨fun o₂ h₂ => ?_, fun hZ hm hl => ?_, fun o₂ h₂ => ⟨fun tr htr => ?_, fun hE => ?_⟩,
    finalizeEvent_fixed o hDo, fun o₂ h₂ => ?_,
    ⟨⟨_, rfl, by decide, by decide⟩, ⟨_, _, rfl, rfl, by decide, by decide⟩⟩⟩
  · obtain ⟨_, _, _, hB₂, hL₂, hS₂, hD₂⟩ := finalizeEvent_titled o o₂ h₂
    exact ⟨by rw [hD₂, hD, hB], hB₂, hL₂, hS₂⟩
  · rw [finalizeEvent_eq e hT] at h
    simp only [hZ, if_true, hm, Finalized.forwarded.injEq] at h
    subst h
    have hT₂ : Trim e.titled.Title titleCutset ≠ [] := by
      have : e.titled.Title = Trim e.Title titleCutset := by
        simp only [titleCutset] at hl ⊢
        unfold Event.titled
        simp only [hl]
      rw [this, Trim_idem]
      exact hT
    rw [finalizeEvent_eq _ hT₂, hf.2.2.1, hf.1]
    simp only [hZ, if_true, hm, titled_fixed e hl]
  · obtain ⟨hT₂, _, _, _, _, _, _⟩ := finalizeEvent_titled o o₂ (.inl h₂)
    have hf₂ := titled_frame o
    have hlen : ∀ (l : List TimeRange) (x : TimeRange), l ++ [x] ≠ l := by
      intro l x hx
      have := congrArg List.length hx
      simp at this
    rw [finalizeEvent_eq e hT] at h
    rw [finalizeEvent_eq o hT₂] at h₂
    split at h
    · next hZ =>
      split at h
      · next m hm =>
        split at h
        · cases h
        · next s hs =>
          split at h
          · next h8 =>
            cases h
            simp only [List.append_cancel_left_eq, List.cons.injEq, and_true] at htr
            subst htr
            simp only [hf.2.2.1, hZ, if_true, hf.1, hm, hs, h8,
              Finalized.forwarded.injEq] at h₂
            subst h₂
            exact ⟨rfl, hlen _ _⟩
          · next h8 =>
            split at h
            · cases h
            · next t ht =>
              cases h
              simp only [List.append_cancel_left_eq, List.cons.injEq, and_true] at htr
              subst htr
              simp only [hf.2.2.1, hZ, if_true, hf.1, hm, hs, h8, if_false, ht,
                Finalized.forwarded.injEq] at h₂
              subst h₂
              exact ⟨rfl, hlen _ _⟩
      · cases h
        rw [hf.2.2.2.1] at htr
        exact absurd htr.symm (hlen _ _)
    · cases h
      simp only [hf.2.2.2.1] at htr
      exact absurd htr.symm (hlen _ _)
  · obtain ⟨hT₂, _, _, _, _, _, _⟩ := finalizeEvent_titled o o₂ (.inl h₂)
    have hf₂ := titled_frame o
    rw [finalizeEvent_eq o hT₂] at h₂
    simp only [hE, Bool.false_eq_true, if_false, Finalized.forwarded.injEq] at h₂
    subst h₂
    refine ⟨rfl, ?_⟩
    show o.Dates.End.AddDate 1 ≠ o.Dates.End
    unfold Time.AddDate
    intro hx
    have := congrArg Time.day hx
    simp at this
  · obtain ⟨_, hT₂, hL₂, _⟩ := finalizeEvent_titled o o₂ (.inl h₂)
    have ht := titled_title o
    have hs := finalizeEvent_second o o₂ h₂
    rw [← hDo] at hs
    rw [hT₂, hL₂]
    exact ⟨ht.1, ht.2.1, ht.2.2, hs.1, hs.2⟩

/-- C12 (witness). -/
theorem finalize_again_witness :
    finalizeEvent { draft ⟨739000, 0⟩ " Art Walk /" " All day " with
      Title := "Art Walk".toList, Description := "All day".toList } =
    .forwarded { draft ⟨739000, 0⟩ " Art Walk /" " All day " with
      Title := "Art Walk".toList, Description := "All day".toList } :=
  (finalize_again (draft ⟨739000, 0⟩ " Art Walk /" " All day ") _ (by decide)).2.1
    (by decide) (by decide) (by decide)

/-- C12 (counterexample). Applied a second time, the logic of `finalize` splits the Title
`Jazz at Noon` of the forwarded event again (Title `Jazz`, Location `Noon` in place of
`The Pub`) and gives the event its TimeRange twice; and a multi-day event from the 2nd to
the 4th day has its `Dates.End` moved from the 5th to the 6th. -/
theorem finalize_twice_differs :
    (∃ o o₂, finalizeEvent (draft ⟨739000, 0⟩ "Jazz at Noon at The Pub" "Music at 7 p.m.") =
        .forwarded o ∧ finalizeEvent o = .forwarded o₂ ∧
      (o.Title, o.Location, o.Times.length) = ("Jazz at Noon".toList, "The Pub".toList, 1) ∧
      (o₂.Title, o₂.Location, o₂.Times.length) = ("Jazz".toList, "Noon".toList, 2)) ∧
    (∃ o o₂, finalizeEvent { draft ⟨739001, 0⟩ "Art Fair" "All weekend" with
        Dates := ⟨⟨739001, 0⟩, ⟨739003, 0⟩⟩ } = .forwarded o ∧
      finalizeEvent o = .forwarded o₂ ∧
      o.Dates.End = ⟨739004, 0⟩ ∧ o₂.Dates.End = ⟨739005, 0⟩) :=
  ⟨⟨_, _, rfl, rfl, by decide, by decide⟩, ⟨_, _, rfl, rfl, by decide, by decide⟩⟩

/-! ## Matched texts that are no clock time -/

/-- C6 (the code at the failing input). The draft `Battle of the Bands` is single-day, with
a Title that is kept and no times yet. The first match of the time pattern in its
Description `22 amateur bands, doors at 6 p.m.` is `22 am`, which carries no end time;
group 2, which the code takes for a clock time (`3 or 3:04`), holds `22`. `time.Parse`
rejects `22:00 AM` and `finalize` ends the process: no TimeRange is yielded, and neither
this event nor the one after it is sent. Wherever group 2 of the first match is a clock time
of a 12-hour clock (hour 1 to 12, minute none or 00 to 59), the event is forwarded with
exactly one TimeRange, from that clock time on the day of `Dates.Start` to one hour
later. -/
theorem finalize_aborts_on_first_match :
    ((draft ⟨739000, 0⟩ "Battle of the Bands"
        "22 amateur bands, doors at 6 p.m.").Dates.End.IsZero = true ∧
      Trim (draft ⟨739000, 0⟩ "Battle of the Bands"
        "22 amateur bands, doors at 6 p.m.").Title titleCutset ≠ [] ∧
      (draft ⟨739000, 0⟩ "Battle of the Bands" "22 amateur bands, doors at 6 p.m.").Times = [] ∧
      (singleDayTimePattern.FindAllStringSubmatch
          "22 amateur bands, doors at 6 p.m.".toList).map (fun m => (m.get 1, m.get 2, m.get 8)) =
        some ("22 am".toList, "22".toList, "".toList) ∧
      Parse (clockText "22".toList "a".toList) = none) ∧
    (finalizeEvent (draft ⟨739000, 0⟩ "Battle of the Bands"
      "22 amateur bands, doors at 6 p.m.")).isFatal = true ∧
    finalize [draft ⟨739000, 0⟩ "Battle of the Bands" "22 amateur bands, doors at 6 p.m.",
      draft ⟨739000, 0⟩ "Art Walk" "All day"] = ([], true) ∧
    (∀ (e : Event) (m : Caps) (c : List Char × Nat × Nat) (x : Char),
      Trim e.Title titleCutset ≠ [] → e.Dates.End.IsZero = true → e.Times = [] →
      singleDayTimePattern.FindAllStringSubmatch (TrimSpace e.Body) = some m →
      m.get 8 = [] → c ∈ clockTexts → x ∈ ['a', 'p'] → m.get 2 = c.1 →
      (if m.get 6 = [] then m.get 10 else m.get 6) = [x] →
      ∃ o, finalizeEvent e = .forwarded o ∧
        o.Times = [⟨e.Dates.Start.atClock (to24 c.2.1 x) c.2.2,
          (e.Dates.Start.atClock (to24 c.2.1 x) c.2.2).Add (1 * Hour)⟩]) := by
  refine ⟨⟨by decide, by decide, by decide, by decide, by decide⟩, by decide, by decide,
    fun e m c x hT hZ hN hm h8 hc hx h2 h6 => ?_⟩
  have hp := (Parse_clockTexts c hc x hx).2
  have hs : Parse (clockText (m.get 2) (if m.get 6 = [] then m.get 10 else m.get 6)) =
      some ⟨to24 c.2.1 x, c.2.2, 0, 0⟩ := by
    rw [h2, h6]; exact hp
  exact (finalize_default_one_hour e hT hZ hN).1 m ⟨to24 c.2.1 x, c.2.2, 0, 0⟩ hm h8 hs

/-- C13 (the code at the failing input). The draft `Late Show` is single-day with a Title
that is kept. In its Description `Doors at 22 p.m.` the only number before `p.m.` is an hour
above 12; the time pattern matches `22 p.m.` all the same, group 2, which the code takes for
a clock time (`3 or 3:04`), holds `22`, `time.Parse` rejects `22:00 PM`, and `finalize` ends
the process through `log.Fatal`: the event is not forwarded with an empty `Times`, and
neither it nor the one after it is sent. The same happens with a minute of 60 or more
(`7:65 p.m.`). With `13 p.m.` the pattern matches `3 p.m.` and the event is forwarded with a
TimeRange from 15:00 to 16:00, not with an empty `Times`. For every single-day draft with a
Title that is kept: where the time pattern has no match in the Description the event is
forwarded with `Times` as it was, and `finalize` ends the process exactly when the pattern
has a match whose start text `time.Parse` rejects, or whose end text is there and is
rejected. -/
theorem finalize_aborts_on_hour_above_12 :
    ((draft ⟨739000, 0⟩ "Late Show" "Doors at 22 p.m.").Dates.End.IsZero = true ∧
      Trim (draft ⟨739000, 0⟩ "Late Show" "Doors at 22 p.m.").Title titleCutset ≠ [] ∧
      (singleDayTimePattern.FindAllStringSubmatch "Doors at 22 p.m.".toList).map
          (fun m => (m.get 1, m.get 2, m.get 8)) =
        some ("22 p.m.".toList, "22".toList, "".toList) ∧
      Parse (clockText "22".toList "p".toList) = none) ∧
    (finalizeEvent (draft ⟨739000, 0⟩ "Late Show" "Doors at 22 p.m.")).isFatal = true ∧
    (finalizeEvent (draft ⟨739000, 0⟩ "Late Show" "Doors at 7:65 p.m.")).isFatal = true ∧
    finalize [draft ⟨739000, 0⟩ "Late Show" "Doors at 22 p.m.",
      draft ⟨739000, 0⟩ "Art Walk" "All day"] = ([], true) ∧
    (∃ o, finalizeEvent (draft ⟨739000, 0⟩ "Late Show" "Doors at 13 p.m.") = .forwarded o ∧
      o.Times = [⟨⟨739000, 15 * Hour⟩, ⟨739000, 16 * Hour⟩⟩]) ∧
    (∀ e : Event, Trim e.Title titleCutset ≠ [] → e.Dates.End.IsZero = true →
      (singleDayTimePattern.FindAllStringSubmatch (TrimSpace e.Body) = none →
        ∃ o, finalizeEvent e = .forwarded o ∧ o.Times = e.Times ∧
          (e.Times = [] → o.Times = [])) ∧
      ((finalizeEvent e).isFatal = true ↔
        ∃ m, singleDayTimePattern.FindAllStringSubmatch (TrimSpace e.Body) = some m ∧
          (Parse (startText m) = none ∨ (m.get 8 ≠ [] ∧ Parse (endText m) = none)))) :=
  ⟨⟨by decide, by decide, by decide, by decide⟩, by decide, by decide, by decide,
    ⟨_, rfl, by decide⟩, fun e hT hZ => finalize_without_time_match e hT hZ⟩

/-- C17 (the code at the failing input). The draft `Market` is single-day, with a Title
that is kept and no times yet. The first time match of its Description `Open 7 - 22 p.m.`
is the range `7 - 22 p.m.` with no meridiem on its start; group 8, which the code takes for
a clock time (`3 or 3:04`), holds `22`. `time.Parse` rejects `22:00 PM` and `finalize` ends
the process: no TimeRange is yielded, and neither this event nor the one after it is sent.
The same happens for `6:65 - 8 p.m.`, on the start text. Wherever groups 2 and 8 of the
first match are clock times of a 12-hour clock (hour 1 to 12, minute none or 00 to 59) and
the start has no meridiem, the start is read with the meridiem of the end, a missing minute
is read as `:00`, and the event is forwarded with the one TimeRange from `H1:M1 x.m.` to
`H2:M2 x.m.` on the day of `Dates.Start`: 19:00 to 21:00 for `7 - 9 p.m.`, 18:30 to 20:00
for `6:30 - 8 p.m.`. -/
theorem finalize_aborts_on_range_end :
    ((draft ⟨739000, 0⟩ "Market" "Open 7 - 22 p.m.").Dates.End.IsZero = true ∧
      Trim (draft ⟨739000, 0⟩ "Market" "Open 7 - 22 p.m.").Title titleCutset ≠ [] ∧
      (draft ⟨739000, 0⟩ "Market" "Open 7 - 22 p.m.").Times = [] ∧
      (singleDayTimePattern.FindAllStringSubmatch "Open 7 - 22 p.m.".toList).map
          (fun m => (m.get 1, m.get 2, m.get 6, m.get 8, m.get 10)) =
        some ("7 - 22 p.m.".toList, "7".toList, "".toList, "22".toList, "p".toList) ∧
      Parse (clockText "22".toList "p".toList) = none) ∧
    (finalizeEvent (draft ⟨739000, 0⟩ "Market" "Open 7 - 22 p.m.")).isFatal = true ∧
    (finalizeEvent (draft ⟨739000, 0⟩ "Market" "Open 6:65 - 8 p.m.")).isFatal = true ∧
    finalize [draft ⟨739000, 0⟩ "Market" "Open 7 - 22 p.m.",
      draft ⟨739000, 0⟩ "Art Walk" "All day"] = ([], true) ∧
    (∀ (e : Event) (m : Caps) (c₁ c₂ : List Char × Nat × Nat) (x : Char),
      Trim e.Title titleCutset ≠ [] → e.Dates.End.IsZero = true → e.Times = [] →
      singleDayTimePattern.FindAllStringSubmatch (TrimSpace e.Body) = some m →
      m.get 6 = [] → c₁ ∈ clockTexts → c₂ ∈ clockTexts → x ∈ ['a', 'p'] →
      m.get 2 = c₁.1 → m.get 8 = c₂.1 → m.get 10 = [x] →
      ∃ o, finalizeEvent e = .forwarded o ∧
        o.Times = [⟨e.Dates.Start.atClock (to24 c₁.2.1 x) c₁.2.2,
          e.Dates.Start.atClock (to24 c₂.2.1 x) c₂.2.2⟩]) ∧
    (∀ h x : List Char, (∀ c ∈ h, c ≠ ':') →
      clockText h x = h ++ ":00".toList ++ " ".toList ++ ToUpper x ++ "M".toList) ∧
    (∀ e : Event, Trim e.Title titleCutset ≠ [] → e.Dates.End.IsZero = true → e.Times = [] →
      (TrimSpace e.Body = "7 - 9 p.m.".toList →
        ∃ o, finalizeEvent e = .forwarded o ∧
          o.Times = [⟨e.Dates.Start.atClock 19 0, e.Dates.Start.atClock 21 0⟩]) ∧
      (TrimSpace e.Body = "6:30 - 8 p.m.".toList →
        ∃ o, finalizeEvent e = .forwarded o ∧
          o.Times = [⟨e.Dates.Start.atClock 18 30, e.Dates.Start.atClock 20 0⟩])) :=
  ⟨⟨by decide, by decide, by decide, by decide, by decide⟩, by decide, by decide, by decide,
    (fun e m c₁ c₂ x hT hZ hN =>
      (finalize_range_shares_meridiem e hT hZ hN).2.2.2.2 m c₁ c₂ x),
    clockText_of_hour,
    (fun e hT hZ hN =>
      ⟨(finalize_range_shares_meridiem e hT hZ hN).2.2.1,
        (finalize_range_shares_meridiem e hT hZ hN).2.2.2.1⟩)⟩

end Calbot
